import Mathlib

/-!
# Kubernetes routing experiment: the Go demo service

A shallow embedding of `go-app/handler.go` and `go-app/main.go`.

The three handlers are a few lines each; everything they observably do goes
through the Go standard library (`encoding/json`, `time`, `net/http`).  Those
library routines are modelled here at the byte level, following the Go 1.21
sources (the release the program itself reports in `go_version`):

* a Go `string` is a sequence of bytes, `List Nat` with every element below 256;
* `unicode/utf8` decoding and encoding of runes;
* the string escaping of `encoding/json` (HTML-safe mode, the default of
  `json.NewEncoder`) and the unquoting done by its decoder;
* `time.Time.MarshalJSON` / `UnmarshalJSON` (strict RFC 3339);
* `http.Header`, `httptest.ResponseRecorder` and `http.ServeMux`.
-/

namespace IngressApp

/-! ## Go strings -/

/-- A Go string: an immutable sequence of bytes (not necessarily valid UTF-8). -/
abbrev GoString := List Nat

/-- The bytes of an ASCII literal. -/
def ascii (s : String) : GoString := s.data.map Char.toNat

/-! ## unicode/utf8 -/

/-- The constant `utf8.RuneError`, U+FFFD. -/
def runeError : Nat := 0xFFFD

/-- Continuation-byte test used for the third and fourth byte of a sequence
(`locb <= b && b <= hicb`). -/
def isCont (b : Nat) : Bool := 0x80 ≤ b && b ≤ 0xBF

/-- The table `first` combined with `acceptRanges` of `unicode/utf8`: for a
leading byte, the length of the sequence and the accepted range of the second
byte; `none` for a byte that cannot start a multi-byte sequence. -/
def firstInfo (b : Nat) : Option (Nat × Nat × Nat) :=
  if 0xC2 ≤ b && b ≤ 0xDF then some (2, 0x80, 0xBF)
  else if b = 0xE0 then some (3, 0xA0, 0xBF)
  else if 0xE1 ≤ b && b ≤ 0xEC then some (3, 0x80, 0xBF)
  else if b = 0xED then some (3, 0x80, 0x9F)
  else if 0xEE ≤ b && b ≤ 0xEF then some (3, 0x80, 0xBF)
  else if b = 0xF0 then some (4, 0x90, 0xBF)
  else if 0xF1 ≤ b && b ≤ 0xF3 then some (4, 0x80, 0xBF)
  else if b = 0xF4 then some (4, 0x80, 0x8F)
  else none

/-- The function `utf8.DecodeRuneInString`: the first rune of `s` and its width in
bytes.  An empty string gives `(RuneError, 0)`, an invalid encoding
`(RuneError, 1)`.  The masks `b & 0x3F` and shifts of the source are written as
`%` and `*`; the or-ed fields do not overlap, so `|` is `+`. -/
def decodeRune : GoString → Nat × Nat
  | [] => (runeError, 0)
  | s0 :: rest =>
    if s0 < 0x80 then (s0, 1)
    else match firstInfo s0 with
      | none => (runeError, 1)
      | some (sz, lo, hi) =>
        match rest with
        | [] => (runeError, 1)
        | s1 :: rest1 =>
          if s1 < lo || hi < s1 then (runeError, 1)
          else if sz ≤ 2 then (s0 % 32 * 64 + s1 % 64, 2)
          else match rest1 with
            | [] => (runeError, 1)
            | s2 :: rest2 =>
              if !isCont s2 then (runeError, 1)
              else if sz ≤ 3 then (s0 % 16 * 4096 + s1 % 64 * 64 + s2 % 64, 3)
              else match rest2 with
                | [] => (runeError, 1)
                | s3 :: _ =>
                  if !isCont s3 then (runeError, 1)
                  else (s0 % 8 * 262144 + s1 % 64 * 4096 + s2 % 64 * 64 + s3 % 64, 4)

/-- The function `utf8.EncodeRune` / `utf8.AppendRune`: surrogates and values above
`MaxRune` are written as U+FFFD. -/
def encodeRune (r : Nat) : GoString :=
  if r ≤ 0x7F then [r]
  else if r ≤ 0x7FF then [0xC0 + r / 64, 0x80 + r % 64]
  else if r > 0x10FFFF || (0xD800 ≤ r && r ≤ 0xDFFF) then [0xEF, 0xBF, 0xBD]
  else if r ≤ 0xFFFF then [0xE0 + r / 4096, 0x80 + r / 64 % 64, 0x80 + r % 64]
  else [0xF0 + r / 262144, 0x80 + r / 4096 % 64, 0x80 + r / 64 % 64, 0x80 + r % 64]

/-- The loop of `utf8.ValidString`, with `fuel` bounding the number of runes. -/
def validLoop : Nat → GoString → Bool
  | 0, s => s.isEmpty
  | fuel + 1, s =>
    match s with
    | [] => true
    | b :: rest =>
      if b < 0x80 then validLoop fuel rest
      else
        let size := (decodeRune (b :: rest)).2
        if size = 1 then false else validLoop fuel (rest.drop (size - 1))

/-- The function `utf8.ValidString`: `s` consists entirely of valid UTF-8-encoded
runes. -/
def validString (s : GoString) : Bool := validLoop s.length s

/-! ## encoding/json: strings -/

/-- The digit table `hex = "0123456789abcdef"` of `encoding/json`. -/
def hexDigit (d : Nat) : Nat := if d < 10 then 48 + d else 87 + d

/-- The table `htmlSafeSet`: ASCII bytes written without escaping when HTML
escaping is on: everything from space to DEL except the double quote, the
backslash, and the characters less-than, greater-than and ampersand. -/
def htmlSafe (b : Nat) : Bool :=
  0x20 ≤ b && b < 0x80 && b != 0x22 && b != 0x5C && b != 0x3C && b != 0x3E && b != 0x26

/-- The escape written by `encodeState.string` for an ASCII byte outside
`htmlSafeSet` (Go 1.21: short escapes for newline, carriage return and tab only). -/
def escapeByte (b : Nat) : GoString :=
  if b = 0x5C || b = 0x22 then [0x5C, b]
  else if b = 0x0A then [0x5C, 0x6E]
  else if b = 0x0D then [0x5C, 0x72]
  else if b = 0x09 then [0x5C, 0x74]
  else [0x5C, 0x75, 0x30, 0x30, hexDigit (b / 16), hexDigit (b % 16)]

/-- The loop of `encodeState.string(s, escapeHTML = true)`: the bytes written between the
two quotes.  The source copies unescaped stretches lazily (`s[start:i]`); the
bytes written are the same as copying each rune when it is passed. -/
def stringLoop : Nat → GoString → GoString
  | 0, _ => []
  | fuel + 1, s =>
    match s with
    | [] => []
    | b :: rest =>
      if b < 0x80 then
        (if htmlSafe b then [b] else escapeByte b) ++ stringLoop fuel rest
      else
        let (c, size) := decodeRune (b :: rest)
        if c = runeError && size = 1 then
          ascii "\\ufffd" ++ stringLoop fuel rest
        else if c = 0x2028 || c = 0x2029 then
          ascii "\\u202" ++ [hexDigit (c % 16)] ++ stringLoop fuel (rest.drop (size - 1))
        else
          (b :: rest).take size ++ stringLoop fuel (rest.drop (size - 1))

/-- The method `encodeState.string`: a Go string as a JSON string literal. -/
def encodeString (s : GoString) : GoString :=
  [0x22] ++ stringLoop s.length s ++ [0x22]

/-- One hexadecimal digit as read by `getu4`. -/
def unhex (c : Nat) : Option Nat :=
  if 0x30 ≤ c && c ≤ 0x39 then some (c - 0x30)
  else if 0x61 ≤ c && c ≤ 0x66 then some (c - 0x61 + 10)
  else if 0x41 ≤ c && c ≤ 0x46 then some (c - 0x41 + 10)
  else none

/-- The function `getu4`: the code unit of a `\uXXXX` escape at the start of `s`,
`none` (the source returns -1) when there is no such escape. -/
def getu4 : GoString → Option Nat
  | 0x5C :: 0x75 :: a :: b :: c :: d :: _ =>
    match unhex a, unhex b, unhex c, unhex d with
    | some a, some b, some c, some d => some (((a * 16 + b) * 16 + c) * 16 + d)
    | _, _, _, _ => none
  | _ => none

/-- The function `utf16.IsSurrogate`. -/
def isSurrogate (r : Nat) : Bool := 0xD800 ≤ r && r < 0xE000

/-- The function `utf16.DecodeRune` applied to the result of a second `getu4`. -/
def utf16DecodeRune (r1 : Nat) (r2 : Option Nat) : Nat :=
  match r2 with
  | some r2 =>
    if 0xD800 ≤ r1 && r1 < 0xDC00 && 0xDC00 ≤ r2 && r2 < 0xE000 then
      (r1 - 0xD800) * 1024 + (r2 - 0xDC00) + 0x10000
    else runeError
  | none => runeError

/-- The second loop of `unquoteBytes`: the bytes between the quotes of a JSON
string literal, unescaped and coerced to well-formed UTF-8; `none` when the
literal is malformed. -/
def unquoteLoop : Nat → GoString → Option GoString
  | 0, s => if s.isEmpty then some [] else none
  | fuel + 1, s =>
    match s with
    | [] => some []
    | c :: rest =>
      if c = 0x5C then
        match rest with
        | [] => none
        | e :: rest1 =>
          if e = 0x22 || e = 0x5C || e = 0x2F || e = 0x27 then
            (unquoteLoop fuel rest1).map (e :: ·)
          else if e = 0x62 then (unquoteLoop fuel rest1).map (0x08 :: ·)
          else if e = 0x66 then (unquoteLoop fuel rest1).map (0x0C :: ·)
          else if e = 0x6E then (unquoteLoop fuel rest1).map (0x0A :: ·)
          else if e = 0x72 then (unquoteLoop fuel rest1).map (0x0D :: ·)
          else if e = 0x74 then (unquoteLoop fuel rest1).map (0x09 :: ·)
          else if e = 0x75 then
            match getu4 (c :: rest) with
            | none => none
            | some rr =>
              let rest6 := rest.drop 5
              if isSurrogate rr then
                let dec := utf16DecodeRune rr (getu4 rest6)
                if dec != runeError then
                  (unquoteLoop fuel (rest6.drop 6)).map (encodeRune dec ++ ·)
                else
                  (unquoteLoop fuel rest6).map (encodeRune runeError ++ ·)
              else
                (unquoteLoop fuel rest6).map (encodeRune rr ++ ·)
          else none
      else if c = 0x22 || c < 0x20 then none
      else if c < 0x80 then (unquoteLoop fuel rest).map (c :: ·)
      else
        let (rr, size) := decodeRune (c :: rest)
        (unquoteLoop fuel (rest.drop (size - 1))).map (encodeRune rr ++ ·)

/-- The first loop of `unquoteBytes`: the number of leading bytes that need no
unquoting (no backslash, quote, control character or invalid UTF-8). -/
def plainLength : Nat → GoString → Nat
  | 0, _ => 0
  | fuel + 1, s =>
    match s with
    | [] => 0
    | c :: rest =>
      if c = 0x5C || c = 0x22 || c < 0x20 then 0
      else if c < 0x80 then 1 + plainLength fuel rest
      else
        let (rr, size) := decodeRune (c :: rest)
        if rr = runeError && size = 1 then 0
        else size + plainLength fuel (rest.drop (size - 1))

/-- The function `unquoteBytes` on the bytes between the quotes: a literal without
unusual characters is returned as it is, otherwise the plain stretch is copied
and the rest unescaped. -/
def unquoteBody (s : GoString) : Option GoString :=
  let r := plainLength s.length s
  if r = s.length then some s
  else (unquoteLoop s.length (s.drop r)).map (s.take r ++ ·)

/-- The function `unquote`: a JSON string literal, quotes included, to the Go string
it denotes. -/
def unquote (s : GoString) : Option GoString :=
  match s with
  | 0x22 :: rest =>
    if rest.getLast? = some 0x22 then unquoteBody rest.dropLast else none
  | _ => none

/-! ## time: clock readings and RFC 3339 -/

/-- A clock reading as returned by `time.Now()`: the wall clock as seconds and
nanoseconds since the Unix epoch, and the offset (seconds east of UTC) that the
local time zone has at that instant.  The monotonic reading that `time.Now()` also
records is left out: `encoding/json` never looks at it. -/
structure Time where
  sec : Int
  nsec : Nat
  offset : Int
  deriving DecidableEq, Repr

/-- The sum `unixToInternal + internalToAbsolute` of package `time`: seconds from the
absolute epoch (year -292277022399) to the Unix epoch. -/
def unixToAbsolute : Int := 9223372028715321600

/-- The absolute seconds of the local time, the third result of `Time.locabs`: `uint64(sec + offset +
(unixToInternal + internalToAbsolute))`, with 64-bit wrap-around. -/
def locabs (t : Time) : Nat := ((t.sec + t.offset + unixToAbsolute) % 18446744073709551616).toNat

/-- The function `isLeap` of package `time`. -/
def isLeap (year : Int) : Bool := year % 4 = 0 && (year % 100 != 0 || year % 400 = 0)

/-- The table `daysBefore`: `daysBefore m` is the number of days in a non-leap year
before month `m + 1`. -/
def daysBefore (m : Nat) : Nat :=
  match m with
  | 0 => 0 | 1 => 31 | 2 => 59 | 3 => 90 | 4 => 120 | 5 => 151 | 6 => 181
  | 7 => 212 | 8 => 243 | 9 => 273 | 10 => 304 | 11 => 334 | _ => 365

/-- The function `absDate(abs, false)`: the year and the day within the year (from 0) of an
absolute time.  The steps are those of the source: 400-year, 100-year and 4-year
cycles, then years (`n -= n >> 2` is `n - n / 4`). -/
def absYearDay (abs : Nat) : Int × Nat :=
  let d := abs / 86400
  let n400 := d / 146097
  let d := d - 146097 * n400
  let n100 := d / 36524
  let n100 := n100 - n100 / 4
  let d := d - 36524 * n100
  let n4 := d / 1461
  let d := d - 1461 * n4
  let n1 := d / 365
  let n1 := n1 - n1 / 4
  let d := d - 365 * n1
  let y := 400 * n400 + 100 * n100 + 4 * n4 + n1
  ((y : Int) + (-292277022399), d)

/-- The second half of `absDate(abs, true)`: month (1 to 12) and day of the month from the day of
the year, the month being estimated as `day / 31` and adjusted. -/
def monthDay (leap : Bool) (yday : Nat) : Nat × Nat :=
  if leap && yday = 31 + 29 - 1 then (2, 29)
  else
    let day := if leap && yday > 31 + 29 - 1 then yday - 1 else yday
    let month := day / 31
    let fin := daysBefore (month + 1)
    if day ≥ fin then (month + 2, day - fin + 1)
    else (month + 1, day - daysBefore month + 1)

/-- The function `absDate(abs, true)`: year, month and day of the month of an absolute time. -/
def absDate (abs : Nat) : Int × Nat × Nat :=
  let (year, yday) := absYearDay abs
  let (month, day) := monthDay (isLeap year) yday
  (year, month, day)

/-- The function `absClock`: hour, minute and second within the day. -/
def absClock (abs : Nat) : Nat × Nat × Nat :=
  let sec := abs % 86400
  let hour := sec / 3600
  let sec := sec - hour * 3600
  let min := sec / 60
  (hour, min, sec - min * 60)

/-- The decimal digits of a positive `n`, most significant first (nothing for 0);
`fuel` bounds the number of digits. -/
def decimalDigits : Nat → Nat → GoString
  | 0, _ => []
  | fuel + 1, n => if n = 0 then [] else decimalDigits fuel (n / 10) ++ [48 + n % 10]

/-- The function `appendInt(b, x, width)` of package `time`: the decimal form of `x`, zero-padded
to `width` digits, after a minus sign when `x` is negative.  Widths 2 and 4 have
the fast paths of the source. -/
def appendInt (x : Int) (width : Nat) : GoString :=
  let u := x.natAbs
  (if x < 0 then [0x2D] else []) ++
  (if width = 2 ∧ u < 100 then [48 + u / 10, 48 + u % 10]
   else if width = 4 ∧ u < 10000 then
     [48 + u / 100 / 10, 48 + u / 100 % 10, 48 + u % 100 / 10, 48 + u % 100 % 10]
   else
     let ds := if u = 0 then [48] else decimalDigits u u
     List.replicate (width - ds.length) 48 ++ ds)

/-- Removal of trailing zero digits, the trimming loop of `appendNano`. -/
def trimZeros (ds : GoString) : GoString :=
  (ds.reverse.dropWhile (· = 48)).reverse

/-- The function `appendNano` for the layout `.999999999`: nothing for zero nanoseconds, otherwise
a period and nine digits without their trailing zeros. -/
def appendNano (nanosec : Nat) : GoString :=
  if nanosec = 0 then []
  else
    let b := trimZeros ([0x2E] ++ appendInt nanosec 9)
    if b.getLast? = some 0x2E then b.dropLast else b

/-- The block "Format zone" of `Time.appendFormatRFC3339`: `Z` for offset zero, otherwise the sign and the
offset in hours and minutes, the seconds of the offset being dropped (the
divisions of the source truncate toward zero). -/
def formatZone (offset : Int) : GoString :=
  if offset = 0 then [0x5A]
  else
    let zone := offset.tdiv 60
    let sign := if zone < 0 then [0x2D] else [0x2B]
    let zone := if zone < 0 then -zone else zone
    sign ++ appendInt (zone.tdiv 60) 2 ++ [0x3A] ++ appendInt (zone.tmod 60) 2

/-- The function `Time.appendFormatRFC3339(b, true)`: the time in its own zone in the layout
`2006-01-02T15:04:05.999999999Z07:00`. -/
def appendFormatRFC3339 (t : Time) : GoString :=
  let abs := locabs t
  let (year, month, day) := absDate abs
  let (hour, min, sec) := absClock abs
  appendInt year 4 ++ [0x2D] ++ appendInt month 2 ++ [0x2D] ++ appendInt day 2
    ++ [0x54] ++ appendInt hour 2 ++ [0x3A] ++ appendInt min 2 ++ [0x3A] ++ appendInt sec 2
    ++ appendNano t.nsec ++ formatZone t.offset

/-- An ASCII decimal digit. -/
def isDigit (c : Nat) : Bool := 0x30 ≤ c && c ≤ 0x39

/-- The helper `num2` of `appendStrictRFC3339`: the value of two digits, in byte arithmetic. -/
def num2 (b : GoString) : Nat :=
  (10 * ((b.getD 0 0 + 256 - 0x30) % 256) + (b.getD 1 0 + 256 - 0x30) % 256) % 256

/-- The function `Time.appendStrictRFC3339`: the formatted time, or `none` when the source reports
an error: a year that is not exactly four digits wide, or a zone hour
outside 0 to 23. -/
def appendStrictRFC3339 (t : Time) : Option GoString :=
  let b := appendFormatRFC3339 t
  if b.getD 4 0 != 0x2D then none
  else if b.getLast? != some 0x5A then
    let c := b.getD (b.length - 6) 0
    if isDigit c || num2 (b.drop (b.length - 5)) ≥ 24 then none else some b
  else some b

/-- The method `Time.MarshalJSON`: the strict RFC 3339 form between double quotes, or an error
(`none`). -/
def Time.marshalJSON (t : Time) : Option GoString :=
  (appendStrictRFC3339 t).map fun b => [0x22] ++ b ++ [0x22]

/-! ## net/http: headers, requests, the response recorder -/

/-- The type `http.Header`, a `map[string][]string`, as an association list; a Go map has
each key once.  Nil maps and nil value slices, which `net/http` never puts in a
request, are not represented. -/
abbrev Header := List (GoString × List GoString)

/-- The map assignment `m[k] = v`. -/
def mapSet {α : Type} (m : List (GoString × α)) (k : GoString) (v : α) : List (GoString × α) :=
  match m with
  | [] => [(k, v)]
  | (k1, v1) :: rest => if k1 = k then (k, v) :: rest else (k1, v1) :: mapSet rest k v

/-- The map index `m[k]`, with `none` for an absent key. -/
def mapGet {α : Type} (m : List (GoString × α)) (k : GoString) : Option α :=
  match m with
  | [] => none
  | (k1, v1) :: rest => if k1 = k then some v1 else mapGet rest k

/-- The function `validHeaderFieldByte` of `net/textproto`: the token characters of RFC 7230. -/
def validHeaderFieldByte (c : Nat) : Bool :=
  (0x30 ≤ c && c ≤ 0x39) || (0x41 ≤ c && c ≤ 0x5A) || (0x61 ≤ c && c ≤ 0x7A) ||
  c = 0x21 || c = 0x23 || c = 0x24 || c = 0x25 || c = 0x26 || c = 0x27 || c = 0x2A ||
  c = 0x2B || c = 0x2D || c = 0x2E || c = 0x5E || c = 0x5F || c = 0x60 || c = 0x7C || c = 0x7E

/-- The case loop of `canonicalMIMEHeaderKey`: upper case for the first letter and any letter after a
hyphen, lower case for the rest. -/
def canonicalCase : Bool → GoString → GoString
  | _, [] => []
  | upper, c :: rest =>
    let c1 := if upper && 0x61 ≤ c && c ≤ 0x7A then c - 32
      else if !upper && 0x41 ≤ c && c ≤ 0x5A then c + 32 else c
    c1 :: canonicalCase (c1 = 0x2D) rest

/-- The function `textproto.CanonicalMIMEHeaderKey`: a name with a byte that is not a token character
is returned unchanged. -/
def canonicalMIMEHeaderKey (s : GoString) : GoString :=
  if s.all validHeaderFieldByte then canonicalCase true s else s

/-- The method `Header.Set`: `h[CanonicalMIMEHeaderKey(key)] = []string{value}`. -/
def Header.set (h : Header) (key value : GoString) : Header :=
  mapSet h (canonicalMIMEHeaderKey key) [value]

/-- The parts of an `*http.Request` that the program can observe. -/
structure Request where
  method : GoString
  path : GoString
  host : GoString
  header : Header
  body : GoString
  deriving DecidableEq, Repr

/-- The type `httptest.ResponseRecorder`, the `http.ResponseWriter` the tests of the
repository hand to the handlers. -/
structure ResponseRecorder where
  code : Nat
  headerMap : Header
  body : GoString
  wroteHeader : Bool
  snapHeader : Option Header
  deriving DecidableEq, Repr

/-- The function `httptest.NewRecorder`. -/
def newRecorder : ResponseRecorder :=
  { code := 200, headerMap := [], body := [], wroteHeader := false, snapHeader := none }

/-- The call `w.Header().Set(key, value)`. -/
def ResponseRecorder.setHeader (w : ResponseRecorder) (key value : GoString) : ResponseRecorder :=
  { w with headerMap := w.headerMap.set key value }

/-- The method `ResponseRecorder.WriteHeader`: the first call fixes the status code and takes a
snapshot of the headers. -/
def ResponseRecorder.writeHeader (w : ResponseRecorder) (code : Nat) : ResponseRecorder :=
  if w.wroteHeader then w
  else { w with code := code, wroteHeader := true, snapHeader := some w.headerMap }

/-- The method `ResponseRecorder.Write`: an implicit `WriteHeader(200)` before the
first bytes.  The content sniffing of the source applies only when no
`Content-Type` has been set, which every handler here does first. -/
def ResponseRecorder.write (w : ResponseRecorder) (b : GoString) : ResponseRecorder :=
  let w := w.writeHeader 200
  { w with body := w.body ++ b }

/-- What `ResponseRecorder.Result` reports: status code, headers as sent, body. -/
structure Response where
  statusCode : Nat
  header : Header
  body : GoString
  deriving DecidableEq, Repr

/-- The method `ResponseRecorder.Result`. -/
def ResponseRecorder.result (w : ResponseRecorder) : Response :=
  { statusCode := if w.code = 0 then 200 else w.code
    header := w.snapHeader.getD w.headerMap
    body := w.body }

/-! ## encoding/json: encoding of the response values -/

/-- The comparison `a < b` of Go strings: bytewise lexicographic. -/
def strLt : GoString → GoString → Bool
  | _, [] => false
  | [], _ :: _ => true
  | a :: as, b :: bs => a < b || (a = b && strLt as bs)

/-- Insertion into a list sorted by key. -/
def insertByKey {α : Type} (e : GoString × α) : List (GoString × α) → List (GoString × α)
  | [] => [e]
  | e1 :: rest => if strLt e1.1 e.1 then e1 :: insertByKey e rest else e :: e1 :: rest

/-- The key order in which the map encoder writes a map:
`sort.Slice(sv, func(i, j int) bool { return sv[i].ks < sv[j].ks })`. -/
def sortByKey {α : Type} : List (GoString × α) → List (GoString × α)
  | [] => []
  | e :: rest => insertByKey e (sortByKey rest)

/-- Elements separated by commas. -/
def joinComma : List GoString → GoString
  | [] => []
  | [x] => x
  | x :: y :: rest => x ++ [0x2C] ++ joinComma (y :: rest)

/-- The array encoder on a `[]string`. -/
def encodeStringSlice (xs : List GoString) : GoString :=
  [0x5B] ++ joinComma (xs.map encodeString) ++ [0x5D]

/-- The map encoder on an `http.Header`: keys sorted, each written as a JSON string. -/
def encodeHeader (h : Header) : GoString :=
  [0x7B] ++ joinComma ((sortByKey h).map fun e => encodeString e.1 ++ [0x3A] ++ encodeStringSlice e.2)
    ++ [0x7D]

/-- The dynamic values the root handler stores in its `map[string]interface{}`. -/
inductive Iface where
  | str (s : GoString)
  | header (h : Header)
  deriving DecidableEq, Repr

/-- The encoder chosen for the dynamic type of an interface value. -/
def encodeIface : Iface → GoString
  | .str s => encodeString s
  | .header h => encodeHeader h

/-- The map encoder on a `map[string]interface{}`. -/
def encodeMap (m : List (GoString × Iface)) : GoString :=
  [0x7B] ++ joinComma ((sortByKey m).map fun e => encodeString e.1 ++ [0x3A] ++ encodeIface e.2)
    ++ [0x7D]

/-- The struct `HealthResponse` of `handler.go`. -/
structure HealthResponse where
  status : GoString
  timestamp : Time
  deriving DecidableEq, Repr

/-- The struct `VersionResponse` of `handler.go`. -/
structure VersionResponse where
  version : GoString
  buildTime : Time
  goVersion : GoString
  deriving DecidableEq, Repr

/-- The struct encoder on a `HealthResponse`, fields in declaration order under their
`json` tags; an error of `Time.MarshalJSON` aborts the encoding.  (The encoder passes
what `MarshalJSON` returns through `compact`, which leaves an RFC 3339 string as it
is.) -/
def HealthResponse.marshal (v : HealthResponse) : Option GoString :=
  v.timestamp.marshalJSON.map fun ts =>
    [0x7B] ++ ascii "\"status\":" ++ encodeString v.status ++ [0x2C] ++
      ascii "\"timestamp\":" ++ ts ++ [0x7D]

/-- The struct encoder on a `VersionResponse`. -/
def VersionResponse.marshal (v : VersionResponse) : Option GoString :=
  v.buildTime.marshalJSON.map fun ts =>
    [0x7B] ++ ascii "\"version\":" ++ encodeString v.version ++ [0x2C] ++
      ascii "\"build_time\":" ++ ts ++ [0x2C] ++
      ascii "\"go_version\":" ++ encodeString v.goVersion ++ [0x7D]

/-- The call `json.NewEncoder(w).Encode(v)` given the outcome of marshalling `v`: on
success the encoding and a newline are written to `w` in one `Write`; on an
error nothing is written (the handlers ignore the returned error). -/
def encoderEncode (w : ResponseRecorder) (marshalled : Option GoString) : ResponseRecorder :=
  match marshalled with
  | some b => w.write (b ++ [0x0A])
  | none => w

/-! ## handler.go -/

/-- The handler `healthHandler`; `now` is what `time.Now()` returns during the call. -/
def healthHandler (w : ResponseRecorder) (_r : Request) (now : Time) : ResponseRecorder :=
  let w := w.setHeader (ascii "Content-Type") (ascii "application/json")
  let response : HealthResponse := { status := ascii "ok", timestamp := now }
  encoderEncode w response.marshal

/-- The handler `versionHandler`. -/
def versionHandler (w : ResponseRecorder) (_r : Request) (now : Time) : ResponseRecorder :=
  let w := w.setHeader (ascii "Content-Type") (ascii "application/json")
  let response : VersionResponse :=
    { version := ascii "1.0.0", buildTime := now, goVersion := ascii "1.21" }
  encoderEncode w response.marshal

/-- The handler `rootHandler`. -/
def rootHandler (w : ResponseRecorder) (r : Request) : ResponseRecorder :=
  let w := w.setHeader (ascii "Content-Type") (ascii "application/json")
  let response : List (GoString × Iface) :=
    [ (ascii "message", .str (ascii "Welcome to the Kubernetes Routing Experiment")),
      (ascii "path", .str r.path),
      (ascii "method", .str r.method),
      (ascii "headers", .header r.header) ]
  encoderEncode w (some (encodeMap response))

/-! ## net/http: the request multiplexer -/

/-- The handlers of `handler.go`, as registered values. -/
inductive HandlerId where
  | health
  | version
  | root
  deriving DecidableEq, Repr

/-- The type `http.ServeMux`: the pattern map `m`, the patterns ending in a slash sorted from longest
to shortest (`es`), and whether any pattern names a host. -/
structure ServeMux where
  m : List (GoString × HandlerId)
  es : List (GoString × HandlerId)
  hosts : Bool
  deriving DecidableEq, Repr

/-- The function `appendSorted`: insertion before the first entry with a shorter pattern. -/
def appendSorted (es : List (GoString × HandlerId)) (e : GoString × HandlerId) :
    List (GoString × HandlerId) :=
  match es with
  | [] => [e]
  | e1 :: rest => if e1.1.length < e.1.length then e :: e1 :: rest else e1 :: appendSorted rest e

/-- The method `ServeMux.Handle` (reached through `http.HandleFunc`); `none` where the source
panics: empty pattern or a pattern registered twice. -/
def ServeMux.handle (mux : ServeMux) (pattern : GoString) (h : HandlerId) : Option ServeMux :=
  if pattern = [] then none
  else if (mapGet mux.m pattern).isSome then none
  else some
    { m := mapSet mux.m pattern h
      es := if pattern.getLast? = some 0x2F then appendSorted mux.es (pattern, h) else mux.es
      hosts := mux.hosts || pattern.head? != some 0x2F }

/-- The test `strings.HasPrefix(s, p)`. -/
def hasPrefix (s p : GoString) : Bool := s.take p.length = p

/-- The method `ServeMux.match`: an exact match first, then the longest pattern ending in a
slash that the path starts with. -/
def ServeMux.match (mux : ServeMux) (path : GoString) : Option (HandlerId × GoString) :=
  match mapGet mux.m path with
  | some h => some (h, path)
  | none => (mux.es.find? fun e => hasPrefix path e.1).map fun e => (e.2, e.1)

/-- Where the multiplexer sends a request: to a registered handler (with the pattern
that matched), to a 301 redirect (with the path redirected to), or to the
not-found handler. -/
inductive Route where
  | serve (h : HandlerId) (pattern : GoString)
  | redirect (path : GoString)
  | notFound
  deriving DecidableEq, Repr

/-- The method `ServeMux.handler(host, path)`. -/
def ServeMux.handler (mux : ServeMux) (host path : GoString) : Route :=
  let r := if mux.hosts then mux.match (host ++ path) else none
  let r := if r.isNone then mux.match path else r
  match r with
  | some (h, pattern) => .serve h pattern
  | none => .notFound

/-- The method `ServeMux.shouldRedirectRLocked`: whether `path` is unregistered while `path + "/"` is
registered. -/
def ServeMux.shouldRedirect (mux : ServeMux) (host path : GoString) : Bool :=
  let p := [path, host ++ path]
  if p.any fun c => (mapGet mux.m c).isSome then false
  else if path.length = 0 then false
  else if p.any fun c => (mapGet mux.m (c ++ [0x2F])).isSome then path.getLast? != some 0x2F
  else false

/-- The backtracking loop of `path.Clean` for a `..` element: from write index
`w`, back to the last slash but not below `dotdot`. -/
def backtrack (out : GoString) (dotdot : Nat) : Nat → Nat
  | 0 => 0
  | w + 1 => if w + 1 > dotdot && out.getD (w + 1) 0 != 0x2F then backtrack out dotdot w else w + 1

/-- The main loop of `path.Clean`: `p` is what is left to read, `out` the buffer
written so far. -/
def cleanLoop (rooted : Bool) : Nat → GoString → GoString → Nat → GoString
  | 0, _, out, _ => out
  | fuel + 1, p, out, dotdot =>
    match p with
    | [] => out
    | c :: rest =>
      if c = 0x2F then cleanLoop rooted fuel rest out dotdot
      else if c = 0x2E && (rest.isEmpty || rest.head? = some 0x2F) then
        cleanLoop rooted fuel rest out dotdot
      else if c = 0x2E && rest.head? = some 0x2E &&
          (rest.tail.isEmpty || rest.tail.head? = some 0x2F) then
        if out.length > dotdot then
          cleanLoop rooted fuel rest.tail (out.take (backtrack out dotdot (out.length - 1))) dotdot
        else if !rooted then
          let out := (if out.length > 0 then out ++ [0x2F] else out) ++ [0x2E, 0x2E]
          cleanLoop rooted fuel rest.tail out out.length
        else cleanLoop rooted fuel rest.tail out dotdot
      else
        let out :=
          if (rooted && out.length != 1) || (!rooted && out.length != 0) then out ++ [0x2F] else out
        cleanLoop rooted fuel (rest.dropWhile (· != 0x2F))
          (out ++ c :: rest.takeWhile (· != 0x2F)) dotdot

/-- The function `path.Clean`. -/
def pathClean (path : GoString) : GoString :=
  match path with
  | [] => [0x2E]
  | c :: rest =>
    let out :=
      if c = 0x2F then cleanLoop true path.length rest [0x2F] 1
      else cleanLoop false path.length path [] 0
    if out.isEmpty then [0x2E] else out

/-- The function `cleanPath` of `net/http`: the canonical form of a request path, with the trailing
slash kept. -/
def cleanPath (p : GoString) : GoString :=
  if p = [] then [0x2F]
  else
    let p := if p.head? != some 0x2F then 0x2F :: p else p
    let np := pathClean p
    if p.getLast? = some 0x2F && np != [0x2F] then
      if p.length = np.length + 1 && hasPrefix p np then p else np ++ [0x2F]
    else np

/-- The method `ServeMux.Handler`: the routing decision for a request.  `stripHostPort` is the
function of that name of `net/http`, and `urlHost` the field `r.URL.Host`. -/
def ServeMux.route (mux : ServeMux) (stripHostPort : GoString → GoString) (urlHost : GoString)
    (r : Request) : Route :=
  if r.method = ascii "CONNECT" then
    if mux.shouldRedirect urlHost r.path then .redirect (r.path ++ [0x2F])
    else mux.handler r.host r.path
  else
    let host := stripHostPort r.host
    let path := cleanPath r.path
    if mux.shouldRedirect host path then .redirect (path ++ [0x2F])
    else if path != r.path then .redirect path
    else mux.handler host r.path

/-! ## main.go -/

/-- The process environment, as `os.Getenv` sees it. -/
abbrev Environ := List (GoString × GoString)

/-- The function `os.Getenv`: the value of the variable, empty when it is not present. -/
def getenv (env : Environ) (key : GoString) : GoString := (mapGet env key).getD []

/-- The address `main` passes to `http.ListenAndServe`. -/
def listenAddr (env : Environ) : GoString :=
  let port := getenv env (ascii "PORT")
  let port := if port = [] then ascii "8080" else port
  ascii ":" ++ port

/-- The three registrations of `main` on the default multiplexer, in source order. -/
def registerHandlers : Option ServeMux :=
  (({ m := [], es := [], hosts := false } : ServeMux).handle (ascii "/healthz") .health).bind fun mux =>
  (mux.handle (ascii "/version") .version).bind fun mux =>
  mux.handle (ascii "/") .root

/-- The multiplexer `main` serves with. -/
def mainMux : ServeMux := registerHandlers.getD { m := [], es := [], hosts := false }

/-- The method `ServeHTTP` of a registered handler: the `http.HandlerFunc` of `handler.go` behind
the identifier, writing to `w`. -/
def HandlerId.serveHTTP (h : HandlerId) (w : ResponseRecorder) (r : Request) (now : Time) :
    ResponseRecorder :=
  match h with
  | .health => healthHandler w r now
  | .version => versionHandler w r now
  | .root => rootHandler w r

/-- What `ServeMux.ServeHTTP` does with a request.  A registered handler is run and what it
wrote to its `ResponseWriter` is recorded (status, headers, body; a server leaves
the body out of the answer to a HEAD request).  The handlers of `net/http` itself
are named and their output is not modelled: `badRequest` is the branch
`w.WriteHeader(StatusBadRequest)`, `redirect path` is `RedirectHandler(u.String(), StatusMovedPermanently)` for
the URL `u` with `u.Path = path`, and `notFound` is `NotFoundHandler()`. -/
inductive Answer where
  | handled (h : HandlerId) (resp : Response)
  | redirect (path : GoString)
  | notFound
  | badRequest
  deriving DecidableEq, Repr

/-- The method `ServeMux.ServeHTTP` on a fresh response writer: a request whose `RequestURI` is `*`
is answered with status 400 before any routing, every other request goes to
the handler that `ServeMux.Handler` selects. -/
def ServeMux.serveHTTP (mux : ServeMux) (stripHostPort : GoString → GoString)
    (urlHost requestURI : GoString) (r : Request) (now : Time) : Answer :=
  if requestURI = ascii "*" then .badRequest
  else
    match mux.route stripHostPort urlHost r with
    | .serve h _ => .handled h (h.serveHTTP newRecorder r now).result
    | .redirect path => .redirect path
    | .notFound => .notFound

/-- The multiplexer of `main` handling a request that the server passes to it;
`requestURI` is the field `r.RequestURI`, the request target as received. -/
def serve (stripHostPort : GoString → GoString) (urlHost requestURI : GoString) (r : Request)
    (now : Time) : Answer :=
  mainMux.serveHTTP stripHostPort urlHost requestURI r now

/-! ## time: parsing RFC 3339 -/

/-- A 64-bit signed integer after wrap-around. -/
def wrapInt64 (x : Int) : Int := (x + 9223372036854775808) % 18446744073709551616 - 9223372036854775808

/-- The function `daysSinceEpoch`: days from the absolute epoch to the start of `year`. -/
def daysSinceEpoch (year : Int) : Nat :=
  let y := ((year - (-292277022399)) % 18446744073709551616).toNat
  let n := y / 400
  let y := y - 400 * n
  let d := 146097 * n
  let n := y / 100
  let y := y - 100 * n
  let d := d + 36524 * n
  let n := y / 4
  let y := y - 4 * n
  let d := d + 1461 * n
  d + 365 * y

/-- The function `time.Date(year, month, day, hour, min, sec, nsec, time.UTC)` as Unix seconds, for arguments that are already
in range (the normalisation steps of the source then change nothing). -/
def dateUnix (year month day hour min sec : Nat) : Int :=
  let d := daysSinceEpoch year + daysBefore (month - 1)
  let d := if isLeap year && month ≥ 3 then d + 1 else d
  let d := d + (day - 1)
  let abs := (d * 86400 + (hour * 3600 + min * 60 + sec)) % 18446744073709551616
  wrapInt64 (wrapInt64 abs - unixToAbsolute)

/-- The function `daysIn(m, year)`. -/
def daysIn (m : Nat) (year : Int) : Nat :=
  if m = 2 && isLeap year then 29 else daysBefore m - daysBefore (m - 1)

/-- The value of a string of decimal digits, `x = x*10 + int(c) - 48` from `0`. -/
def digitsValue (s : GoString) : Nat := s.foldl (fun x c => x * 10 + (c - 48)) 0

/-- The closure `parseUint` of `parseRFC3339`: an unsigned decimal number within `min` to `max`; `none`
where the source clears `ok`. -/
def parseUint (s : GoString) (min max : Nat) : Option Nat :=
  if s.all isDigit then
    let x := digitsValue s
    if x < min || max < x then none else some x
  else none

/-- The bytes `s[i:j]`. -/
def slice (s : GoString) (i j : Nat) : GoString := (s.take j).drop i

/-- The block "Parse the fractional second" of `parseRFC3339`: after a period and a digit, all
following digits are read, of which `parseNanoseconds` uses the first nine, scaled to
nanoseconds.  The results are the nanoseconds and the input left. -/
def parseFraction (s : GoString) : Nat × GoString :=
  if s.length ≥ 2 && s.head? = some 0x2E && isDigit (s.getD 1 0) then
    let digits := (s.drop 1).takeWhile isDigit
    (digitsValue (digits.take 9) * 10 ^ (9 - (digits.take 9).length), s.drop (1 + digits.length))
  else (0, s)

/-- The block "Parse the time zone" of `parseRFC3339`: `Z`, or a sign, two digits of hours (0 to 23), a
colon and two digits of minutes (0 to 59); `unix` is the date and time read so
far as if in UTC. -/
def parseZone (unix : Int) (nsec : Nat) (s : GoString) : Option Time :=
  if s = [0x5A] then some { sec := unix, nsec := nsec, offset := 0 }
  else if s.length != 6 then none
  else
    (parseUint (slice s 1 3) 0 23).bind fun hr =>
    (parseUint (slice s 4 6) 0 59).bind fun mm =>
    if !((s.head? = some 0x2D || s.head? = some 0x2B) && s.getD 3 0 = 0x3A) then none
    else
      let zoneOffset : Int := if s.head? = some 0x2D then -(((hr * 60 + mm) * 60 : Nat) : Int)
        else (((hr * 60 + mm) * 60 : Nat) : Int)
      some { sec := wrapInt64 (unix - zoneOffset), nsec := nsec, offset := zoneOffset }

/-- The function `parseRFC3339` of package `time`. -/
def parseRFC3339 (s : GoString) : Option Time :=
  if s.length < 19 then none
  else
    (parseUint (slice s 0 4) 0 9999).bind fun year =>
    (parseUint (slice s 5 7) 1 12).bind fun month =>
    (parseUint (slice s 8 10) 1 (daysIn month year)).bind fun day =>
    (parseUint (slice s 11 13) 0 23).bind fun hour =>
    (parseUint (slice s 14 16) 0 59).bind fun min =>
    (parseUint (slice s 17 19) 0 59).bind fun sec =>
    if !(s.getD 4 0 = 0x2D && s.getD 7 0 = 0x2D && s.getD 10 0 = 0x54 && s.getD 13 0 = 0x3A
        && s.getD 16 0 = 0x3A) then none
    else
      let (nsec, rest) := parseFraction (s.drop 19)
      parseZone (dateUnix year month day hour min sec) nsec rest

/-- The method `Time.UnmarshalJSON` on a JSON string literal (quotes included).  Only the
path through `parseRFC3339` is modelled; where that fails the source falls back to
the layout parser `Parse(RFC3339, ...)`, this model to `none`. -/
def Time.unmarshalJSON (data : GoString) : Option Time :=
  match data with
  | 0x22 :: rest => if rest.getLast? = some 0x22 then parseRFC3339 rest.dropLast else none
  | _ => none

/-! ## encoding/json: decoding -/

/-- JSON white space. -/
def isSpace (c : Nat) : Bool := c = 0x20 || c = 0x09 || c = 0x0D || c = 0x0A

/-- The input after leading white space. -/
def skipSpace (s : GoString) : GoString := s.dropWhile isSpace

/-- The scanner inside a string literal, after the opening quote: the bytes up
to the closing quote and the input after it; `none` for a control character, an
escape the scanner rejects, or input that ends inside the literal. -/
def scanString : GoString → Option (GoString × GoString)
  | [] => none
  | 0x22 :: rest => some ([], rest)
  | 0x5C :: 0x75 :: a :: b :: c :: d :: rest =>
    if (unhex a).isSome && (unhex b).isSome && (unhex c).isSome && (unhex d).isSome then
      (scanString rest).map fun p => (0x5C :: 0x75 :: a :: b :: c :: d :: p.1, p.2)
    else none
  | 0x5C :: e :: rest =>
    if e = 0x62 || e = 0x66 || e = 0x6E || e = 0x72 || e = 0x74 || e = 0x5C || e = 0x2F || e = 0x22 then
      (scanString rest).map fun p => (0x5C :: e :: p.1, p.2)
    else none
  | c :: rest =>
    if c < 0x20 || c = 0x5C then none else (scanString rest).map fun p => (c :: p.1, p.2)

/-- A decoded JSON value.  A string keeps the bytes of its literal (`raw`, without
the quotes) next to the Go string it denotes.  Numbers and the literals `null`, `true`
and `false`, which no handler writes, are not accepted by this model of the decoder. -/
inductive JVal where
  | str (raw : GoString) (val : GoString)
  | arr (elems : List JVal)
  | obj (members : List (GoString × JVal))

mutual
/-- The decoder on one JSON value: the value and the input left after it. -/
def parseValue : Nat → GoString → Option (JVal × GoString)
  | 0, _ => none
  | fuel + 1, s =>
    match skipSpace s with
    | 0x22 :: rest =>
      match scanString rest with
      | none => none
      | some (raw, rest1) => (unquoteBody raw).map fun val => (JVal.str raw val, rest1)
    | 0x5B :: rest =>
      match skipSpace rest with
      | 0x5D :: rest1 => some (JVal.arr [], rest1)
      | _ => (parseElems fuel rest).map fun p => (JVal.arr p.1, p.2)
    | 0x7B :: rest =>
      match skipSpace rest with
      | 0x7D :: rest1 => some (JVal.obj [], rest1)
      | _ => (parseMembers fuel rest).map fun p => (JVal.obj p.1, p.2)
    | _ => none
/-- The elements of a non-empty array, up to and including the closing bracket. -/
def parseElems : Nat → GoString → Option (List JVal × GoString)
  | 0, _ => none
  | fuel + 1, s =>
    match parseValue fuel s with
    | none => none
    | some (v, rest) =>
      match skipSpace rest with
      | 0x2C :: rest1 => (parseElems fuel rest1).map fun p => (v :: p.1, p.2)
      | 0x5D :: rest1 => some ([v], rest1)
      | _ => none
/-- The members of a non-empty object, up to and including the closing brace; keys
are unquoted as they are read. -/
def parseMembers : Nat → GoString → Option (List (GoString × JVal) × GoString)
  | 0, _ => none
  | fuel + 1, s =>
    match skipSpace s with
    | 0x22 :: rest =>
      match scanString rest with
      | none => none
      | some (rawKey, rest1) =>
        match unquoteBody rawKey with
        | none => none
        | some key =>
          match skipSpace rest1 with
          | 0x3A :: rest2 =>
            match parseValue fuel rest2 with
            | none => none
            | some (v, rest3) =>
              match skipSpace rest3 with
              | 0x2C :: rest4 => (parseMembers fuel rest4).map fun p => ((key, v) :: p.1, p.2)
              | 0x7D :: rest4 => some ([(key, v)], rest4)
              | _ => none
          | _ => none
    | _ => none
end

/-- The call `json.NewDecoder(body).Decode(&v)` up to the shape of `v`: the first JSON value of the
body; what follows it is left unread. -/
def decodeValue (body : GoString) : Option JVal :=
  (parseValue (body.length + 1) body).map Prod.fst

/-- The value stored under `key` when an object is decoded into a Go map: the last
member with that key. -/
def lastMember (ms : List (GoString × JVal)) (key : GoString) : Option JVal :=
  ms.foldl (fun acc m => if m.1 = key then some m.2 else acc) none

/-- The index `m[key]` on a body decoded into a `map[string]interface{}`. -/
def JVal.member (v : JVal) (key : GoString) : Option JVal :=
  match v with
  | .obj ms => lastMember ms key
  | _ => none

/-- The type assertion `v.(string)` on a decoded value. -/
def JVal.asString : JVal → Option GoString
  | .str _ val => some val
  | _ => none

/-- The strings of a list of decoded values, `none` if one of them is not a string. -/
def allStrings : List JVal → Option (List GoString)
  | [] => some []
  | v :: rest =>
    match v.asString, allStrings rest with
    | some s, some ss => some (s :: ss)
    | _, _ => none

/-- A decoded value as a list of strings. -/
def JVal.asStrings : JVal → Option (List GoString)
  | .arr elems => allStrings elems
  | _ => none

/-- The method `Time.UnmarshalJSON` applied to a decoded value: it is given the literal as it stands in
the input. -/
def JVal.asTime : JVal → Option Time
  | .str raw _ => Time.unmarshalJSON ([0x22] ++ raw ++ [0x22])
  | _ => none

/-- The zero value `time.Time{}`: January 1, year 1, 00:00:00 UTC. -/
def zeroTime : Time := { sec := -62135596800, nsec := 0, offset := 0 }

/-- The object decoder on a struct: the members in input order, each stored by
`setField`; `none` as soon as one cannot be stored. -/
def decodeFields {α : Type} (setField : α → GoString → JVal → Option α) :
    List (GoString × JVal) → α → Option α
  | [], v => some v
  | (k, x) :: rest, v =>
    match setField v k x with
    | some v1 => decodeFields setField rest v1
    | none => none

/-- Storing one member into a `HealthResponse`: a member is matched with a field by its `json`
name, other members are skipped.  (The source also accepts names that differ
from the tag in case only; the encoder never writes such a name.) -/
def HealthResponse.setField (v : HealthResponse) (key : GoString) (x : JVal) :
    Option HealthResponse :=
  if key = ascii "status" then x.asString.map fun s => { v with status := s }
  else if key = ascii "timestamp" then x.asTime.map fun t => { v with timestamp := t }
  else some v

/-- Storing one member into a `VersionResponse`. -/
def VersionResponse.setField (v : VersionResponse) (key : GoString) (x : JVal) :
    Option VersionResponse :=
  if key = ascii "version" then x.asString.map fun s => { v with version := s }
  else if key = ascii "build_time" then x.asTime.map fun t => { v with buildTime := t }
  else if key = ascii "go_version" then x.asString.map fun s => { v with goVersion := s }
  else some v

/-- The decoding `json.NewDecoder(body).Decode(&health)` of `TestHealthHandler`, `none` for a decoding error. -/
def decodeHealthResponse (body : GoString) : Option HealthResponse :=
  match decodeValue body with
  | some (.obj ms) => decodeFields HealthResponse.setField ms { status := [], timestamp := zeroTime }
  | _ => none

/-- The decoding `json.NewDecoder(body).Decode(&version)` of `TestVersionHandler`. -/
def decodeVersionResponse (body : GoString) : Option VersionResponse :=
  match decodeValue body with
  | some (.obj ms) =>
    decodeFields VersionResponse.setField ms { version := [], buildTime := zeroTime, goVersion := [] }
  | _ => none

/-- The decoding `json.NewDecoder(body).Decode(&response)` of `TestRootHandler` into a `map[string]interface{}`, `none` unless the body
starts with a JSON object. -/
def decodeMap (body : GoString) : Option JVal :=
  match decodeValue body with
  | some (.obj ms) => some (.obj ms)
  | _ => none

/-- The string found under `key` in a body decoded into a map. -/
def decodedString (body key : GoString) : Option GoString :=
  ((decodeMap body).bind (·.member key)).bind (·.asString)

/-- What a Go string becomes on a trip through the encoder and the decoder of
`encoding/json`: every byte that does not belong to a valid UTF-8 sequence is
replaced by the encoding of U+FFFD; a valid string is unchanged. -/
def coerceLoop : Nat → GoString → GoString
  | 0, _ => []
  | fuel + 1, s =>
    match s with
    | [] => []
    | b :: rest =>
      if b < 0x80 then b :: coerceLoop fuel rest
      else
        let (c, size) := decodeRune (b :: rest)
        if c = runeError && size = 1 then [0xEF, 0xBF, 0xBD] ++ coerceLoop fuel rest
        else (b :: rest).take size ++ coerceLoop fuel (rest.drop (size - 1))

/-- The string `s` with every invalid byte replaced by U+FFFD. -/
def coerceUTF8 (s : GoString) : GoString := coerceLoop s.length s

/-- The bytes `enc` are an encoding that the decoder reads back as `v`: they do not
start with white space or a closing bracket, and followed by any input, with
fuel for their length, `parseValue` consumes exactly them and returns `v`. -/
def DecodesTo (enc : GoString) (v : JVal) : Prop :=
  (∃ c t, enc = c :: t ∧ isSpace c = false ∧ c ≠ 0x5D ∧ c ≠ 0x7D) ∧
  ∀ fuel rest, enc.length ≤ fuel → parseValue fuel (enc ++ rest) = some (v, rest)

/-- What the decoder returns for a string the encoder wrote. -/
def JVal.ofString (s : GoString) : JVal := .str (stringLoop s.length s) (coerceUTF8 s)

/-- What the decoder returns for a `[]string` the encoder wrote. -/
def JVal.ofStrings (xs : List GoString) : JVal := .arr (xs.map JVal.ofString)

/-- What the decoder returns for an `http.Header` the encoder wrote: the members in
key order. -/
def JVal.ofHeader (h : Header) : JVal :=
  .obj ((sortByKey h).map fun e => (coerceUTF8 e.1, JVal.ofStrings e.2))

/-- What the decoder returns for an interface value the encoder wrote. -/
def JVal.ofIface : Iface → JVal
  | .str s => JVal.ofString s
  | .header h => JVal.ofHeader h

/-- What the decoder returns for a `map[string]interface{}` the encoder wrote. -/
def JVal.ofMap (m : List (GoString × Iface)) : JVal :=
  .obj ((sortByKey m).map fun e => (coerceUTF8 e.1, JVal.ofIface e.2))

/-- The list of values found under the header name `name` in the `headers` field of a
body decoded into a map; `none` when the name is absent. -/
def decodedHeader (body name : GoString) : Option (List GoString) :=
  ((decodeMap body).bind (·.member (ascii "headers"))).bind fun h =>
    (h.member name).bind (·.asStrings)

/-- The invariants of a `time.Time` value: the seconds fit a 64-bit signed integer and
the nanoseconds lie within the second. -/
def Time.wellFormed (t : Time) : Bool :=
  decide (-9223372036854775808 ≤ t.sec) && decide (t.sec < 9223372036854775808) &&
    decide (t.nsec < 1000000000)

/-- The method `Time.Year`: the year of the time in its own zone. -/
def Time.year (t : Time) : Int := (absDate (locabs t)).1

/-- The clock readings that RFC 3339 can represent and `Time.MarshalJSON` accepts: the year is
within 0 to 9999 and the zone offset is less than 24 hours. -/
def Time.representable (t : Time) : Bool :=
  decide (0 ≤ t.year) && decide (t.year ≤ 9999) &&
    decide (-86400 < t.offset) && decide (t.offset < 86400)

/-- The zone offset is a whole number of minutes, as written by RFC 3339. -/
def Time.wholeMinutes (t : Time) : Bool := decide (t.offset % 60 = 0)

/-- The `k` low decimal digits of `n`, most significant first. -/
def digitsN : Nat → Nat → GoString
  | 0, _ => []
  | k + 1, n => digitsN k (n / 10) ++ [48 + n % 10]

/-! # Theorems -/

/-! ## Properties of the UTF-8 routines -/

theorem firstInfo_some {b sz lo hi : Nat} (h : firstInfo b = some (sz, lo, hi)) :
    (sz = 2 ∧ 0xC2 ≤ b ∧ b ≤ 0xDF ∧ lo = 0x80 ∧ hi = 0xBF) ∨
    (sz = 3 ∧ b = 0xE0 ∧ lo = 0xA0 ∧ hi = 0xBF) ∨
    (sz = 3 ∧ 0xE1 ≤ b ∧ b ≤ 0xEF ∧ b ≠ 0xED ∧ lo = 0x80 ∧ hi = 0xBF) ∨
    (sz = 3 ∧ b = 0xED ∧ lo = 0x80 ∧ hi = 0x9F) ∨
    (sz = 4 ∧ b = 0xF0 ∧ lo = 0x90 ∧ hi = 0xBF) ∨
    (sz = 4 ∧ 0xF1 ≤ b ∧ b ≤ 0xF3 ∧ lo = 0x80 ∧ hi = 0xBF) ∨
    (sz = 4 ∧ b = 0xF4 ∧ lo = 0x80 ∧ hi = 0x8F) := by
  unfold firstInfo at h
  split_ifs at h <;>
    simp only [Option.some.injEq, Prod.mk.injEq, Bool.and_eq_true, decide_eq_true_eq] at * <;>
    omega

theorem encodeRune_two {b s1 : Nat} (hb : 0xC2 ≤ b ∧ b ≤ 0xDF) (h1 : 0x80 ≤ s1 ∧ s1 ≤ 0xBF) :
    encodeRune (b % 32 * 64 + s1 % 64) = [b, s1] := by
  unfold encodeRune
  rw [if_neg (by omega), if_pos (by omega)]
  congr 1
  · omega
  · congr 1; omega

theorem encodeRune_three {b s1 s2 : Nat} (hb : 0xE0 ≤ b ∧ b ≤ 0xEF)
    (h1 : 0x80 ≤ s1 ∧ s1 ≤ 0xBF) (h2 : 0x80 ≤ s2 ∧ s2 ≤ 0xBF)
    (hlo : b = 0xE0 → 0xA0 ≤ s1) (hhi : b = 0xED → s1 ≤ 0x9F) :
    encodeRune (b % 16 * 4096 + s1 % 64 * 64 + s2 % 64) = [b, s1, s2] := by
  unfold encodeRune
  rw [if_neg (by omega), if_neg (by omega), if_neg, if_pos (by omega)]
  · congr 1
    · omega
    · congr 1
      · omega
      · congr 1; omega
  · simp only [Bool.or_eq_true, Bool.and_eq_true, decide_eq_true_eq, not_or, not_and, not_le, not_lt]
    omega

theorem encodeRune_four {b s1 s2 s3 : Nat} (hb : 0xF0 ≤ b ∧ b ≤ 0xF4)
    (h1 : 0x80 ≤ s1 ∧ s1 ≤ 0xBF) (h2 : 0x80 ≤ s2 ∧ s2 ≤ 0xBF) (h3 : 0x80 ≤ s3 ∧ s3 ≤ 0xBF)
    (hlo : b = 0xF0 → 0x90 ≤ s1) (hhi : b = 0xF4 → s1 ≤ 0x8F) :
    encodeRune (b % 8 * 262144 + s1 % 64 * 4096 + s2 % 64 * 64 + s3 % 64) = [b, s1, s2, s3] := by
  unfold encodeRune
  rw [if_neg (by omega), if_neg (by omega), if_neg, if_neg (by omega)]
  · congr 1
    · omega
    · congr 1
      · omega
      · congr 1
        · omega
        · congr 1; omega
  · simp only [Bool.or_eq_true, Bool.and_eq_true, decide_eq_true_eq, not_or, not_and, not_le, not_lt]
    omega

theorem decodeRune_spec (b : Nat) (rest : GoString) (hb : ¬ b < 0x80) :
    decodeRune (b :: rest) = (runeError, 1) ∨
    (2 ≤ (decodeRune (b :: rest)).2 ∧ (decodeRune (b :: rest)).2 ≤ 4 ∧
      (decodeRune (b :: rest)).2 ≤ (b :: rest).length ∧
      0x80 ≤ (decodeRune (b :: rest)).1 ∧
      encodeRune (decodeRune (b :: rest)).1 = (b :: rest).take (decodeRune (b :: rest)).2) := by
  simp only [decodeRune, hb, if_false]
  cases h : firstInfo b with
  | none => left; rfl
  | some p =>
    obtain ⟨sz, lo, hi⟩ := p
    have hf := firstInfo_some h
    cases rest with
    | nil => left; rfl
    | cons s1 rest1 =>
      simp only []
      by_cases h1 : (s1 < lo || hi < s1) = true
      · left; simp only [h1, if_true]
      · simp only [h1, Bool.false_eq_true, if_false]
        simp only [Bool.or_eq_true, decide_eq_true_eq, not_or, not_lt] at h1
        by_cases h2 : sz ≤ 2
        · right
          simp only [h2, if_true, if_false, List.take, List.length_cons, Bool.false_eq_true]
          have e := @encodeRune_two b s1 (by omega) (by omega)
          refine ⟨by omega, by omega, by omega, by omega, e⟩
        · simp only [h2, if_false]
          cases rest1 with
          | nil => left; rfl
          | cons s2 rest2 =>
            simp only []
            by_cases h3 : isCont s2 = true
            · simp only [h3, Bool.not_true, if_false, Bool.false_eq_true]
              simp only [isCont, Bool.and_eq_true, decide_eq_true_eq] at h3
              by_cases h4 : sz ≤ 3
              · right
                simp only [h4, if_true, if_false, List.take, List.length_cons, Bool.false_eq_true]
                have e := @encodeRune_three b s1 s2 (by omega) (by omega) (by omega)
                  (by omega) (by omega)
                refine ⟨by omega, by omega, by omega, by omega, e⟩
              · simp only [h4, if_false]
                cases rest2 with
                | nil => left; rfl
                | cons s3 rest3 =>
                  simp only []
                  by_cases h5 : isCont s3 = true
                  · right
                    simp only [h5, Bool.not_true, if_false, List.take, List.length_cons, Bool.false_eq_true]
                    simp only [isCont, Bool.and_eq_true, decide_eq_true_eq] at h5
                    have e := @encodeRune_four b s1 s2 s3 (by omega) (by omega) (by omega)
                      (by omega) (by omega) (by omega)
                    refine ⟨by omega, by omega, by omega, by omega, e⟩
                  · left; simp only [h5, Bool.not_false, if_true, Bool.false_eq_true, if_false]
            · left; simp only [h3, Bool.not_false, if_true, Bool.false_eq_true, if_false]

/-! ## Port selection (main.go) -/

/-- C6. Port selection in `main`: when `PORT` is unset or empty the listen address
is `:8080`; for every non-empty value `p` of `PORT` it is a colon followed by `p`
unchanged. -/
theorem listenAddr_port (env : Environ) :
    ((mapGet env (ascii "PORT") = none ∨ mapGet env (ascii "PORT") = some []) →
        listenAddr env = ascii ":8080") ∧
    (∀ p : GoString, p ≠ [] → mapGet env (ascii "PORT") = some p →
        listenAddr env = 0x3A :: p) := by
  constructor
  · rintro (h | h) <;> simp [listenAddr, getenv, h] <;> rfl
  · intro p hp h
    simp [listenAddr, getenv, h, hp]
    rfl

theorem listenAddr_port_witness :
    listenAddr [] = ascii ":8080" ∧
    listenAddr [(ascii "PORT", [])] = ascii ":8080" ∧
    listenAddr [(ascii "HOME", ascii "/root"), (ascii "PORT", ascii "9090")] = ascii ":9090" :=
  ⟨(listenAddr_port []).1 (Or.inl rfl),
   (listenAddr_port [(ascii "PORT", [])]).1 (Or.inr (by decide)),
   (listenAddr_port [(ascii "HOME", ascii "/root"), (ascii "PORT", ascii "9090")]).2
     (ascii "9090") (by decide) (by decide)⟩

/-! ## Response headers -/

theorem encoderEncode_headerMap (w : ResponseRecorder) (m : Option GoString) :
    (encoderEncode w m).headerMap = w.headerMap := by
  cases m with
  | none => rfl
  | some b =>
    simp only [encoderEncode, ResponseRecorder.write, ResponseRecorder.writeHeader]
    split <;> rfl

theorem encoderEncode_result_header (w : ResponseRecorder) (m : Option GoString)
    (hw : w.wroteHeader = false) (hs : w.snapHeader = none) :
    (encoderEncode w m).result.header = w.headerMap := by
  cases m with
  | none => simp [encoderEncode, ResponseRecorder.result, hs]
  | some b =>
    simp [encoderEncode, ResponseRecorder.write, ResponseRecorder.writeHeader,
      ResponseRecorder.result, hw]

/-- C10. For every request and clock reading, each handler leaves in the response
headers exactly one entry, `Content-Type: application/json`, set before the
body is written (it is in the headers as sent); on any recorder the only
change to the header map is that entry, so no request header reaches the
response headers. -/
theorem handlers_set_only_content_type (w : ResponseRecorder) (r : Request) (now : Time) :
    (healthHandler newRecorder r now).result.header =
        [(ascii "Content-Type", [ascii "application/json"])] ∧
    (versionHandler newRecorder r now).result.header =
        [(ascii "Content-Type", [ascii "application/json"])] ∧
    (rootHandler newRecorder r).result.header =
        [(ascii "Content-Type", [ascii "application/json"])] ∧
    (healthHandler w r now).headerMap =
        mapSet w.headerMap (ascii "Content-Type") [ascii "application/json"] ∧
    (versionHandler w r now).headerMap =
        mapSet w.headerMap (ascii "Content-Type") [ascii "application/json"] ∧
    (rootHandler w r).headerMap =
        mapSet w.headerMap (ascii "Content-Type") [ascii "application/json"] := by
  have hc : canonicalMIMEHeaderKey (ascii "Content-Type") = ascii "Content-Type" := by decide
  refine ⟨?_, ?_, ?_, ?_, ?_, ?_⟩
  · unfold healthHandler
    rw [encoderEncode_result_header _ _ rfl rfl]
    simp only [ResponseRecorder.setHeader, Header.set, hc]; rfl
  · unfold versionHandler
    rw [encoderEncode_result_header _ _ rfl rfl]
    simp only [ResponseRecorder.setHeader, Header.set, hc]; rfl
  · unfold rootHandler
    rw [encoderEncode_result_header _ _ rfl rfl]
    simp only [ResponseRecorder.setHeader, Header.set, hc]; rfl
  · unfold healthHandler
    rw [encoderEncode_headerMap]
    simp only [ResponseRecorder.setHeader, Header.set, hc]
  · unfold versionHandler
    rw [encoderEncode_headerMap]
    simp only [ResponseRecorder.setHeader, Header.set, hc]
  · unfold rootHandler
    rw [encoderEncode_headerMap]
    simp only [ResponseRecorder.setHeader, Header.set, hc]

theorem unquoteLoop_nil (n : Nat) : unquoteLoop n [] = some [] := by
  cases n <;> rfl

theorem unquoteLoop_succ (n : Nat) : ∀ t : GoString, t.length ≤ n →
    unquoteLoop (n + 1) t = unquoteLoop n t := by
  induction n with
  | zero =>
    intro t ht
    have : t = [] := List.length_eq_zero.mp (by omega)
    subst this; rfl
  | succ n ih =>
    intro t ht
    cases t with
    | nil => rfl
    | cons c rest =>
      have hrest : rest.length ≤ n := by simpa using ht
      have key : ∀ u : GoString, u.length ≤ rest.length → unquoteLoop (n + 1) u = unquoteLoop n u :=
        fun u hu => ih u (by omega)
      conv_lhs => rw [unquoteLoop.eq_def]
      conv_rhs => rw [unquoteLoop.eq_def]
      simp only []
      have k2 := key rest (by simp)
      have k3 := key (rest.drop 5) (by simp only [List.length_drop]; omega)
      have k4 := key ((rest.drop 5).drop 6) (by simp only [List.length_drop]; omega)
      have k5 := key (rest.drop ((decodeRune (c :: rest)).2 - 1))
        (by simp only [List.length_drop]; omega)
      cases rest with
      | nil => simp only [k2, k3, k4, k5]
      | cons e rest1 =>
        have k1 := key rest1 (by simp)
        simp only [k1, k2, k3, k4, k5]

theorem unquoteLoop_fuel (n : Nat) (t : GoString) (h : t.length ≤ n) :
    unquoteLoop n t = unquoteLoop t.length t := by
  induction n with
  | zero =>
    have : t = [] := List.length_eq_zero.mp (by omega)
    subst this; rfl
  | succ n ih =>
    by_cases h1 : t.length ≤ n
    · rw [unquoteLoop_succ n t h1, ih h1]
    · have : t.length = n + 1 := by omega
      rw [this]

/-- The function `decodeRune` looks only at the bytes of the rune it returns. -/
theorem decodeRune_take (b : Nat) (rest t : GoString) (hb : ¬ b < 0x80)
    (hv : decodeRune (b :: rest) ≠ (runeError, 1)) :
    decodeRune ((b :: rest).take (decodeRune (b :: rest)).2 ++ t) = decodeRune (b :: rest) := by
  revert hv
  simp only [decodeRune, hb, if_false]
  cases h : firstInfo b with
  | none => intro hv; exact absurd rfl hv
  | some p =>
    obtain ⟨sz, lo, hi⟩ := p
    cases rest with
    | nil => intro hv; exact absurd rfl hv
    | cons s1 rest1 =>
      simp only []
      by_cases h1 : (s1 < lo || hi < s1) = true
      · intro hv; simp only [h1, if_true] at hv; exact absurd rfl hv
      · simp only [h1, Bool.false_eq_true, if_false]
        by_cases h2 : sz ≤ 2
        · intro _
          simp only [h2, if_true, List.take, List.cons_append, List.nil_append, decodeRune, hb,
            if_false, h, h1, Bool.false_eq_true]
        · simp only [h2, if_false]
          cases rest1 with
          | nil => intro hv; exact absurd rfl hv
          | cons s2 rest2 =>
            simp only []
            by_cases h3 : isCont s2 = true
            · simp only [h3, Bool.not_true, if_false, Bool.false_eq_true]
              by_cases h4 : sz ≤ 3
              · intro _
                simp only [h4, if_true, List.take, List.cons_append, List.nil_append, decodeRune, hb,
                  if_false, h, h1, h2, h3, Bool.false_eq_true, Bool.not_true]
              · simp only [h4, if_false]
                cases rest2 with
                | nil => intro hv; exact absurd rfl hv
                | cons s3 rest3 =>
                  simp only []
                  by_cases h5 : isCont s3 = true
                  · intro _
                    simp only [h5, List.take, List.cons_append, List.nil_append, decodeRune, hb,
                      if_false, h, h1, h2, h3, h4, Bool.false_eq_true, Bool.not_true]
                  · intro hv
                    simp only [h5, Bool.not_false, if_true, Bool.false_eq_true, if_false] at hv
                    exact absurd rfl hv
            · intro hv
              simp only [h3, Bool.not_false, if_true, Bool.false_eq_true, if_false] at hv
              exact absurd rfl hv

theorem unhex_hexDigit (d : Nat) (h : d < 16) : unhex (hexDigit d) = some d := by
  interval_cases d <;> rfl

theorem getu4_escape (a b c d : Nat) (t : GoString) (ha : a < 16) (hb : b < 16) (hc : c < 16)
    (hd : d < 16) :
    getu4 (0x5C :: 0x75 :: hexDigit a :: hexDigit b :: hexDigit c :: hexDigit d :: t) =
      some (((a * 16 + b) * 16 + c) * 16 + d) := by
  simp only [getu4, unhex_hexDigit, ha, hb, hc, hd]

theorem unquoteLoop_ascii (m c : Nat) (t : GoString) (h1 : 0x20 ≤ c) (h2 : c < 0x80)
    (h3 : c ≠ 0x22) (h4 : c ≠ 0x5C) :
    unquoteLoop (m + 1) (c :: t) = (unquoteLoop m t).map (c :: ·) := by
  rw [unquoteLoop.eq_def]
  simp only [h4, if_false, h3, h2, if_true, Bool.or_eq_true, decide_eq_true_eq, false_or,
    not_lt.mpr h1]

theorem unquoteLoop_quoted (m e : Nat) (t : GoString) (h : e = 0x22 ∨ e = 0x5C) :
    unquoteLoop (m + 1) (0x5C :: e :: t) = (unquoteLoop m t).map (e :: ·) := by
  rw [unquoteLoop.eq_def]
  rcases h with h | h <;> subst h <;> simp

theorem unquoteLoop_short (m : Nat) (t : GoString) :
    unquoteLoop (m + 1) (0x5C :: 0x6E :: t) = (unquoteLoop m t).map (0x0A :: ·) ∧
    unquoteLoop (m + 1) (0x5C :: 0x72 :: t) = (unquoteLoop m t).map (0x0D :: ·) ∧
    unquoteLoop (m + 1) (0x5C :: 0x74 :: t) = (unquoteLoop m t).map (0x09 :: ·) := by
  refine ⟨?_, ?_, ?_⟩ <;> rw [unquoteLoop.eq_def] <;> simp

theorem unquoteLoop_u (m a b c d rr : Nat) (t : GoString)
    (hg : getu4 (0x5C :: 0x75 :: a :: b :: c :: d :: t) = some rr) (hs : isSurrogate rr = false) :
    unquoteLoop (m + 1) (0x5C :: 0x75 :: a :: b :: c :: d :: t) =
      (unquoteLoop m t).map (encodeRune rr ++ ·) := by
  rw [unquoteLoop.eq_def]
  simp [hg, hs]

theorem unquoteLoop_rune (m b : Nat) (t : GoString) (hb : ¬ b < 0x80) :
    unquoteLoop (m + 1) (b :: t) =
      (unquoteLoop m (t.drop ((decodeRune (b :: t)).2 - 1))).map
        (encodeRune (decodeRune (b :: t)).1 ++ ·) := by
  rw [unquoteLoop.eq_def]
  have h1 : b ≠ 0x5C := by omega
  have h2 : b ≠ 0x22 := by omega
  have h3 : ¬ b < 0x20 := by omega
  simp only [h1, h2, h3, hb, if_false, Bool.or_eq_true, decide_eq_true_eq, or_self]

theorem stringLoop_ascii (n b : Nat) (rest : GoString) (hb : b < 0x80) :
    stringLoop (n + 1) (b :: rest) =
      (if htmlSafe b then [b] else escapeByte b) ++ stringLoop n rest := by
  rw [stringLoop.eq_def]; simp only [hb, if_true]

theorem stringLoop_rune (n b : Nat) (rest : GoString) (hb : ¬ b < 0x80) :
    stringLoop (n + 1) (b :: rest) =
      if (decodeRune (b :: rest)).1 = runeError ∧ (decodeRune (b :: rest)).2 = 1 then
        ascii "\\ufffd" ++ stringLoop n rest
      else if (decodeRune (b :: rest)).1 = 0x2028 ∨ (decodeRune (b :: rest)).1 = 0x2029 then
        ascii "\\u202" ++ [hexDigit ((decodeRune (b :: rest)).1 % 16)] ++
          stringLoop n (rest.drop ((decodeRune (b :: rest)).2 - 1))
      else
        (b :: rest).take (decodeRune (b :: rest)).2 ++
          stringLoop n (rest.drop ((decodeRune (b :: rest)).2 - 1)) := by
  rw [stringLoop.eq_def]
  simp only [hb, if_false, Bool.and_eq_true, Bool.or_eq_true, decide_eq_true_eq]

theorem coerceLoop_ascii (n b : Nat) (rest : GoString) (hb : b < 0x80) :
    coerceLoop (n + 1) (b :: rest) = b :: coerceLoop n rest := by
  rw [coerceLoop.eq_def]; simp only [hb, if_true]

theorem coerceLoop_rune (n b : Nat) (rest : GoString) (hb : ¬ b < 0x80) :
    coerceLoop (n + 1) (b :: rest) =
      if (decodeRune (b :: rest)).1 = runeError ∧ (decodeRune (b :: rest)).2 = 1 then
        [0xEF, 0xBF, 0xBD] ++ coerceLoop n rest
      else
        (b :: rest).take (decodeRune (b :: rest)).2 ++
          coerceLoop n (rest.drop ((decodeRune (b :: rest)).2 - 1)) := by
  rw [coerceLoop.eq_def]
  simp only [hb, if_false, Bool.and_eq_true, decide_eq_true_eq]

theorem encodeRune_ascii (b : Nat) (hb : b < 0x80) : encodeRune b = [b] := by
  unfold encodeRune; rw [if_pos (by omega)]

/-- Unquoting what the encoder writes for a string gives the string back, up to the
replacement of invalid bytes. -/
theorem unquoteLoop_stringLoop (n : Nat) : ∀ s : GoString, s.length ≤ n →
    ∀ m, (stringLoop n s).length ≤ m → unquoteLoop m (stringLoop n s) = some (coerceLoop n s) := by
  induction n with
  | zero => intro s _ m _; exact unquoteLoop_nil m
  | succ n ih =>
    intro s hs m hm
    cases s with
    | nil => exact unquoteLoop_nil m
    | cons b rest =>
      have hrest : rest.length ≤ n := by simpa using hs
      by_cases hb : b < 0x80
      · rw [stringLoop_ascii n b rest hb] at hm ⊢
        rw [coerceLoop_ascii n b rest hb]
        by_cases hsafe : htmlSafe b = true
        · simp only [hsafe, if_true, List.singleton_append, List.length_cons] at hm ⊢
          obtain ⟨m, rfl⟩ : ∃ k, m = k + 1 := ⟨m - 1, by omega⟩
          simp only [htmlSafe, Bool.and_eq_true, decide_eq_true_eq, bne_iff_ne, ne_eq] at hsafe
          rw [unquoteLoop_ascii m b _ (by omega) (by omega) (by omega) (by omega),
            ih rest hrest m (by omega)]
          rfl
        · simp only [hsafe, Bool.false_eq_true, if_false] at hm ⊢
          unfold escapeByte at hm ⊢
          by_cases h1 : (b = 0x5C || b = 0x22) = true
          · simp only [h1, if_true, List.cons_append, List.nil_append, List.length_cons] at hm ⊢
            obtain ⟨m, rfl⟩ : ∃ k, m = k + 1 := ⟨m - 1, by omega⟩
            simp only [Bool.or_eq_true, decide_eq_true_eq] at h1
            rw [unquoteLoop_quoted m b _ (by omega), ih rest hrest m (by omega)]
            rfl
          · simp only [h1, Bool.false_eq_true, if_false] at hm ⊢
            by_cases h2 : b = 0x0A
            · subst h2
              simp only [if_true, List.cons_append, List.nil_append, List.length_cons] at hm ⊢
              obtain ⟨m, rfl⟩ : ∃ k, m = k + 1 := ⟨m - 1, by omega⟩
              rw [(unquoteLoop_short m _).1, ih rest hrest m (by omega)]
              rfl
            · simp only [h2, if_false] at hm ⊢
              by_cases h3 : b = 0x0D
              · subst h3
                simp only [if_true, List.cons_append, List.nil_append, List.length_cons] at hm ⊢
                obtain ⟨m, rfl⟩ : ∃ k, m = k + 1 := ⟨m - 1, by omega⟩
                rw [(unquoteLoop_short m _).2.1, ih rest hrest m (by omega)]
                rfl
              · simp only [h3, if_false] at hm ⊢
                by_cases h4 : b = 0x09
                · subst h4
                  simp only [if_true, List.cons_append, List.nil_append, List.length_cons] at hm ⊢
                  obtain ⟨m, rfl⟩ : ∃ k, m = k + 1 := ⟨m - 1, by omega⟩
                  rw [(unquoteLoop_short m _).2.2, ih rest hrest m (by omega)]
                  rfl
                · simp only [h4, if_false, List.cons_append, List.nil_append,
                    List.length_cons] at hm ⊢
                  obtain ⟨m, rfl⟩ : ∃ k, m = k + 1 := ⟨m - 1, by omega⟩
                  have hg := getu4_escape 0 0 (b / 16) (b % 16) (stringLoop n rest)
                    (by omega) (by omega) (by omega) (by omega)
                  have hv : ((0 * 16 + 0) * 16 + b / 16) * 16 + b % 16 = b := by omega
                  rw [hv] at hg
                  have h0 : hexDigit 0 = 0x30 := rfl
                  rw [h0] at hg
                  rw [unquoteLoop_u m _ _ _ _ b _ hg
                    (by simp only [isSurrogate, Bool.and_eq_false_iff, decide_eq_false_iff_not]; omega),
                    ih rest hrest m (by omega), encodeRune_ascii b hb]
                  rfl
      · rw [stringLoop_rune n b rest hb] at hm ⊢
        rw [coerceLoop_rune n b rest hb]
        rcases decodeRune_spec b rest hb with he | ⟨h2, _, hlen, _, henc⟩
        · have hc : (decodeRune (b :: rest)).1 = runeError ∧ (decodeRune (b :: rest)).2 = 1 := by
            rw [he]; exact ⟨rfl, rfl⟩
          rw [if_pos hc] at hm
          rw [if_pos hc, if_pos hc]
          have ha : ascii "\\ufffd" = [0x5C, 0x75, 0x66, 0x66, 0x66, 0x64] := by decide
          rw [ha] at hm ⊢
          simp only [List.cons_append, List.nil_append, List.length_cons] at hm ⊢
          obtain ⟨m, rfl⟩ : ∃ k, m = k + 1 := ⟨m - 1, by omega⟩
          rw [unquoteLoop_u m 0x66 0x66 0x66 0x64 0xFFFD _ rfl rfl, ih rest hrest m (by omega)]
          rfl
        · have hc : ¬ ((decodeRune (b :: rest)).1 = runeError ∧ (decodeRune (b :: rest)).2 = 1) := by
            intro h; omega
          rw [if_neg hc] at hm
          rw [if_neg hc, if_neg hc]
          have hdrop : (rest.drop ((decodeRune (b :: rest)).2 - 1)).length ≤ n := by
            simp only [List.length_drop]; omega
          by_cases hl : (decodeRune (b :: rest)).1 = 0x2028 ∨ (decodeRune (b :: rest)).1 = 0x2029
          · rw [if_pos hl] at hm ⊢
            have ha : ascii "\\u202" = [0x5C, 0x75, 0x32, 0x30, 0x32] := by decide
            rw [ha] at hm ⊢
            simp only [List.cons_append, List.nil_append, List.length_cons] at hm ⊢
            obtain ⟨m, rfl⟩ : ∃ k, m = k + 1 := ⟨m - 1, by omega⟩
            have hg := getu4_escape 2 0 2 ((decodeRune (b :: rest)).1 % 16)
              (stringLoop n (rest.drop ((decodeRune (b :: rest)).2 - 1)))
              (by omega) (by omega) (by omega) (by omega)
            have hv : ((2 * 16 + 0) * 16 + 2) * 16 + (decodeRune (b :: rest)).1 % 16 =
                (decodeRune (b :: rest)).1 := by omega
            rw [hv] at hg
            have h0 : hexDigit 0 = 0x30 := rfl
            have h2 : hexDigit 2 = 0x32 := rfl
            rw [h0, h2] at hg
            rw [unquoteLoop_u m _ _ _ _ _ _ hg
              (by simp only [isSurrogate, Bool.and_eq_false_iff, decide_eq_false_iff_not]; omega),
              ih _ hdrop m (by omega), henc]
            rfl
          · rw [if_neg hl] at hm ⊢
            have hv : decodeRune (b :: rest) ≠ (runeError, 1) := by
              intro h; rw [h] at h2; omega
            have htk := decodeRune_take b rest
              (stringLoop n (rest.drop ((decodeRune (b :: rest)).2 - 1))) hb hv
            obtain ⟨k, hk⟩ : ∃ k, (decodeRune (b :: rest)).2 = k + 1 :=
              ⟨(decodeRune (b :: rest)).2 - 1, by omega⟩
            rw [hk] at hm htk hlen henc hdrop ⊢
            simp only [List.take_succ_cons, List.cons_append, List.length_cons, List.length_append,
              Nat.add_sub_cancel] at hm htk hlen henc hdrop ⊢
            obtain ⟨m, rfl⟩ : ∃ j, m = j + 1 := ⟨m - 1, by omega⟩
            rw [unquoteLoop_rune m b _ hb, htk, hk]
            simp only [Nat.add_sub_cancel]
            have hl2 : (rest.take k).length = k := by
              rw [List.length_take]; omega
            rw [List.drop_left' hl2, ih _ hdrop m (by omega), henc]
            rfl

theorem plainLength_cons (k c : Nat) (rest : GoString) :
    plainLength (k + 1) (c :: rest) =
      if c = 0x5C ∨ c = 0x22 ∨ c < 0x20 then 0
      else if c < 0x80 then 1 + plainLength k rest
      else if (decodeRune (c :: rest)).1 = runeError ∧ (decodeRune (c :: rest)).2 = 1 then 0
      else (decodeRune (c :: rest)).2 + plainLength k (rest.drop ((decodeRune (c :: rest)).2 - 1)) := by
  rw [plainLength.eq_def]
  simp only [Bool.or_eq_true, Bool.and_eq_true, decide_eq_true_eq, or_assoc]

/-- The fast path of `unquoteBytes` agrees with its general loop: copying the plain
stretch and unquoting the rest is the same as unquoting everything. -/
theorem unquoteLoop_plain (k : Nat) : ∀ t : GoString, t.length ≤ k → ∀ m, t.length ≤ m →
    unquoteLoop m t =
      (unquoteLoop m (t.drop (plainLength k t))).map (t.take (plainLength k t) ++ ·) := by
  induction k with
  | zero =>
    intro t _ m _
    simp [plainLength]
  | succ k ih =>
    intro t ht m hm
    cases t with
    | nil => simp [plainLength, unquoteLoop_nil]
    | cons c rest =>
      have hrest : rest.length ≤ k := by simpa using ht
      rw [plainLength_cons]
      by_cases h1 : c = 0x5C ∨ c = 0x22 ∨ c < 0x20
      · rw [if_pos h1]; simp
      · rw [if_neg h1]
        obtain ⟨m, rfl⟩ : ∃ j, m = j + 1 := ⟨m - 1, by simp at hm; omega⟩
        have hm' : rest.length ≤ m := by simpa using hm
        by_cases h2 : c < 0x80
        · rw [if_pos h2, unquoteLoop_ascii m c rest (by omega) h2 (by omega) (by omega),
            ih rest hrest m hm']
          have e1 : (c :: rest).drop (1 + plainLength k rest) = rest.drop (plainLength k rest) := by
            rw [Nat.add_comm]; rfl
          have e2 : (c :: rest).take (1 + plainLength k rest) = c :: rest.take (plainLength k rest) := by
            rw [Nat.add_comm]; rfl
          rw [e1, e2, unquoteLoop_succ m _ (by simp only [List.length_drop]; omega),
            Option.map_map]
          rfl
        · rw [if_neg h2]
          rcases decodeRune_spec c rest h2 with he | ⟨hs2, _, hlen, _, henc⟩
          · rw [if_pos (by rw [he]; exact ⟨rfl, rfl⟩)]; simp
          · rw [if_neg (by intro h; omega)]
            obtain ⟨j, hj⟩ : ∃ j, (decodeRune (c :: rest)).2 = j + 1 :=
              ⟨(decodeRune (c :: rest)).2 - 1, by omega⟩
            rw [unquoteLoop_rune m c rest h2, henc, hj]
            rw [hj] at hlen
            simp only [Nat.add_sub_cancel, List.length_cons] at hlen ⊢
            have hd : (rest.drop j).length ≤ k := by simp only [List.length_drop]; omega
            have hd' : (rest.drop j).length ≤ m := by simp only [List.length_drop]; omega
            rw [ih _ hd m hd']
            have e1 : (c :: rest).drop (j + 1 + plainLength k (rest.drop j)) =
                (rest.drop j).drop (plainLength k (rest.drop j)) := by
              rw [← List.drop_drop]; rfl
            have e2 : (c :: rest).take (j + 1 + plainLength k (rest.drop j)) =
                (c :: rest).take (j + 1) ++ (rest.drop j).take (plainLength k (rest.drop j)) := by
              rw [List.take_add]; rfl
            rw [e1, e2, unquoteLoop_succ m _ (by simp only [List.length_drop]; omega),
              Option.map_map]
            congr 1
            funext x
            simp only [Function.comp, List.append_assoc]

theorem unquoteBody_eq (t : GoString) : unquoteBody t = unquoteLoop t.length t := by
  have h := unquoteLoop_plain t.length t le_rfl t.length le_rfl
  unfold unquoteBody
  simp only []
  by_cases hr : plainLength t.length t = t.length
  · rw [if_pos hr, h, hr]
    simp [unquoteLoop_nil]
  · rw [if_neg hr, h]

theorem validLoop_cons (n b : Nat) (rest : GoString) :
    validLoop (n + 1) (b :: rest) =
      if b < 0x80 then validLoop n rest
      else if (decodeRune (b :: rest)).2 = 1 then false
      else validLoop n (rest.drop ((decodeRune (b :: rest)).2 - 1)) := by
  rw [validLoop.eq_def]

/-- A valid UTF-8 string passes through encoder and decoder unchanged. -/
theorem coerceLoop_valid (n : Nat) : ∀ s : GoString, s.length ≤ n → validLoop n s = true →
    coerceLoop n s = s := by
  induction n with
  | zero =>
    intro s hs _
    have : s = [] := List.length_eq_zero.mp (by omega)
    subst this; rfl
  | succ n ih =>
    intro s hs hv
    cases s with
    | nil => rfl
    | cons b rest =>
      have hrest : rest.length ≤ n := by simpa using hs
      rw [validLoop_cons] at hv
      by_cases hb : b < 0x80
      · rw [if_pos hb] at hv
        rw [coerceLoop_ascii n b rest hb, ih rest hrest hv]
      · rw [if_neg hb] at hv
        rw [coerceLoop_rune n b rest hb]
        rcases decodeRune_spec b rest hb with he | ⟨h2, _, hlen, _, _⟩
        · rw [he] at hv; simp at hv
        · rw [if_neg (by omega)] at hv
          rw [if_neg (by intro h; omega)]
          obtain ⟨k, hk⟩ : ∃ k, (decodeRune (b :: rest)).2 = k + 1 :=
            ⟨(decodeRune (b :: rest)).2 - 1, by omega⟩
          rw [hk] at hv ⊢
          simp only [Nat.add_sub_cancel] at hv ⊢
          rw [ih _ (by simp only [List.length_drop]; omega) hv]
          simp only [List.take_succ_cons, List.cons_append, List.take_append_drop]

theorem coerceUTF8_valid (s : GoString) (h : validString s = true) : coerceUTF8 s = s :=
  coerceLoop_valid s.length s le_rfl h

theorem scanString_plain (c : Nat) (t : GoString) (h1 : 0x20 ≤ c) (h2 : c ≠ 0x22)
    (h3 : c ≠ 0x5C) :
    scanString (c :: t) = (scanString t).map fun p => (c :: p.1, p.2) := by
  rw [scanString.eq_def]
  split
  · simp at *
  · simp_all
  · simp_all
  · simp_all
  · next c' rest _ _ _ heq =>
    simp only [List.cons.injEq] at heq
    obtain ⟨rfl, rfl⟩ := heq
    simp [not_lt.mpr h1, h3]

theorem scanString_quote (t : GoString) : scanString (0x22 :: t) = some ([], t) := by
  rw [scanString.eq_def]

theorem scanString_u (a b c d : Nat) (t : GoString) (ha : (unhex a).isSome)
    (hb : (unhex b).isSome) (hc : (unhex c).isSome) (hd : (unhex d).isSome) :
    scanString (0x5C :: 0x75 :: a :: b :: c :: d :: t) =
      (scanString t).map fun p => (0x5C :: 0x75 :: a :: b :: c :: d :: p.1, p.2) := by
  rw [scanString.eq_def]
  simp [ha, hb, hc, hd]

theorem scanString_short (e : Nat) (t : GoString)
    (h : e = 0x6E ∨ e = 0x72 ∨ e = 0x74 ∨ e = 0x5C ∨ e = 0x22) :
    scanString (0x5C :: e :: t) = (scanString t).map fun p => (0x5C :: e :: p.1, p.2) := by
  rw [scanString.eq_def]
  rcases h with h | h | h | h | h <;> subst h <;> simp

theorem encodeRune_high (r : Nat) (h : 0x80 ≤ r) : ∀ x ∈ encodeRune r, 0x80 ≤ x := by
  unfold encodeRune
  rw [if_neg (by omega)]
  split_ifs <;> simp <;> omega

theorem scanString_high (l t : GoString) (h : ∀ x ∈ l, 0x80 ≤ x) :
    scanString (l ++ t) = (scanString t).map fun p => (l ++ p.1, p.2) := by
  induction l with
  | nil => simp
  | cons c l ih =>
    have hc : 0x80 ≤ c := h c (List.mem_cons_self _ _)
    rw [List.cons_append, scanString_plain c _ (by omega) (by omega) (by omega),
      ih (fun x hx => h x (List.mem_cons_of_mem _ hx)), Option.map_map]
    rfl

theorem unhex_hexDigit_isSome (d : Nat) (h : d < 16) : (unhex (hexDigit d)).isSome = true := by
  rw [unhex_hexDigit d h]; rfl

/-- The scanner reads exactly what the encoder wrote for a string, up to the closing
quote. -/
theorem scanString_stringLoop (rest : GoString) (n : Nat) : ∀ s : GoString,
    scanString (stringLoop n s ++ 0x22 :: rest) = some (stringLoop n s, rest) := by
  induction n with
  | zero => intro s; exact scanString_quote rest
  | succ n ih =>
    intro s
    cases s with
    | nil => exact scanString_quote rest
    | cons b t =>
      by_cases hb : b < 0x80
      · rw [stringLoop_ascii n b t hb]
        by_cases hsafe : htmlSafe b = true
        · simp only [hsafe, if_true, List.singleton_append, List.cons_append, List.nil_append]
          simp only [htmlSafe, Bool.and_eq_true, decide_eq_true_eq, bne_iff_ne, ne_eq] at hsafe
          rw [scanString_plain b _ (by omega) (by omega) (by omega), ih t]
          rfl
        · simp only [hsafe, Bool.false_eq_true, if_false]
          unfold escapeByte
          by_cases h1 : (b = 0x5C || b = 0x22) = true
          · simp only [h1, if_true, List.cons_append, List.nil_append]
            simp only [Bool.or_eq_true, decide_eq_true_eq] at h1
            rw [scanString_short b _ (by omega), ih t]
            rfl
          · simp only [h1, Bool.false_eq_true, if_false]
            by_cases h2 : b = 0x0A
            · simp only [h2, if_true, List.cons_append, List.nil_append]
              rw [scanString_short _ _ (by decide), ih t]
              rfl
            · simp only [h2, if_false]
              by_cases h3 : b = 0x0D
              · simp only [h3, if_true, List.cons_append, List.nil_append]
                rw [scanString_short _ _ (by decide), ih t]
                rfl
              · simp only [h3, if_false]
                by_cases h4 : b = 0x09
                · simp only [h4, if_true, List.cons_append, List.nil_append]
                  rw [scanString_short _ _ (by decide), ih t]
                  rfl
                · simp only [h4, if_false, List.cons_append, List.nil_append]
                  rw [scanString_u 0x30 0x30 _ _ _ rfl rfl (unhex_hexDigit_isSome _ (by omega))
                    (unhex_hexDigit_isSome _ (by omega)), ih t]
                  rfl
      · rw [stringLoop_rune n b t hb]
        split_ifs with hc hl
        · have ha : ascii "\\ufffd" = [0x5C, 0x75, 0x66, 0x66, 0x66, 0x64] := by decide
          rw [ha]
          simp only [List.cons_append, List.nil_append]
          rw [scanString_u 0x66 0x66 0x66 0x64 _ rfl rfl rfl rfl, ih t]
          rfl
        · have ha : ascii "\\u202" = [0x5C, 0x75, 0x32, 0x30, 0x32] := by decide
          rw [ha]
          simp only [List.cons_append, List.nil_append]
          rw [scanString_u 0x32 0x30 0x32 _ _ rfl rfl rfl (unhex_hexDigit_isSome _ (by omega)), ih _]
          rfl
        · rcases decodeRune_spec b t hb with he | ⟨_, _, _, h80, henc⟩
          · exact absurd (by rw [he]; exact ⟨rfl, rfl⟩) hc
          · rw [List.append_assoc, scanString_high _ _
              (by rw [← henc]; exact encodeRune_high _ h80), ih _]
            rfl

theorem skipSpace_cons (c : Nat) (t : GoString) (h : isSpace c = false) :
    skipSpace (c :: t) = c :: t := by
  simp [skipSpace, List.dropWhile, h]

theorem encodeString_length (s : GoString) :
    (encodeString s).length = (stringLoop s.length s).length + 2 := by
  simp [encodeString]

/-- The decoder reads a string written by the encoder back as that string, with invalid
bytes replaced. -/
theorem decodesTo_string (s : GoString) :
    DecodesTo (encodeString s) (JVal.str (stringLoop s.length s) (coerceUTF8 s)) := by
  refine ⟨⟨0x22, stringLoop s.length s ++ [0x22], by simp [encodeString], rfl, by decide,
    by decide⟩, ?_⟩
  intro fuel rest hf
  obtain ⟨fuel, rfl⟩ : ∃ k, fuel = k + 1 := ⟨fuel - 1, by rw [encodeString_length] at hf; omega⟩
  rw [parseValue]
  have e : encodeString s ++ rest = 0x22 :: (stringLoop s.length s ++ 0x22 :: rest) := by
    simp [encodeString]
  rw [e, skipSpace_cons 0x22 _ rfl]
  simp only []
  rw [scanString_stringLoop]
  simp only []
  rw [unquoteBody_eq, unquoteLoop_stringLoop s.length s le_rfl _ le_rfl]
  rfl

theorem joinComma_cons_cons (x y : GoString) (l : List GoString) :
    joinComma (x :: y :: l) = x ++ 0x2C :: joinComma (y :: l) := by
  simp [joinComma]

theorem parseElems_joinComma (rest : GoString) (xs : List (GoString × JVal)) :
    xs ≠ [] → (∀ x ∈ xs, DecodesTo x.1 x.2) →
    ∀ fuel, (joinComma (xs.map Prod.fst)).length + 1 ≤ fuel →
      parseElems fuel (joinComma (xs.map Prod.fst) ++ 0x5D :: rest) =
        some (xs.map Prod.snd, rest) := by
  induction xs with
  | nil => intro h; exact absurd rfl h
  | cons x more ih =>
    intro _ h fuel hf
    have hx := h x (List.mem_cons_self _ _)
    obtain ⟨fuel, rfl⟩ : ∃ k, fuel = k + 1 := ⟨fuel - 1, by omega⟩
    cases more with
    | nil =>
      simp only [List.map, joinComma] at hf ⊢
      rw [parseElems, hx.2 fuel _ (by omega)]
      simp only []
      rw [skipSpace_cons 0x5D _ rfl]
    | cons y more =>
      simp only [List.map] at hf ⊢
      rw [joinComma_cons_cons] at hf ⊢
      simp only [List.length_append, List.length_cons] at hf
      rw [parseElems, List.append_assoc, hx.2 fuel _ (by omega)]
      simp only [List.cons_append]
      rw [skipSpace_cons 0x2C _ rfl]
      simp only []
      have := ih (List.cons_ne_nil _ _) (fun z hz => h z (List.mem_cons_of_mem _ hz)) fuel
        (by simp only [List.map]; omega)
      simp only [List.map] at this
      rw [this]
      rfl

/-- The decoder reads an array written by the array encoder back element by element. -/
theorem decodesTo_array (xs : List (GoString × JVal)) (h : ∀ x ∈ xs, DecodesTo x.1 x.2) :
    DecodesTo ([0x5B] ++ joinComma (xs.map Prod.fst) ++ [0x5D]) (JVal.arr (xs.map Prod.snd)) := by
  refine ⟨⟨0x5B, joinComma (xs.map Prod.fst) ++ [0x5D], by simp, rfl, by decide, by decide⟩, ?_⟩
  intro fuel rest hf
  simp only [List.length_append, List.length_cons, List.length_nil, List.singleton_append] at hf
  obtain ⟨fuel, rfl⟩ : ∃ k, fuel = k + 1 := ⟨fuel - 1, by omega⟩
  rw [parseValue]
  simp only [List.singleton_append, List.cons_append, List.append_assoc, List.nil_append]
  rw [skipSpace_cons 0x5B _ rfl]
  simp only []
  cases xs with
  | nil =>
    simp only [List.map, joinComma, List.nil_append]
    rw [skipSpace_cons 0x5D _ rfl]
  | cons x more =>
    obtain ⟨⟨c, t, hc, hsp, h5d, _⟩, _⟩ := h x (List.mem_cons_self _ _)
    have hj : ∃ t', joinComma ((x :: more).map Prod.fst) ++ ([0x5D] ++ rest) = c :: t' := by
      cases more with
      | nil => exact ⟨t ++ 0x5D :: rest, by simp [joinComma, hc]⟩
      | cons y more =>
        exact ⟨t ++ 0x2C :: (joinComma (y.1 :: more.map Prod.fst) ++ 0x5D :: rest),
          by simp [joinComma, hc]⟩
    obtain ⟨t', ht'⟩ := hj
    have hpe := parseElems_joinComma rest (x :: more) (List.cons_ne_nil _ _) h fuel (by omega)
    simp only [List.singleton_append] at ht'
    rw [ht'] at hpe ⊢
    rw [skipSpace_cons c _ hsp]
    split
    · next heq => simp only [List.cons.injEq] at heq; exact absurd heq.1 h5d
    · rw [hpe]; rfl

/-- The encoding of one object member: key, colon, value. -/
theorem member_shape (k enc tail : GoString) :
    (encodeString k ++ [0x3A] ++ enc) ++ tail =
      0x22 :: (stringLoop k.length k ++ 0x22 :: (0x3A :: (enc ++ tail))) := by
  simp [encodeString]

theorem parseMembers_joinComma (rest : GoString) (ms : List (GoString × GoString × JVal)) :
    ms ≠ [] → (∀ m ∈ ms, DecodesTo m.2.1 m.2.2) →
    ∀ fuel, (joinComma (ms.map fun m => encodeString m.1 ++ [0x3A] ++ m.2.1)).length + 1 ≤ fuel →
      parseMembers fuel
          (joinComma (ms.map fun m => encodeString m.1 ++ [0x3A] ++ m.2.1) ++ 0x7D :: rest) =
        some (ms.map fun m => (coerceUTF8 m.1, m.2.2), rest) := by
  induction ms with
  | nil => intro h; exact absurd rfl h
  | cons x more ih =>
    intro _ h fuel hf
    have hx := h x (List.mem_cons_self _ _)
    obtain ⟨fuel, rfl⟩ : ∃ k, fuel = k + 1 := ⟨fuel - 1, by omega⟩
    have hkey : unquoteBody (stringLoop x.1.length x.1) = some (coerceUTF8 x.1) := by
      rw [unquoteBody_eq, unquoteLoop_stringLoop x.1.length x.1 le_rfl _ le_rfl]; rfl
    cases more with
    | nil =>
      simp only [List.map, joinComma] at hf ⊢
      simp only [List.length_append, List.length_cons, List.length_nil] at hf
      rw [parseMembers, member_shape, skipSpace_cons 0x22 _ rfl]
      simp only []
      rw [scanString_stringLoop]
      simp only [hkey]
      rw [skipSpace_cons 0x3A _ rfl]
      simp only []
      rw [hx.2 fuel _ (by omega)]
      simp only []
      rw [skipSpace_cons 0x7D _ rfl]
    | cons y more =>
      simp only [List.map] at hf ⊢
      rw [joinComma_cons_cons] at hf ⊢
      simp only [List.length_append, List.length_cons, List.length_nil] at hf
      rw [parseMembers, List.append_assoc (encodeString x.1 ++ [0x3A] ++ x.2.1), member_shape,
        skipSpace_cons 0x22 _ rfl]
      simp only []
      rw [scanString_stringLoop]
      simp only [hkey]
      rw [skipSpace_cons 0x3A _ rfl]
      simp only []
      rw [hx.2 fuel _ (by omega)]
      simp only [List.cons_append]
      rw [skipSpace_cons 0x2C _ rfl]
      simp only []
      have := ih (List.cons_ne_nil _ _) (fun z hz => h z (List.mem_cons_of_mem _ hz)) fuel
        (by simp only [List.map]; omega)
      simp only [List.map] at this
      rw [this]
      rfl

/-- The decoder reads an object written by a map or struct encoder back member by
member, in the order written. -/
theorem decodesTo_object (ms : List (GoString × GoString × JVal))
    (h : ∀ m ∈ ms, DecodesTo m.2.1 m.2.2) :
    DecodesTo ([0x7B] ++ joinComma (ms.map fun m => encodeString m.1 ++ [0x3A] ++ m.2.1) ++ [0x7D])
      (JVal.obj (ms.map fun m => (coerceUTF8 m.1, m.2.2))) := by
  refine ⟨⟨0x7B, joinComma (ms.map fun m => encodeString m.1 ++ [0x3A] ++ m.2.1) ++ [0x7D],
    by simp, rfl, by decide, by decide⟩, ?_⟩
  intro fuel rest hf
  simp only [List.length_append, List.length_cons, List.length_nil, List.singleton_append] at hf
  obtain ⟨fuel, rfl⟩ : ∃ k, fuel = k + 1 := ⟨fuel - 1, by omega⟩
  have e : ∀ J : GoString, [0x7B] ++ J ++ [0x7D] ++ rest = 0x7B :: (J ++ 0x7D :: rest) := by
    intro J; simp
  rw [parseValue, e, skipSpace_cons 0x7B _ rfl]
  simp only []
  cases ms with
  | nil =>
    simp only [List.map, joinComma, List.nil_append]
    rw [skipSpace_cons 0x7D _ rfl]
  | cons x more =>
    have hj : ∃ t', joinComma ((x :: more).map fun m => encodeString m.1 ++ [0x3A] ++ m.2.1) ++
        0x7D :: rest = 0x22 :: t' := by
      cases more with
      | nil => simp [joinComma, encodeString]
      | cons y more => simp [joinComma, encodeString]
    obtain ⟨t', ht'⟩ := hj
    have hpm := parseMembers_joinComma rest (x :: more) (List.cons_ne_nil _ _) h fuel (by omega)
    rw [ht'] at hpm ⊢
    rw [skipSpace_cons 0x22 _ rfl]
    simp only []
    rw [hpm]; rfl

theorem decodesTo_strings (xs : List GoString) :
    DecodesTo (encodeStringSlice xs) (JVal.ofStrings xs) := by
  have h := decodesTo_array (xs.map fun s => (encodeString s, JVal.ofString s))
    (by
      intro x hx
      obtain ⟨s, _, rfl⟩ := List.mem_map.mp hx
      exact decodesTo_string s)
  simp only [List.map_map, Function.comp] at h
  exact h

theorem decodesTo_header (hd : Header) : DecodesTo (encodeHeader hd) (JVal.ofHeader hd) := by
  have h := decodesTo_object ((sortByKey hd).map fun e => (e.1, encodeStringSlice e.2, JVal.ofStrings e.2))
    (by
      intro x hx
      obtain ⟨e, _, rfl⟩ := List.mem_map.mp hx
      exact decodesTo_strings e.2)
  simp only [List.map_map, Function.comp] at h
  exact h

theorem decodesTo_iface (v : Iface) : DecodesTo (encodeIface v) (JVal.ofIface v) := by
  cases v with
  | str s => exact decodesTo_string s
  | header hd => exact decodesTo_header hd

theorem decodesTo_map (m : List (GoString × Iface)) : DecodesTo (encodeMap m) (JVal.ofMap m) := by
  have h := decodesTo_object ((sortByKey m).map fun e => (e.1, encodeIface e.2, JVal.ofIface e.2))
    (by
      intro x hx
      obtain ⟨e, _, rfl⟩ := List.mem_map.mp hx
      exact decodesTo_iface e.2)
  simp only [List.map_map, Function.comp] at h
  exact h

/-- Decoding a body that is one encoded value followed by the newline of `Encode`. -/
theorem decodeValue_of_decodesTo (enc : GoString) (v : JVal) (h : DecodesTo enc v) :
    decodeValue (enc ++ [0x0A]) = some v := by
  unfold decodeValue
  rw [h.2 _ _ (by simp only [List.length_append, List.length_cons, List.length_nil]; omega)]
  rfl

/-- The body the root handler writes, and its status. -/
theorem rootHandler_result (r : Request) :
    (rootHandler newRecorder r).result.statusCode = 200 ∧
    (rootHandler newRecorder r).result.body =
      encodeMap
        [ (ascii "message", .str (ascii "Welcome to the Kubernetes Routing Experiment")),
          (ascii "path", .str r.path),
          (ascii "method", .str r.method),
          (ascii "headers", .header r.header) ] ++ [0x0A] := by
  constructor <;> rfl

theorem root_sorted (a b c : GoString) (h : Header) :
    sortByKey
        [ (ascii "message", Iface.str a), (ascii "path", Iface.str b),
          (ascii "method", Iface.str c), (ascii "headers", Iface.header h) ] =
      [ (ascii "headers", Iface.header h), (ascii "message", Iface.str a),
        (ascii "method", Iface.str c), (ascii "path", Iface.str b) ] := by
  rfl


/-- What decoding the body of the root handler gives under a key of the response map. -/
theorem rootHandler_decoded (r : Request) :
    decodedString (rootHandler newRecorder r).result.body (ascii "path") = some (coerceUTF8 r.path) ∧
    decodedString (rootHandler newRecorder r).result.body (ascii "method") =
      some (coerceUTF8 r.method) ∧
    decodedString (rootHandler newRecorder r).result.body (ascii "message") =
      some (ascii "Welcome to the Kubernetes Routing Experiment") ∧
    (decodeMap (rootHandler newRecorder r).result.body).bind (·.member (ascii "headers")) =
      some (JVal.ofHeader r.header) := by
  have hb := (rootHandler_result r).2
  have hd := decodeValue_of_decodesTo _ _ (decodesTo_map
    [ (ascii "message", .str (ascii "Welcome to the Kubernetes Routing Experiment")),
      (ascii "path", .str r.path), (ascii "method", .str r.method),
      (ascii "headers", .header r.header) ])
  rw [← hb] at hd
  simp only [decodedString, decodeMap, hd, JVal.ofMap, root_sorted]
  refine ⟨?_, ?_, ?_, ?_⟩ <;> rfl

/-! ## Header maps: sorting and lookup -/

theorem insertByKey_perm {α : Type} (e : GoString × α) (l : List (GoString × α)) :
    (insertByKey e l).Perm (e :: l) := by
  induction l with
  | nil => exact List.Perm.refl _
  | cons e1 rest ih =>
    unfold insertByKey
    split_ifs
    · exact (List.Perm.cons e1 ih).trans (List.Perm.swap e e1 rest)
    · exact List.Perm.refl _

theorem sortByKey_perm {α : Type} (l : List (GoString × α)) : (sortByKey l).Perm l := by
  induction l with
  | nil => exact List.Perm.refl _
  | cons e rest ih =>
    unfold sortByKey
    exact (insertByKey_perm e _).trans (List.Perm.cons e ih)

theorem mapGet_cons {α : Type} (k1 : GoString) (v1 : α) (rest : List (GoString × α))
    (k : GoString) : mapGet ((k1, v1) :: rest) k = if k1 = k then some v1 else mapGet rest k :=
  rfl

theorem mapGet_eq_some_iff {α : Type} (l : List (GoString × α)) (hn : (l.map Prod.fst).Nodup)
    (k : GoString) (v : α) : mapGet l k = some v ↔ (k, v) ∈ l := by
  induction l with
  | nil => simp [mapGet]
  | cons e rest ih =>
    obtain ⟨k1, v1⟩ := e
    simp only [List.map, List.nodup_cons] at hn
    rw [mapGet_cons]
    by_cases h : k1 = k
    · subst h
      simp only [if_true, Option.some.injEq, List.mem_cons, Prod.mk.injEq, true_and]
      constructor
      · intro h; exact Or.inl h.symm
      · rintro (h | h)
        · exact h.symm
        · exact absurd (List.mem_map.mpr ⟨(k1, v), h, rfl⟩) hn.1
    · simp only [h, if_false, List.mem_cons, Prod.mk.injEq]
      rw [ih hn.2]
      constructor
      · intro h'; exact Or.inr h'
      · rintro (h' | h')
        · exact absurd h'.1.symm h
        · exact h'

theorem mapGet_perm {α : Type} (l1 l2 : List (GoString × α)) (hp : l1.Perm l2)
    (hn : (l2.map Prod.fst).Nodup) (k : GoString) : mapGet l1 k = mapGet l2 k := by
  have hn1 : (l1.map Prod.fst).Nodup := (hp.map Prod.fst).nodup_iff.mpr hn
  apply Option.ext
  intro v
  simp only [Option.mem_def]
  rw [mapGet_eq_some_iff l1 hn1, mapGet_eq_some_iff l2 hn, hp.mem_iff]

theorem lastMember_cons (m : GoString × JVal) (ms : List (GoString × JVal)) (k : GoString) :
    lastMember (m :: ms) k =
      match lastMember ms k with
      | some v => some v
      | none => if m.1 = k then some m.2 else none := by
  have gen : ∀ (l : List (GoString × JVal)) (acc : Option JVal),
      l.foldl (fun acc m => if m.1 = k then some m.2 else acc) acc =
        match l.foldl (fun acc m => if m.1 = k then some m.2 else acc) none with
        | some v => some v
        | none => acc := by
    intro l
    induction l with
    | nil => intro acc; rfl
    | cons x xs ih =>
      intro acc
      simp only [List.foldl]
      rw [ih (if x.1 = k then some x.2 else acc), ih (if x.1 = k then some x.2 else none)]
      cases xs.foldl (fun acc m => if m.1 = k then some m.2 else acc) none with
      | none => by_cases hx : x.1 = k <;> simp [hx]
      | some v => rfl
  unfold lastMember
  simp only [List.foldl]
  rw [gen ms (if m.1 = k then some m.2 else none)]

theorem lastMember_eq_mapGet (l : List (GoString × JVal)) (hn : (l.map Prod.fst).Nodup)
    (k : GoString) : lastMember l k = mapGet l k := by
  induction l with
  | nil => rfl
  | cons e rest ih =>
    obtain ⟨k1, v1⟩ := e
    simp only [List.map, List.nodup_cons] at hn
    rw [lastMember_cons, ih hn.2, mapGet_cons]
    by_cases h : k1 = k
    · subst h
      have : mapGet rest k1 = none := by
        cases hg : mapGet rest k1 with
        | none => rfl
        | some v =>
          have := (mapGet_eq_some_iff rest hn.2 k1 v).mp hg
          exact absurd (List.mem_map.mpr ⟨(k1, v), this, rfl⟩) hn.1
      simp [this]
    · simp only [h, if_false]
      cases mapGet rest k <;> rfl

theorem mapGet_map {α β : Type} (f : α → β) (l : List (GoString × α)) (k : GoString) :
    mapGet (l.map fun e => (e.1, f e.2)) k = (mapGet l k).map f := by
  induction l with
  | nil => rfl
  | cons e rest ih =>
    obtain ⟨k1, v1⟩ := e
    simp only [List.map]
    rw [mapGet_cons, mapGet_cons]
    by_cases h : k1 = k
    · simp [h]
    · simp only [h, if_false]; exact ih

/-! ## The root handler -/

theorem allStrings_ofString (vs : List GoString) :
    allStrings (vs.map JVal.ofString) = some (vs.map coerceUTF8) := by
  induction vs with
  | nil => rfl
  | cons v rest ih =>
    simp only [List.map, allStrings, ih]
    rfl

theorem ofHeader_member (h : Header) (hn : (h.map Prod.fst).Nodup)
    (hv : ∀ e ∈ h, validString e.1 = true) (k : GoString) :
    (JVal.ofHeader h).member k = (mapGet h k).map JVal.ofStrings := by
  have hp := sortByKey_perm h
  have e1 : (sortByKey h).map (fun e => (coerceUTF8 e.1, JVal.ofStrings e.2)) =
      (sortByKey h).map (fun e => (e.1, JVal.ofStrings e.2)) := by
    apply List.map_congr_left
    intro e he
    rw [coerceUTF8_valid e.1 (hv e (hp.mem_iff.mp he))]
  have hn1 : ((sortByKey h).map Prod.fst).Nodup := (hp.map Prod.fst).nodup_iff.mpr hn
  have hn2 : (((sortByKey h).map fun e => (e.1, JVal.ofStrings e.2)).map Prod.fst).Nodup := by
    rw [List.map_map]; exact hn1
  simp only [JVal.ofHeader, JVal.member]
  rw [e1, lastMember_eq_mapGet _ hn2, mapGet_map, mapGet_perm _ _ hp hn]

/-- C3 (amended). For every request the root handler answers 200 and the decoded body has the
welcome message; the decoded path is the request path whenever that is valid
UTF-8, and the decoded method is the request method whenever that is valid
UTF-8 (this includes every character the encoder escapes). -/
theorem rootHandler_echo (r : Request) :
    (rootHandler newRecorder r).result.statusCode = 200 ∧
    decodedString (rootHandler newRecorder r).result.body (ascii "message") =
      some (ascii "Welcome to the Kubernetes Routing Experiment") ∧
    (validString r.path = true →
      decodedString (rootHandler newRecorder r).result.body (ascii "path") = some r.path) ∧
    (validString r.method = true →
      decodedString (rootHandler newRecorder r).result.body (ascii "method") = some r.method) := by
  obtain ⟨hp, hm, hw, _⟩ := rootHandler_decoded r
  refine ⟨rfl, hw, ?_, ?_⟩
  · intro h; rw [hp, coerceUTF8_valid _ h]
  · intro h; rw [hm, coerceUTF8_valid _ h]

theorem rootHandler_echo_witness :
    decodedString (rootHandler newRecorder
        { method := ascii "M-SEARCH&", path := ascii "/a<b>&\"\\\n" ++ [0xC3, 0xA9, 0xE2, 0x80, 0xA8],
          host := ascii "example.com", header := [], body := [] }).result.body (ascii "path") =
      some (ascii "/a<b>&\"\\\n" ++ [0xC3, 0xA9, 0xE2, 0x80, 0xA8]) ∧
    decodedString (rootHandler newRecorder
        { method := ascii "M-SEARCH&", path := ascii "/a<b>&\"\\\n" ++ [0xC3, 0xA9, 0xE2, 0x80, 0xA8],
          host := ascii "example.com", header := [], body := [] }).result.body (ascii "method") =
      some (ascii "M-SEARCH&") :=
  ⟨(rootHandler_echo _).2.2.1 (by decide), (rootHandler_echo _).2.2.2 (by decide)⟩

/-- C3 (counterexample). The request `GET /%ff` has the path `/` followed by the byte 0xFF, which is not
valid UTF-8; the encoder writes the escape `\ufffd` for that byte, so the decoded path is `/`
followed by the three bytes of U+FFFD and differs from the request path. -/
theorem rootHandler_echo_counterexample :
    decodedString (rootHandler newRecorder
        { method := ascii "GET", path := [0x2F, 0xFF], host := ascii "example.com",
          header := [], body := [] }).result.body (ascii "path") =
      some [0x2F, 0xEF, 0xBF, 0xBD] ∧
    decodedString (rootHandler newRecorder
        { method := ascii "GET", path := [0x2F, 0xFF], host := ascii "example.com",
          header := [], body := [] }).result.body (ascii "path") ≠
      some [0x2F, 0xFF] := by
  decide

/-- C4 (amended). For every request whose header names and values are valid UTF-8, the decoded `headers`
field has exactly the header names of the request, each with the same list of
values in the same order. -/
theorem rootHandler_headers (r : Request) (hn : (r.header.map Prod.fst).Nodup)
    (hv : ∀ e ∈ r.header, validString e.1 = true ∧ ∀ v ∈ e.2, validString v = true)
    (name : GoString) :
    decodedHeader (rootHandler newRecorder r).result.body name = mapGet r.header name := by
  unfold decodedHeader
  rw [(rootHandler_decoded r).2.2.2]
  simp only [Option.some_bind]
  rw [ofHeader_member r.header hn (fun e he => (hv e he).1)]
  cases hg : mapGet r.header name with
  | none => rfl
  | some vs =>
    have hmem := (mapGet_eq_some_iff _ hn _ _).mp hg
    simp only [Option.map_some', Option.some_bind, JVal.ofStrings, JVal.asStrings]
    rw [allStrings_ofString]
    congr 1
    conv_rhs => rw [← List.map_id vs]
    apply List.map_congr_left
    intro v hvs
    exact coerceUTF8_valid v ((hv _ hmem).2 v hvs)

theorem rootHandler_headers_witness :
    decodedHeader (rootHandler newRecorder
        { method := ascii "GET", path := ascii "/", host := ascii "example.com",
          header := [(ascii "X-Forwarded-For", [ascii "10.0.0.1", ascii "10.0.0.2"]),
                     (ascii "Accept", [ascii "*/*"])],
          body := [] }).result.body (ascii "X-Forwarded-For") =
      some [ascii "10.0.0.1", ascii "10.0.0.2"] :=
  rootHandler_headers _ (by decide) (by decide) (ascii "X-Forwarded-For")

set_option maxRecDepth 8000 in
/-- C4 (counterexample). A header value may hold any byte but control characters; the value consisting
of the byte 0xFF comes back from the decoded body as U+FFFD. -/
theorem rootHandler_headers_counterexample :
    decodedHeader (rootHandler newRecorder
        { method := ascii "GET", path := ascii "/", host := ascii "example.com",
          header := [(ascii "X-Token", [[0xFF]])], body := [] }).result.body (ascii "X-Token") =
      some [[0xEF, 0xBF, 0xBD]] ∧
    decodedHeader (rootHandler newRecorder
        { method := ascii "GET", path := ascii "/", host := ascii "example.com",
          header := [(ascii "X-Token", [[0xFF]])], body := [] }).result.body (ascii "X-Token") ≠
      mapGet [(ascii "X-Token", [[0xFF]])] (ascii "X-Token") := by
  decide

/-! ## Routing -/

theorem mainMux_eq :
    mainMux = { m := [(ascii "/healthz", .health), (ascii "/version", .version), (ascii "/", .root)]
                es := [(ascii "/", .root)]
                hosts := false } := by
  decide

theorem backtrack_pos (out : GoString) (w : Nat) (hw : 1 ≤ w) : 1 ≤ backtrack out 1 w := by
  induction w with
  | zero => omega
  | succ w ih =>
    unfold backtrack
    split_ifs with h
    · simp only [Bool.and_eq_true, decide_eq_true_eq] at h
      exact ih (by omega)
    · omega

theorem cleanLoop_head (n : Nat) : ∀ (p t : GoString),
    ∃ t', cleanLoop true n p (0x2F :: t) 1 = 0x2F :: t' := by
  induction n with
  | zero => intro p t; exact ⟨t, rfl⟩
  | succ n ih =>
    intro p t
    cases p with
    | nil => exact ⟨t, rfl⟩
    | cons c rest =>
      rw [cleanLoop.eq_def]
      simp only []
      by_cases h1 : c = 0x2F
      · rw [if_pos h1]; exact ih _ _
      · rw [if_neg h1]
        by_cases h2 : (c = 0x2E && (rest.isEmpty || rest.head? = some 0x2F)) = true
        · rw [if_pos h2]; exact ih _ _
        · rw [if_neg h2]
          by_cases h3 : (c = 0x2E && rest.head? = some 0x2E &&
              (rest.tail.isEmpty || rest.tail.head? = some 0x2F)) = true
          · rw [if_pos h3]
            by_cases h4 : (0x2F :: t).length > 1
            · rw [if_pos h4]
              have hb := backtrack_pos (0x2F :: t) ((0x2F :: t).length - 1) (by omega)
              obtain ⟨k, hk⟩ : ∃ k, backtrack (0x2F :: t) 1 ((0x2F :: t).length - 1) = k + 1 :=
                ⟨backtrack (0x2F :: t) 1 ((0x2F :: t).length - 1) - 1, by omega⟩
              rw [hk, List.take_succ_cons]
              exact ih _ _
            · rw [if_neg h4]
              simp only [Bool.not_true, Bool.false_eq_true, if_false]
              exact ih _ _
          · rw [if_neg h3]
            by_cases h5 : ((true && (0x2F :: t).length != 1) || (!true && (0x2F :: t).length != 0)) = true
            · rw [if_pos h5]
              simp only [List.cons_append]
              exact ih _ _
            · rw [if_neg h5]
              simp only [List.cons_append]
              exact ih _ _

theorem pathClean_head (c : Nat) (t : GoString) (h : c = 0x2F) :
    ∃ t', pathClean (c :: t) = 0x2F :: t' := by
  subst h
  unfold pathClean
  simp only [if_true]
  obtain ⟨t', ht'⟩ := cleanLoop_head (0x2F :: t).length t []
  rw [ht']
  exact ⟨t', rfl⟩

theorem cleanPath_head (p : GoString) : ∃ t', cleanPath p = 0x2F :: t' := by
  unfold cleanPath
  by_cases h1 : p = []
  · rw [if_pos h1]; exact ⟨[], rfl⟩
  · rw [if_neg h1]
    simp only []
    have hp : ∃ t, (if p.head? != some 0x2F then 0x2F :: p else p) = 0x2F :: t := by
      by_cases h2 : (p.head? != some 0x2F) = true
      · rw [if_pos h2]; exact ⟨p, rfl⟩
      · rw [if_neg h2]
        cases p with
        | nil => exact absurd rfl h1
        | cons c t =>
          simp only [List.head?_cons, bne_iff_ne, ne_eq, Option.some.injEq, not_not] at h2
          exact ⟨t, by rw [h2]⟩
    obtain ⟨t, ht⟩ := hp
    rw [ht]
    obtain ⟨t', ht'⟩ := pathClean_head 0x2F t rfl
    rw [ht']
    split_ifs
    · exact ⟨t, rfl⟩
    · exact ⟨t' ++ [0x2F], by simp⟩
    · exact ⟨t', rfl⟩


theorem mainMux_shouldRedirect (host path : GoString) :
    mainMux.shouldRedirect host path = false := by
  rw [mainMux_eq]
  unfold ServeMux.shouldRedirect
  simp only []
  split_ifs with h1 h2 h3
  · rfl
  · rfl
  · exfalso
    have key : ∀ c : GoString, c ≠ [] →
        (mapGet [(ascii "/healthz", HandlerId.health), (ascii "/version", .version),
          (ascii "/", .root)] (c ++ [0x2F])).isSome = false := by
      intro c hc
      have e1 : ascii "/healthz" ≠ c ++ [0x2F] := by
        intro h
        have := congrArg List.getLast? h
        simp at this
        revert this; decide
      have e2 : ascii "/version" ≠ c ++ [0x2F] := by
        intro h
        have := congrArg List.getLast? h
        simp at this
        revert this; decide
      have e3 : ascii "/" ≠ c ++ [0x2F] := by
        intro h
        have := congrArg List.length h
        simp at this
        have : c.length = 0 := by
          have h0 : (ascii "/").length = 1 := by decide
          omega
        exact hc (List.length_eq_zero.mp this)
      simp only [mapGet_cons, e1, e2, e3, if_false]
      rfl
    have hp : path ≠ [] := fun h => h2 (by rw [h]; rfl)
    have hhp : host ++ path ≠ [] := by
      intro h
      exact hp (List.append_eq_nil.mp h).2
    simp only [List.any_cons, List.any_nil, Bool.or_false, key path hp, key _ hhp,
      Bool.or_self, Bool.false_eq_true] at h3
  · rfl

theorem mainMux_handler (host path : GoString) :
    mainMux.handler host path =
      if path = ascii "/healthz" then .serve .health (ascii "/healthz")
      else if path = ascii "/version" then .serve .version (ascii "/version")
      else if path.head? = some 0x2F then .serve .root (ascii "/")
      else .notFound := by
  rw [mainMux_eq]
  unfold ServeMux.handler ServeMux.match
  simp only [Bool.false_eq_true, if_false, Option.isNone_none, if_true, mapGet_cons]
  by_cases h1 : path = ascii "/healthz"
  · subst h1; rfl
  · have h1' : ¬ ascii "/healthz" = path := fun h => h1 h.symm
    rw [if_neg h1', if_neg h1]
    by_cases h2 : path = ascii "/version"
    · subst h2; rfl
    · have h2' : ¬ ascii "/version" = path := fun h => h2 h.symm
      rw [if_neg h2', if_neg h2]
      cases path with
      | nil => rfl
      | cons c t =>
        by_cases h3 : c = 0x2F
        · subst h3
          cases t with
          | nil => rfl
          | cons d t' =>
            have : ¬ ascii "/" = 0x2F :: d :: t' := by
              intro h; have := congrArg List.length h; simp at this
              have h0 : (ascii "/").length = 1 := by decide
              omega
            rw [if_neg this]
            rfl
        · have : ¬ ascii "/" = c :: t := by
            intro h
            have h0 : ascii "/" = [0x2F] := by decide
            rw [h0] at h
            exact h3 (List.cons.inj h).1.symm
          rw [if_neg this]
          simp [mapGet, hasPrefix, ascii, h3]

/-- Where the multiplexer of `main` sends a request. -/
theorem mainMux_route (strip : GoString → GoString) (urlHost : GoString) (r : Request) :
    (r.path = ascii "/healthz" →
      mainMux.route strip urlHost r = .serve .health (ascii "/healthz")) ∧
    (r.path = ascii "/version" →
      mainMux.route strip urlHost r = .serve .version (ascii "/version")) ∧
    (r.path ≠ ascii "/healthz" → r.path ≠ ascii "/version" → cleanPath r.path = r.path →
      mainMux.route strip urlHost r = .serve .root (ascii "/")) ∧
    (r.method ≠ ascii "CONNECT" → cleanPath r.path ≠ r.path →
      mainMux.route strip urlHost r = .redirect (cleanPath r.path)) := by
  unfold ServeMux.route
  simp only [mainMux_shouldRedirect, Bool.false_eq_true, if_false, mainMux_handler]
  refine ⟨?_, ?_, ?_, ?_⟩
  · intro h
    have hc : cleanPath (ascii "/healthz") = ascii "/healthz" := by decide
    simp only [h, hc, bne_self_eq_false, Bool.false_eq_true, if_false, if_true, ite_self]
  · intro h
    have hc : cleanPath (ascii "/version") = ascii "/version" := by decide
    have hne : ¬ ascii "/version" = ascii "/healthz" := by decide
    simp only [h, hc, bne_self_eq_false, Bool.false_eq_true, if_false, if_true, ite_self, hne]
  · intro h1 h2 hc
    obtain ⟨t, ht⟩ := cleanPath_head r.path
    rw [hc] at ht
    have hh : r.path.head? = some 0x2F := by rw [ht]; rfl
    simp only [hc, bne_self_eq_false, Bool.false_eq_true, if_false, h1, h2, hh, if_true, ite_self]
  · intro hm hc
    simp only [hm, if_false, bne_iff_ne, ne_eq, hc, not_false_eq_true, if_true]

/-- Where the multiplexer of `main` sends a CONNECT request: its path is not cleaned. -/
theorem mainMux_route_connect (strip : GoString → GoString) (urlHost : GoString) (r : Request)
    (hm : r.method = ascii "CONNECT") :
    (r.path ≠ ascii "/healthz" → r.path ≠ ascii "/version" → r.path.head? = some 0x2F →
      mainMux.route strip urlHost r = .serve .root (ascii "/")) ∧
    (r.path.head? ≠ some 0x2F → mainMux.route strip urlHost r = .notFound) := by
  unfold ServeMux.route
  simp only [mainMux_shouldRedirect, Bool.false_eq_true, if_false, mainMux_handler, hm, if_true]
  refine ⟨?_, ?_⟩
  · intro h1 h2 h3
    simp only [h1, h2, h3, if_false, if_true]
  · intro h3
    have h1 : r.path ≠ ascii "/healthz" := by
      intro h; rw [h] at h3; exact h3 (by decide)
    have h2 : r.path ≠ ascii "/version" := by
      intro h; rw [h] at h3; exact h3 (by decide)
    simp only [h1, h2, h3, if_false]

/-- C5 (amended). Routing as registered in `main`, for a request the server passes to the default
multiplexer.  A request whose `RequestURI` is `*` is answered 400 by the multiplexer.  Otherwise a
request whose path is exactly `/healthz` is served by `healthHandler`, exactly `/version` by
`versionHandler`; every other path `P` that is in canonical form (`cleanPath P = P`), and for a
CONNECT request every other path `P` that starts with a slash, goes to `rootHandler`, which
answers 200 and writes a body whose decoded path is `P` when `P` is valid UTF-8; a
request other than CONNECT whose path is not in canonical form is answered by
the multiplexer with a redirect to the cleaned path, and a CONNECT request whose
path does not start with a slash with its not-found answer. -/
theorem serve_routing (strip : GoString → GoString) (urlHost requestURI : GoString)
    (r : Request) (now : Time) :
    serve strip urlHost (ascii "*") r now = .badRequest ∧
    (requestURI ≠ ascii "*" →
      (r.path = ascii "/healthz" →
        serve strip urlHost requestURI r now =
          .handled .health (healthHandler newRecorder r now).result) ∧
      (r.path = ascii "/version" →
        serve strip urlHost requestURI r now =
          .handled .version (versionHandler newRecorder r now).result) ∧
      (r.path ≠ ascii "/healthz" → r.path ≠ ascii "/version" →
        (cleanPath r.path = r.path ∨
          (r.method = ascii "CONNECT" ∧ r.path.head? = some 0x2F)) →
        serve strip urlHost requestURI r now =
          .handled .root (rootHandler newRecorder r).result ∧
        (rootHandler newRecorder r).result.statusCode = 200 ∧
        (validString r.path = true →
          decodedString (rootHandler newRecorder r).result.body (ascii "path") = some r.path)) ∧
      (r.method ≠ ascii "CONNECT" → cleanPath r.path ≠ r.path →
        serve strip urlHost requestURI r now = .redirect (cleanPath r.path)) ∧
      (r.method = ascii "CONNECT" → r.path.head? ≠ some 0x2F →
        serve strip urlHost requestURI r now = .notFound)) := by
  refine ⟨rfl, ?_⟩
  intro hu
  obtain ⟨h1, h2, h3, h4⟩ := mainMux_route strip urlHost r
  refine ⟨?_, ?_, ?_, ?_, ?_⟩
  · intro h; unfold serve ServeMux.serveHTTP; rw [if_neg hu, h1 h]; rfl
  · intro h; unfold serve ServeMux.serveHTTP; rw [if_neg hu, h2 h]; rfl
  · intro ha hb hc
    have hr : mainMux.route strip urlHost r = .serve .root (ascii "/") := by
      rcases hc with hc | ⟨hm, hh⟩
      · exact h3 ha hb hc
      · exact (mainMux_route_connect strip urlHost r hm).1 ha hb hh
    refine ⟨?_, (rootHandler_result r).1,
      fun h => by rw [(rootHandler_decoded r).1, coerceUTF8_valid _ h]⟩
    unfold serve ServeMux.serveHTTP; rw [if_neg hu, hr]; rfl
  · intro hm hc
    unfold serve ServeMux.serveHTTP; rw [if_neg hu, h4 hm hc]
  · intro hm hh
    unfold serve ServeMux.serveHTTP
    rw [if_neg hu, (mainMux_route_connect strip urlHost r hm).2 hh]

theorem serve_routing_witness :
    serve id [] (ascii "/healthz")
        (⟨ascii "GET", ascii "/healthz", ascii "example.com", [], []⟩ : Request) ⟨1794528000, 0, 0⟩ =
      .handled .health (healthHandler newRecorder
        (⟨ascii "GET", ascii "/healthz", ascii "example.com", [], []⟩ : Request)
        ⟨1794528000, 0, 0⟩).result ∧
    serve id [] (ascii "/arbitrary/unmatched/path")
        (⟨ascii "GET", ascii "/arbitrary/unmatched/path", ascii "example.com", [], []⟩ : Request)
        ⟨1794528000, 0, 0⟩ =
      .handled .root (rootHandler newRecorder
        (⟨ascii "GET", ascii "/arbitrary/unmatched/path", ascii "example.com", [], []⟩ : Request)).result ∧
    decodedString (rootHandler newRecorder
        (⟨ascii "GET", ascii "/arbitrary/unmatched/path", ascii "example.com", [], []⟩ : Request)).result.body
      (ascii "path") = some (ascii "/arbitrary/unmatched/path") ∧
    serve id [] (ascii "/a/../b")
        (⟨ascii "POST", ascii "/a/../b", ascii "example.com", [], []⟩ : Request) ⟨1794528000, 0, 0⟩ =
      .redirect (ascii "/b") ∧
    serve id [] (ascii "/a//b")
        (⟨ascii "CONNECT", ascii "/a//b", ascii "example.com", [], []⟩ : Request) ⟨1794528000, 0, 0⟩ =
      .handled .root (rootHandler newRecorder
        (⟨ascii "CONNECT", ascii "/a//b", ascii "example.com", [], []⟩ : Request)).result ∧
    serve id (ascii "example.com:443") (ascii "example.com:443")
        (⟨ascii "CONNECT", [], ascii "example.com:443", [], []⟩ : Request) ⟨1794528000, 0, 0⟩ =
      .notFound :=
  ⟨((serve_routing id [] (ascii "/healthz") _ _).2 (by decide)).1 rfl,
   ((((serve_routing id [] (ascii "/arbitrary/unmatched/path") _ ⟨1794528000, 0, 0⟩).2
      (by decide)).2.2.1 (by decide) (by decide) (Or.inl (by decide)))).1,
   ((((serve_routing id [] (ascii "/arbitrary/unmatched/path") _ ⟨1794528000, 0, 0⟩).2
      (by decide)).2.2.1 (by decide) (by decide) (Or.inl (by decide)))).2.2 (by decide),
   ((serve_routing id [] (ascii "/a/../b") _ _).2 (by decide)).2.2.2.1 (by decide) (by decide),
   ((((serve_routing id [] (ascii "/a//b")
      (⟨ascii "CONNECT", ascii "/a//b", ascii "example.com", [], []⟩ : Request) ⟨1794528000, 0, 0⟩).2
      (by decide)).2.2.1 (by decide) (by decide) (Or.inr ⟨rfl, rfl⟩))).1,
   ((serve_routing id (ascii "example.com:443") (ascii "example.com:443")
      (⟨ascii "CONNECT", [], ascii "example.com:443", [], []⟩ : Request) ⟨1794528000, 0, 0⟩).2
      (by decide)).2.2.2.2 rfl (by decide)⟩

/-- C5 (counterexample). The path `/a//b` is neither `/healthz` nor `/version`, yet the request `GET /a//b` does
not reach `rootHandler`: the multiplexer cleans the path to `/a/b` and answers with a
redirect there.  The request `GET *`, whose path is `*`, does not reach it either. -/
theorem serve_routing_counterexample :
    serve id [] (ascii "/a//b")
        (⟨ascii "GET", ascii "/a//b", ascii "example.com", [], []⟩ : Request) ⟨1794528000, 0, 0⟩ =
      .redirect (ascii "/a/b") ∧
    serve id [] (ascii "/a//b")
        (⟨ascii "GET", ascii "/a//b", ascii "example.com", [], []⟩ : Request) ⟨1794528000, 0, 0⟩ ≠
      .handled .root (rootHandler newRecorder
        (⟨ascii "GET", ascii "/a//b", ascii "example.com", [], []⟩ : Request)).result ∧
    serve id [] (ascii "*")
        (⟨ascii "GET", ascii "*", ascii "example.com", [], []⟩ : Request) ⟨1794528000, 0, 0⟩ =
      .badRequest := by
  decide

/-! ## Calendar arithmetic -/

set_option maxRecDepth 100000 in
theorem monthDay_spec : ∀ leap : Bool, ∀ yday : Nat, yday < 366 →
    yday < 365 + (if leap then 1 else 0) →
    1 ≤ (monthDay leap yday).1 ∧ (monthDay leap yday).1 ≤ 12 ∧ 1 ≤ (monthDay leap yday).2 ∧
    (monthDay leap yday).2 ≤
      (if (monthDay leap yday).1 = 2 && leap then 29
       else daysBefore (monthDay leap yday).1 - daysBefore ((monthDay leap yday).1 - 1)) ∧
    daysBefore ((monthDay leap yday).1 - 1) +
      (if leap && (monthDay leap yday).1 ≥ 3 then 1 else 0) + ((monthDay leap yday).2 - 1) = yday := by
  decide

theorem daysSinceEpoch_of_nat (y : Nat) (hy : y < 18446744073709551616) :
    daysSinceEpoch ((y : Int) + (-292277022399)) =
      146097 * (y / 400) + 36524 * (y % 400 / 100) + 1461 * (y % 100 / 4) + 365 * (y % 4) := by
  unfold daysSinceEpoch
  have e : (((y : Int) + (-292277022399) - (-292277022399)) % 18446744073709551616).toNat = y := by
    omega
  simp only [e]
  omega

theorem isLeap_of_nat (y : Nat) :
    isLeap ((y : Int) + (-292277022399)) =
      decide (y % 4 = 3 ∧ (y % 100 ≠ 99 ∨ y % 400 = 399)) := by
  unfold isLeap
  rw [Bool.eq_iff_iff]
  simp only [Bool.and_eq_true, Bool.or_eq_true, decide_eq_true_eq, bne_iff_ne, ne_eq]
  omega

theorem yearDay_arith (d0 n400 d1 q100 n100 d2 n4 d3 q1 n1 d4 y : Nat)
    (e1 : n400 = d0 / 146097) (e2 : d1 = d0 - 146097 * n400) (e3 : q100 = d1 / 36524)
    (e4 : n100 = q100 - q100 / 4) (e5 : d2 = d1 - 36524 * n100) (e6 : n4 = d2 / 1461)
    (e7 : d3 = d2 - 1461 * n4) (e8 : q1 = d3 / 365) (e9 : n1 = q1 - q1 / 4)
    (e10 : d4 = d3 - 365 * n1) (e11 : y = 400 * n400 + 100 * n100 + 4 * n4 + n1) :
    y / 400 = n400 ∧ y % 400 / 100 = n100 ∧ y % 100 / 4 = n4 ∧ y % 4 = n1 ∧
    146097 * n400 + 36524 * n100 + 1461 * n4 + 365 * n1 + d4 = d0 ∧
    (d4 < 365 ∨ (d4 = 365 ∧ n1 = 3 ∧ (n4 ≠ 24 ∨ n100 = 3))) := by
  have h1 : d1 < 146097 ∧ 146097 * n400 + d1 = d0 := by omega
  have h2 : n100 ≤ 3 := by omega
  have h3 : d2 ≤ 36524 ∧ (d2 = 36524 → n100 = 3) ∧ 36524 * n100 + d2 = d1 := by omega
  have h4 : n4 ≤ 24 ∧ d3 ≤ 1460 ∧ 1461 * n4 + d3 = d2 := by omega
  have h5 : n1 ≤ 3 ∧ 365 * n1 + d4 = d3 ∧ (d4 < 365 ∨ (d4 = 365 ∧ n1 = 3 ∧ d3 = 1460)) := by omega
  have h6 : n4 = 24 → n100 ≠ 3 → d3 < 1460 := by omega
  clear e1 e2 e3 e4 e5 e6 e7 e8 e9 e10
  obtain ⟨r2, hr2⟩ : ∃ r, r = 4 * n4 + n1 := ⟨_, rfl⟩
  obtain ⟨r1, hr1⟩ : ∃ r, r = 100 * n100 + r2 := ⟨_, rfl⟩
  have b2 : r2 < 100 := by omega
  have b1 : r1 < 400 := by omega
  have g1 : y / 400 = n400 ∧ y % 400 = r1 := by
    have : y = 400 * n400 + r1 := by omega
    clear hr1 hr2 e11 h1 h3 h4 h5 h6
    omega
  have g2 : r1 / 100 = n100 ∧ r1 % 100 = r2 := by
    clear e11 h1 h3 h4 h5 h6 g1 hr2
    omega
  have g3 : y % 100 = r2 := by
    have : y = 100 * (4 * n400 + n100) + r2 := by omega
    clear hr1 hr2 e11 h1 h3 h4 h5 h6 g1 g2
    omega
  have g4 : r2 / 4 = n4 ∧ r2 % 4 = n1 := by
    clear e11 h1 h3 h4 h6 g1 g2 g3 hr1
    omega
  have g5 : y % 4 = n1 := by
    have : y = 4 * (100 * n400 + 25 * n100 + n4) + n1 := by omega
    clear hr1 hr2 e11 h1 h3 h4 h6 g1 g2 g3 g4
    omega
  refine ⟨g1.1, by rw [g1.2]; exact g2.1, by rw [g3]; exact g4.1, g5, by omega, ?_⟩
  rcases h5.2.2 with h | h
  · exact Or.inl h
  · right
    refine ⟨h.1, h.2.1, ?_⟩
    by_cases h7 : n4 = 24
    · right
      by_contra h8
      have := h6 h7 h8
      omega
    · exact Or.inl h7

theorem absYearDay_eq (abs d0 n400 d1 q100 n100 d2 n4 d3 q1 n1 d4 y : Nat)
    (e0 : d0 = abs / 86400)
    (e1 : n400 = d0 / 146097) (e2 : d1 = d0 - 146097 * n400) (e3 : q100 = d1 / 36524)
    (e4 : n100 = q100 - q100 / 4) (e5 : d2 = d1 - 36524 * n100) (e6 : n4 = d2 / 1461)
    (e7 : d3 = d2 - 1461 * n4) (e8 : q1 = d3 / 365) (e9 : n1 = q1 - q1 / 4)
    (e10 : d4 = d3 - 365 * n1) (e11 : y = 400 * n400 + 100 * n100 + 4 * n4 + n1) :
    absYearDay abs = ((y : Int) + (-292277022399), d4) := by
  subst e11 e10 e9 e8 e7 e6 e5 e4 e3 e2 e1 e0
  rfl

theorem absYearDay_spec (abs : Nat) (h : abs < 18446744073709551616) :
    daysSinceEpoch (absYearDay abs).1 + (absYearDay abs).2 = abs / 86400 ∧
    (absYearDay abs).2 < 365 + (if isLeap (absYearDay abs).1 = true then 1 else 0) ∧
    (absYearDay abs).2 < 366 := by
  obtain ⟨d0, e0⟩ : ∃ n, n = abs / 86400 := ⟨_, rfl⟩
  obtain ⟨n400, e1⟩ : ∃ n, n = d0 / 146097 := ⟨_, rfl⟩
  obtain ⟨d1, e2⟩ : ∃ n, n = d0 - 146097 * n400 := ⟨_, rfl⟩
  obtain ⟨q100, e3⟩ : ∃ n, n = d1 / 36524 := ⟨_, rfl⟩
  obtain ⟨n100, e4⟩ : ∃ n, n = q100 - q100 / 4 := ⟨_, rfl⟩
  obtain ⟨d2, e5⟩ : ∃ n, n = d1 - 36524 * n100 := ⟨_, rfl⟩
  obtain ⟨n4, e6⟩ : ∃ n, n = d2 / 1461 := ⟨_, rfl⟩
  obtain ⟨d3, e7⟩ : ∃ n, n = d2 - 1461 * n4 := ⟨_, rfl⟩
  obtain ⟨q1, e8⟩ : ∃ n, n = d3 / 365 := ⟨_, rfl⟩
  obtain ⟨n1, e9⟩ : ∃ n, n = q1 - q1 / 4 := ⟨_, rfl⟩
  obtain ⟨d4, e10⟩ : ∃ n, n = d3 - 365 * n1 := ⟨_, rfl⟩
  obtain ⟨y, e11⟩ : ∃ n, n = 400 * n400 + 100 * n100 + 4 * n4 + n1 := ⟨_, rfl⟩
  rw [absYearDay_eq abs d0 n400 d1 q100 n100 d2 n4 d3 q1 n1 d4 y e0 e1 e2 e3 e4 e5 e6 e7 e8 e9 e10 e11]
  obtain ⟨a1, a2, a3, a4, a5, a6⟩ :=
    yearDay_arith d0 n400 d1 q100 n100 d2 n4 d3 q1 n1 d4 y e1 e2 e3 e4 e5 e6 e7 e8 e9 e10 e11
  have hd : d0 < 213503982334602 := by omega
  have hy : y < 18446744073709551616 := by omega
  simp only []
  rw [daysSinceEpoch_of_nat y hy, isLeap_of_nat y, a1, a2, a3, a4, ← e0]
  refine ⟨by omega, ?_, by omega⟩
  simp only [decide_eq_true_eq]
  split_ifs with hl
  · omega
  · rcases a6 with h6 | h6
    · omega
    · exfalso
      apply hl
      omega

/-! ## Decimal digits -/

theorem digitsN_length (k n : Nat) : (digitsN k n).length = k := by
  induction k generalizing n with
  | zero => rfl
  | succ k ih => simp [digitsN, ih]

theorem digitsN_zero (k : Nat) : digitsN k 0 = List.replicate k 48 := by
  induction k with
  | zero => rfl
  | succ k ih =>
    simp only [digitsN, Nat.zero_div, Nat.zero_mod, Nat.add_zero, ih]
    exact (List.replicate_succ' _ _).symm

theorem decimalDigits_pad (k : Nat) : ∀ f n : Nat, n < 10 ^ k → n ≤ f →
    List.replicate (k - (decimalDigits f n).length) 48 ++ decimalDigits f n = digitsN k n := by
  induction k with
  | zero =>
    intro f n hn _
    have : n = 0 := by simpa using hn
    subst this
    cases f <;> simp [decimalDigits, digitsN]
  | succ k ih =>
    intro f n hn hf
    by_cases h0 : n = 0
    · subst h0
      have : decimalDigits f 0 = [] := by cases f <;> simp [decimalDigits]
      rw [this, digitsN_zero]
      simp
    · obtain ⟨f, rfl⟩ : ∃ g, f = g + 1 := ⟨f - 1, by omega⟩
      have hlt : n / 10 < 10 ^ k := by
        rw [Nat.div_lt_iff_lt_mul (by decide)]
        rw [pow_succ] at hn
        exact hn
      have := ih f (n / 10) hlt (by omega)
      simp only [decimalDigits, h0, if_false, digitsN, List.length_append, List.length_cons,
        List.length_nil]
      rw [← this]
      simp only [List.append_assoc]
      congr 2
      omega

theorem all_isDigit_digitsN (k n : Nat) : (digitsN k n).all isDigit = true := by
  induction k generalizing n with
  | zero => rfl
  | succ k ih =>
    simp only [digitsN, List.all_append, ih, List.all_cons, List.all_nil, Bool.and_true,
      Bool.true_and, isDigit, Bool.and_eq_true, decide_eq_true_eq]
    omega

theorem digitsValue_append (xs : GoString) (c : Nat) :
    digitsValue (xs ++ [c]) = digitsValue xs * 10 + (c - 48) := by
  simp [digitsValue, List.foldl_append]

theorem digitsValue_digitsN (k : Nat) : ∀ n : Nat, n < 10 ^ k → digitsValue (digitsN k n) = n := by
  induction k with
  | zero => intro n hn; have : n = 0 := by simpa using hn
            subst this; rfl
  | succ k ih =>
    intro n hn
    have hlt : n / 10 < 10 ^ k := by
      rw [Nat.div_lt_iff_lt_mul (by decide)]
      rw [pow_succ] at hn
      exact hn
    rw [digitsN, digitsValue_append, ih _ hlt]
    omega

/-- The two-digit fields written by `appendInt`. -/
theorem appendInt_two (x : Nat) (hx : x < 100) : appendInt (x : Int) 2 = digitsN 2 x := by
  unfold appendInt
  have h1 : ¬ ((x : Int) < 0) := by omega
  simp only [h1, if_false, Int.natAbs_ofNat, hx, and_self, if_true, List.nil_append, digitsN]
  simp
  omega

/-- The four-digit year written by `appendInt`. -/
theorem appendInt_four (x : Nat) (hx : x < 10000) : appendInt (x : Int) 4 = digitsN 4 x := by
  unfold appendInt
  have h1 : ¬ ((x : Int) < 0) := by omega
  simp only [h1, if_false, Int.natAbs_ofNat, hx, if_true, List.nil_append, digitsN]
  simp
  omega

/-- The nine digits of the nanoseconds written by `appendInt`. -/
theorem appendInt_nine (x : Nat) (hx : x < 1000000000) : appendInt (x : Int) 9 = digitsN 9 x := by
  unfold appendInt
  have h1 : ¬ ((x : Int) < 0) := by omega
  simp only [h1, if_false, Int.natAbs_ofNat, List.nil_append]
  rw [if_neg (by omega), if_neg (by omega)]
  by_cases h0 : x = 0
  · subst h0; rfl
  · simp only [h0, if_false]
    exact decimalDigits_pad 9 x x (by simpa using hx) le_rfl

theorem trailing_zeros_split (k : Nat) : ∀ n : Nat, n ≠ 0 → n < 10 ^ k →
    ∃ z m, z < k ∧ n = m * 10 ^ z ∧ m % 10 ≠ 0 ∧ m < 10 ^ (k - z) := by
  induction k with
  | zero => intro n h0 hn; simp at hn; exact absurd hn h0
  | succ k ih =>
    intro n h0 hn
    by_cases h10 : n % 10 = 0
    · have hlt : n / 10 < 10 ^ k := by
        rw [Nat.div_lt_iff_lt_mul (by decide)]
        rw [pow_succ] at hn
        exact hn
      obtain ⟨z, m, hz, hm, hm10, hmk⟩ := ih (n / 10) (by omega) hlt
      refine ⟨z + 1, m, by omega, ?_, hm10, ?_⟩
      · rw [pow_succ, ← Nat.mul_assoc, ← hm]; omega
      · have : k + 1 - (z + 1) = k - z := by omega
        rw [this]; exact hmk
    · exact ⟨0, n, by omega, by simp, h10, by simpa using hn⟩

theorem digitsN_mul_pow (a m : Nat) : ∀ z : Nat,
    digitsN (a + z) (m * 10 ^ z) = digitsN a m ++ List.replicate z 48 := by
  intro z
  induction z with
  | zero => simp
  | succ z ih =>
    have e1 : m * 10 ^ (z + 1) / 10 = m * 10 ^ z := by
      rw [pow_succ, ← Nat.mul_assoc, Nat.mul_div_cancel _ (by decide)]
    have e2 : m * 10 ^ (z + 1) % 10 = 0 := by
      rw [pow_succ, ← Nat.mul_assoc, Nat.mul_mod_left]
    rw [← Nat.add_assoc, digitsN, e1, e2, ih, List.replicate_succ', List.append_assoc]

theorem trimZeros_append (xs : GoString) (c z : Nat) (hc : c ≠ 48) :
    trimZeros (xs ++ [c] ++ List.replicate z 48) = xs ++ [c] := by
  unfold trimZeros
  have : (xs ++ [c] ++ List.replicate z 48).reverse =
      List.replicate z 48 ++ (c :: xs.reverse) := by
    simp
  rw [this]
  have hd : ∀ z : Nat, (List.replicate z 48 ++ (c :: xs.reverse)).dropWhile (· = 48) =
      c :: xs.reverse := by
    intro z
    induction z with
    | zero => simp [List.dropWhile, hc]
    | succ z ih => simp only [List.replicate_succ, List.cons_append, List.dropWhile]; simpa using ih
  rw [hd]
  simp

/-- The fraction written by `appendNano`: a period and the digits up to the last one
that is not zero. -/
theorem appendNano_pos (n : Nat) (h0 : n ≠ 0) (hn : n < 1000000000) :
    ∃ k m, 1 ≤ k ∧ k ≤ 9 ∧ m < 10 ^ k ∧ n = m * 10 ^ (9 - k) ∧
      appendNano n = 0x2E :: digitsN k m := by
  obtain ⟨z, m, hz, hm, hm10, hmk⟩ := trailing_zeros_split 9 n h0 (by simpa using hn)
  refine ⟨9 - z, m, by omega, by omega, hmk, ?_, ?_⟩
  · have : 9 - (9 - z) = z := by omega
    rw [this]; exact hm
  · unfold appendNano
    rw [if_neg h0]
    have e9 : appendInt (n : Int) 9 = digitsN 9 n := appendInt_nine n hn
    obtain ⟨j, hj⟩ : ∃ j, 9 - z = j + 1 := ⟨9 - z - 1, by omega⟩
    have e1 : digitsN 9 n = digitsN (j + 1) m ++ List.replicate z 48 := by
      have : 9 = (j + 1) + z := by omega
      conv_lhs => rw [this, hm]
      exact digitsN_mul_pow (j + 1) m z
    have e2 : [0x2E] ++ digitsN 9 n =
        ([0x2E] ++ digitsN j (m / 10)) ++ [48 + m % 10] ++ List.replicate z 48 := by
      rw [e1, digitsN]; simp
    simp only []
    rw [e9, e2, trimZeros_append _ _ _ (by omega), hj]
    have hl : ([0x2E] ++ digitsN j (m / 10) ++ [48 + m % 10]).getLast? = some (48 + m % 10) :=
      List.getLast?_concat _
    rw [hl, if_neg (by simp only [Option.some.injEq]; omega), digitsN]
    simp

theorem takeWhile_digits (ds rest : GoString) (c : Nat) (hds : ds.all isDigit = true)
    (hc : isDigit c = false) : (ds ++ c :: rest).takeWhile isDigit = ds := by
  induction ds with
  | nil => simp [List.takeWhile, hc]
  | cons d ds ih =>
    simp only [List.all_cons, Bool.and_eq_true] at hds
    simp only [List.cons_append, List.takeWhile, hds.1]
    exact congrArg (d :: ·) (ih hds.2)

/-- Reading back the fraction that `appendNano` wrote, when a zone follows. -/
theorem parseFraction_appendNano (n c : Nat) (rest : GoString) (hn : n < 1000000000)
    (hc : isDigit c = false) (hc2 : c ≠ 0x2E) :
    parseFraction (appendNano n ++ c :: rest) = (n, c :: rest) := by
  by_cases h0 : n = 0
  · subst h0
    have : appendNano 0 = [] := rfl
    rw [this, List.nil_append]
    unfold parseFraction
    rw [if_neg]
    simp [hc2]
  · obtain ⟨k, m, hk1, hk9, hm, hnm, hap⟩ := appendNano_pos n h0 hn
    rw [hap]
    obtain ⟨j, rfl⟩ : ∃ j, k = j + 1 := ⟨k - 1, by omega⟩
    have hdig : (digitsN (j + 1) m).all isDigit = true := all_isDigit_digitsN _ _
    have hlen : (digitsN (j + 1) m).length = j + 1 := digitsN_length _ _
    have htw : ((0x2E :: digitsN (j + 1) m ++ c :: rest).drop 1).takeWhile isDigit =
        digitsN (j + 1) m := by
      simp only [List.cons_append, List.drop_succ_cons, List.drop_zero]
      exact takeWhile_digits _ _ _ hdig hc
    obtain ⟨d0, ds, hds⟩ : ∃ d0 ds, digitsN (j + 1) m = d0 :: ds := by
      cases hcs : digitsN (j + 1) m with
      | nil => rw [hcs] at hlen; simp at hlen
      | cons d0 ds => exact ⟨d0, ds, rfl⟩
    have hd0 : isDigit d0 = true := by
      rw [hds] at hdig
      simp only [List.all_cons, Bool.and_eq_true] at hdig
      exact hdig.1
    unfold parseFraction
    rw [if_pos]
    · simp only [htw]
      have ht9 : (digitsN (j + 1) m).take 9 = digitsN (j + 1) m := by
        apply List.take_of_length_le; omega
      rw [ht9, hlen, digitsValue_digitsN _ _ hm, ← hnm]
      congr 1
      have : (0x2E :: digitsN (j + 1) m ++ c :: rest) = (0x2E :: digitsN (j + 1) m) ++ c :: rest := by
        simp
      rw [this, Nat.add_comm 1 (j + 1)]
      exact List.drop_left' (by simp [hlen])
    · simp [hds, hd0]

/-! ## RFC 3339: reading back what was written -/

theorem parseUint_digitsN (k n lo hi : Nat) (hn : n < 10 ^ k) (h1 : lo ≤ n) (h2 : n ≤ hi) :
    parseUint (digitsN k n) lo hi = some n := by
  unfold parseUint
  rw [if_pos (all_isDigit_digitsN k n)]
  simp only [digitsValue_digitsN k n hn]
  rw [if_neg]
  simp only [Bool.or_eq_true, decide_eq_true_eq, not_or, not_lt]
  exact ⟨h1, h2⟩

theorem digitsN_two (x : Nat) : digitsN 2 x = [48 + x / 10 % 10, 48 + x % 10] := by
  simp [digitsN]

theorem digitsN_four (x : Nat) :
    digitsN 4 x = [48 + x / 10 / 10 / 10 % 10, 48 + x / 10 / 10 % 10, 48 + x / 10 % 10, 48 + x % 10] := by
  simp [digitsN]

theorem parseRFC3339_cons (y1 y2 y3 y4 m1 m2 d1 d2 h1 h2 i1 i2 s1 s2 : Nat) (tail : GoString) :
    parseRFC3339 (y1 :: y2 :: y3 :: y4 :: 0x2D :: m1 :: m2 :: 0x2D :: d1 :: d2 :: 0x54 :: h1 :: h2
        :: 0x3A :: i1 :: i2 :: 0x3A :: s1 :: s2 :: tail) =
      (parseUint [y1, y2, y3, y4] 0 9999).bind fun year =>
      (parseUint [m1, m2] 1 12).bind fun month =>
      (parseUint [d1, d2] 1 (daysIn month year)).bind fun day =>
      (parseUint [h1, h2] 0 23).bind fun hour =>
      (parseUint [i1, i2] 0 59).bind fun min =>
      (parseUint [s1, s2] 0 59).bind fun sec =>
      parseZone (dateUnix year month day hour min sec) (parseFraction tail).1
        (parseFraction tail).2 := by
  unfold parseRFC3339
  rw [if_neg (by simp only [List.length_cons]; omega)]
  rfl

/-- The layout `2006-01-02T15:04:05` read back by `parseRFC3339`. -/
theorem parseRFC3339_layout (yn mo dy hh mi ss : Nat) (tail : GoString)
    (hy : yn < 10000) (hmo : 1 ≤ mo ∧ mo ≤ 12) (hdy : 1 ≤ dy ∧ dy ≤ daysIn mo yn)
    (hdy2 : dy < 100) (hhh : hh ≤ 23) (hmi : mi ≤ 59) (hss : ss ≤ 59) :
    parseRFC3339 (digitsN 4 yn ++ [0x2D] ++ digitsN 2 mo ++ [0x2D] ++ digitsN 2 dy ++ [0x54]
        ++ digitsN 2 hh ++ [0x3A] ++ digitsN 2 mi ++ [0x3A] ++ digitsN 2 ss ++ tail) =
      parseZone (dateUnix yn mo dy hh mi ss) (parseFraction tail).1 (parseFraction tail).2 := by
  have p1 := parseUint_digitsN 4 yn 0 9999 (by simpa using hy) (by omega) (by omega)
  have p2 := parseUint_digitsN 2 mo 1 12 (by simp; omega) hmo.1 hmo.2
  have p3 := parseUint_digitsN 2 dy 1 (daysIn mo yn) (by simpa using hdy2) hdy.1 hdy.2
  have p4 := parseUint_digitsN 2 hh 0 23 (by simp; omega) (by omega) hhh
  have p5 := parseUint_digitsN 2 mi 0 59 (by simp; omega) (by omega) hmi
  have p6 := parseUint_digitsN 2 ss 0 59 (by simp; omega) (by omega) hss
  rw [digitsN_four] at p1 ⊢
  rw [digitsN_two] at p2 p3 p4 p5 p6
  rw [digitsN_two, digitsN_two, digitsN_two, digitsN_two, digitsN_two]
  simp only [List.cons_append, List.nil_append, List.append_assoc]
  rw [parseRFC3339_cons, p1]
  simp only [Option.some_bind]
  rw [p2]
  simp only [Option.some_bind]
  rw [p3]
  simp only [Option.some_bind]
  rw [p4]
  simp only [Option.some_bind]
  rw [p5]
  simp only [Option.some_bind]
  rw [p6]
  simp only [Option.some_bind]

theorem parseZone_cons (unix : Int) (nsec sg a b c d : Nat) (hsg : sg = 0x2D ∨ sg = 0x2B) :
    parseZone unix nsec [sg, a, b, 0x3A, c, d] =
      (parseUint [a, b] 0 23).bind fun hr =>
      (parseUint [c, d] 0 59).bind fun mm =>
        some { sec := wrapInt64 (unix - (if sg = 0x2D then -(((hr * 60 + mm) * 60 : Nat) : Int)
                  else (((hr * 60 + mm) * 60 : Nat) : Int)))
               nsec := nsec
               offset := if sg = 0x2D then -(((hr * 60 + mm) * 60 : Nat) : Int)
                  else (((hr * 60 + mm) * 60 : Nat) : Int) } := by
  unfold parseZone
  rcases hsg with h | h <;> subst h <;> rfl

theorem formatZone_nat (n : Nat) (h0 : n ≠ 0) (hn : n < 86400) :
    formatZone (n : Int) = 0x2B :: (digitsN 2 (n / 60 / 60) ++ [0x3A] ++ digitsN 2 (n / 60 % 60)) ∧
    formatZone (-(n : Int)) = (if n / 60 = 0 then 0x2B else 0x2D) ::
      (digitsN 2 (n / 60 / 60) ++ [0x3A] ++ digitsN 2 (n / 60 % 60)) := by
  have e1 : ((n : Int)).tdiv 60 = ((n / 60 : Nat) : Int) := rfl
  have e2 : ((n / 60 : Nat) : Int).tdiv 60 = ((n / 60 / 60 : Nat) : Int) := rfl
  have e3 : ((n / 60 : Nat) : Int).tmod 60 = ((n / 60 % 60 : Nat) : Int) := rfl
  have a1 := appendInt_two (n / 60 / 60) (by omega)
  have a2 := appendInt_two (n / 60 % 60) (by omega)
  constructor
  · unfold formatZone
    rw [if_neg (by omega)]
    simp only [e1]
    rw [if_neg (by omega), if_neg (by omega), e2, e3, a1, a2]
    rfl
  · unfold formatZone
    rw [if_neg (by omega)]
    simp only [Int.neg_tdiv, e1]
    by_cases hz : n / 60 = 0
    · rw [if_neg (by omega), if_neg (by omega), if_pos hz]
      have : -((n / 60 : Nat) : Int) = ((n / 60 : Nat) : Int) := by omega
      rw [this, e2, e3, a1, a2]
      rfl
    · rw [if_pos (by omega), if_pos (by omega), if_neg hz, neg_neg, e2, e3, a1, a2]
      rfl

/-- The zone written by `formatZone` read back by `parseZone`: the offset comes back truncated to whole
minutes, and the seconds are shifted by that truncated offset. -/
theorem parseZone_formatZone (unix : Int) (nsec : Nat) (offset : Int)
    (h : -86400 < offset ∧ offset < 86400) :
    parseZone unix nsec (formatZone offset) =
      some (if offset = 0 then { sec := unix, nsec := nsec, offset := 0 }
            else { sec := wrapInt64 (unix - offset.tdiv 60 * 60), nsec := nsec,
                   offset := offset.tdiv 60 * 60 }) := by
  by_cases h0 : offset = 0
  · subst h0; rfl
  · rw [if_neg h0]
    have hp1 : ∀ n : Nat, n < 86400 →
        parseUint (digitsN 2 (n / 60 / 60)) 0 23 = some (n / 60 / 60) := fun n hn =>
      parseUint_digitsN 2 _ 0 23 (by simp; omega) (by omega) (by omega)
    have hp2 : ∀ n : Nat, parseUint (digitsN 2 (n / 60 % 60)) 0 59 = some (n / 60 % 60) := fun n =>
      parseUint_digitsN 2 _ 0 59 (by simp; omega) (by omega) (by omega)
    rcases Int.eq_nat_or_neg offset with ⟨n, rfl | rfl⟩
    · have hn : n < 86400 := by omega
      have hn0 : n ≠ 0 := by omega
      rw [(formatZone_nat n hn0 hn).1, digitsN_two, digitsN_two]
      simp only [List.cons_append, List.nil_append]
      rw [parseZone_cons _ _ _ _ _ _ _ (Or.inr rfl), ← digitsN_two, ← digitsN_two, hp1 n hn, hp2 n]
      simp only [Option.some_bind]
      have e1 : ((n : Int)).tdiv 60 = ((n / 60 : Nat) : Int) := rfl
      have e : (((n / 60 / 60 * 60 + n / 60 % 60) * 60 : Nat) : Int) = (n : Int).tdiv 60 * 60 := by
        rw [e1]; push_cast; omega
      simp only [e]
      rfl
    · have hn : n < 86400 := by omega
      have hn0 : n ≠ 0 := by omega
      rw [(formatZone_nat n hn0 hn).2, digitsN_two, digitsN_two]
      simp only [List.cons_append, List.nil_append]
      have e1 : ((n : Int)).tdiv 60 = ((n / 60 : Nat) : Int) := rfl
      by_cases hz : n / 60 = 0
      · rw [if_pos hz, parseZone_cons _ _ _ _ _ _ _ (Or.inr rfl), ← digitsN_two, ← digitsN_two,
          hp1 n hn, hp2 n]
        simp only [Option.some_bind]
        have e : (((n / 60 / 60 * 60 + n / 60 % 60) * 60 : Nat) : Int) = (-(n : Int)).tdiv 60 * 60 := by
          rw [Int.neg_tdiv, e1]; push_cast; omega
        simp only [e]
        rfl
      · rw [if_neg hz, parseZone_cons _ _ _ _ _ _ _ (Or.inl rfl), ← digitsN_two, ← digitsN_two,
          hp1 n hn, hp2 n]
        simp only [Option.some_bind]
        have e : -(((n / 60 / 60 * 60 + n / 60 % 60) * 60 : Nat) : Int) = (-(n : Int)).tdiv 60 * 60 := by
          rw [Int.neg_tdiv, e1]; push_cast; omega
        simp only [if_true, e]

theorem locabs_lt (t : Time) : locabs t < 18446744073709551616 := by
  unfold locabs; omega

theorem absClock_spec (abs : Nat) :
    (absClock abs).1 ≤ 23 ∧ (absClock abs).2.1 ≤ 59 ∧ (absClock abs).2.2 ≤ 59 ∧
    (absClock abs).1 * 3600 + (absClock abs).2.1 * 60 + (absClock abs).2.2 = abs % 86400 := by
  unfold absClock
  simp only []
  omega

/-- The calendar fields of a representable time, and the date they are read back as. -/
theorem absDate_spec (t : Time) (hw : t.wellFormed = true) (hr : t.representable = true) :
    ∃ yn : Nat, (absDate (locabs t)).1 = (yn : Int) ∧ yn < 10000 ∧
      1 ≤ (absDate (locabs t)).2.1 ∧ (absDate (locabs t)).2.1 ≤ 12 ∧
      1 ≤ (absDate (locabs t)).2.2 ∧
      (absDate (locabs t)).2.2 ≤ daysIn (absDate (locabs t)).2.1 (yn : Int) ∧
      (absDate (locabs t)).2.2 < 100 ∧
      dateUnix yn (absDate (locabs t)).2.1 (absDate (locabs t)).2.2 (absClock (locabs t)).1
        (absClock (locabs t)).2.1 (absClock (locabs t)).2.2 = t.sec + t.offset ∧
      -74759377600 ≤ t.sec + t.offset ∧ t.sec + t.offset < 253433943200 := by
  have habs := locabs_lt t
  obtain ⟨y1, y2, y3⟩ := absYearDay_spec (locabs t) habs
  simp only [Time.representable, Time.year, Bool.and_eq_true, decide_eq_true_eq] at hr
  simp only [Time.wellFormed, Bool.and_eq_true, decide_eq_true_eq] at hw
  obtain ⟨⟨⟨hr1, hr2⟩, hr3⟩, hr4⟩ := hr
  have hyear : (absDate (locabs t)).1 = (absYearDay (locabs t)).1 := rfl
  have hmd : (absDate (locabs t)).2 =
      monthDay (isLeap (absYearDay (locabs t)).1) (absYearDay (locabs t)).2 := rfl
  rw [hyear] at hr1 hr2
  obtain ⟨yn, hyn⟩ : ∃ yn : Nat, (absYearDay (locabs t)).1 = (yn : Int) :=
    ⟨(absYearDay (locabs t)).1.toNat, by omega⟩
  have hm := monthDay_spec (isLeap (absYearDay (locabs t)).1) (absYearDay (locabs t)).2 y3
    (by
      by_cases hl : isLeap (absYearDay (locabs t)).1 = true
      · simpa [hl] using y2
      · simp only [hl] at y2 ⊢
        simpa using y2)
  rw [← hmd] at hm
  obtain ⟨m1, m2, m3, m4, m5⟩ := hm
  obtain ⟨c1, c2, c3, c4⟩ := absClock_spec (locabs t)
  have hfin : dateUnix yn (absDate (locabs t)).2.1 (absDate (locabs t)).2.2 (absClock (locabs t)).1
        (absClock (locabs t)).2.1 (absClock (locabs t)).2.2 = t.sec + t.offset ∧
      -74759377600 ≤ t.sec + t.offset ∧ t.sec + t.offset < 253433943200 := by
    have hds := daysSinceEpoch_of_nat (yn + 292277022399) (by omega)
    have hcast : (((yn + 292277022399 : Nat) : Int) + (-292277022399)) = (yn : Int) := by
      push_cast; omega
    rw [hcast] at hds
    rw [hyn] at y1 m5
    have hd : daysSinceEpoch (yn : Int) + daysBefore ((absDate (locabs t)).2.1 - 1) +
        (if (isLeap (yn : Int) && decide ((absDate (locabs t)).2.1 ≥ 3)) = true then 1 else 0) +
        ((absDate (locabs t)).2.2 - 1) = locabs t / 86400 := by
      omega
    have hdu : dateUnix yn (absDate (locabs t)).2.1 (absDate (locabs t)).2.2 (absClock (locabs t)).1
        (absClock (locabs t)).2.1 (absClock (locabs t)).2.2 =
        wrapInt64 (wrapInt64 ((locabs t : Nat) : Int) - unixToAbsolute) := by
      unfold dateUnix
      simp only []
      have e : ((if (isLeap (yn : Int) && decide ((absDate (locabs t)).2.1 ≥ 3)) = true then
            daysSinceEpoch (yn : Int) + daysBefore ((absDate (locabs t)).2.1 - 1) + 1
          else daysSinceEpoch (yn : Int) + daysBefore ((absDate (locabs t)).2.1 - 1)) +
          ((absDate (locabs t)).2.2 - 1)) * 86400 +
          ((absClock (locabs t)).1 * 3600 + (absClock (locabs t)).2.1 * 60 +
            (absClock (locabs t)).2.2) = locabs t := by
        split_ifs at hd ⊢ <;> omega
      rw [e, Nat.mod_eq_of_lt habs]
    rw [hdu]
    have hq : locabs t / 86400 = daysSinceEpoch (yn : Int) + (absYearDay (locabs t)).2 := by
      omega
    have hds2 : 106751990207835 ≤ daysSinceEpoch (yn : Int) ∧
        daysSinceEpoch (yn : Int) ≤ 106751994005991 := by
      have b1 : 730692555 ≤ (yn + 292277022399) / 400 ∧ (yn + 292277022399) / 400 ≤ 730692580 := by
        omega
      have b2 : (yn + 292277022399) % 400 / 100 ≤ 3 := by omega
      have b3 : (yn + 292277022399) % 100 / 4 ≤ 24 := by omega
      have b4 : (yn + 292277022399) % 4 ≤ 3 := by omega
      generalize (yn + 292277022399) / 400 = a at hds b1
      generalize (yn + 292277022399) % 400 / 100 = b at hds b2
      generalize (yn + 292277022399) % 100 / 4 = c at hds b3
      generalize (yn + 292277022399) % 4 = d at hds b4
      clear hq hdu hd m5 m4 c4 y1 hcast
      omega
    have hrange : 9223371953955944000 ≤ locabs t ∧ locabs t < 9223372282149264000 := by
      clear hds hdu hd m5 m4 c4 y1 hcast
      omega
    have hloc : ((locabs t : Nat) : Int) = (t.sec + t.offset + unixToAbsolute) % 18446744073709551616 := by
      unfold locabs
      omega
    have hr' : (9223371953955944000 : Int) ≤ ((locabs t : Nat) : Int) ∧
        ((locabs t : Nat) : Int) < 9223372282149264000 := by omega
    clear hds hds2 hq hdu hd m5 m4 m3 m2 m1 c1 c2 c3 c4 y1 y2 y3 hcast hyn hmd hyear hr1 hr2 hrange
    rw [hloc] at hr' ⊢
    unfold wrapInt64 unixToAbsolute
    unfold unixToAbsolute at hr'
    omega
  refine ⟨yn, by rw [hyear, hyn], by omega, m1, m2, m3, ?_, ?_, hfin⟩
  · unfold daysIn
    rw [← hyn]
    exact m4
  · have hb : ∀ m : Nat, daysBefore m - daysBefore (m - 1) ≤ 31 := by
      intro m
      rcases m with _ | _ | _ | _ | _ | _ | _ | _ | _ | _ | _ | _ | _ | m <;> simp [daysBefore]
    have := hb (absDate (locabs t)).2.1
    split_ifs at m4 <;> omega

theorem formatZone_head (offset : Int) :
    ∃ c rest, formatZone offset = c :: rest ∧ isDigit c = false ∧ c ≠ 0x2E := by
  by_cases h0 : offset = 0
  · exact ⟨0x5A, [], by simp [formatZone, h0], rfl, by decide⟩
  · by_cases hz : offset.tdiv 60 < 0
    · exact ⟨0x2D, _, by simp only [formatZone, h0, hz, if_true, if_false, List.cons_append,
        List.nil_append, List.append_assoc]; rfl, rfl, by decide⟩
    · exact ⟨0x2B, _, by simp only [formatZone, h0, hz, if_true, if_false, List.cons_append,
        List.nil_append, List.append_assoc]; rfl, rfl, by decide⟩

/-- What `appendFormatRFC3339` writes for a representable time. -/
theorem appendFormatRFC3339_eq (t : Time) (yn : Nat) (hy : (absDate (locabs t)).1 = (yn : Int))
    (hyn : yn < 10000) (hmo : (absDate (locabs t)).2.1 < 100) (hdy : (absDate (locabs t)).2.2 < 100) :
    appendFormatRFC3339 t =
      digitsN 4 yn ++ [0x2D] ++ digitsN 2 (absDate (locabs t)).2.1 ++ [0x2D] ++
        digitsN 2 (absDate (locabs t)).2.2 ++ [0x54] ++ digitsN 2 (absClock (locabs t)).1 ++ [0x3A] ++
        digitsN 2 (absClock (locabs t)).2.1 ++ [0x3A] ++ digitsN 2 (absClock (locabs t)).2.2 ++
        (appendNano t.nsec ++ formatZone t.offset) := by
  obtain ⟨c1, c2, c3, _⟩ := absClock_spec (locabs t)
  unfold appendFormatRFC3339
  simp only []
  rw [hy, appendInt_four yn hyn, appendInt_two _ hmo, appendInt_two _ hdy,
    appendInt_two _ (by omega : (absClock (locabs t)).1 < 100),
    appendInt_two _ (by omega : (absClock (locabs t)).2.1 < 100),
    appendInt_two _ (by omega : (absClock (locabs t)).2.2 < 100)]
  simp only [List.append_assoc]

/-- Reading back what `appendFormatRFC3339` writes for a representable time: the instant and the
nanoseconds come back; the zone offset comes back truncated to whole minutes,
and the seconds shifted by what was cut off. -/
theorem parseRFC3339_format (t : Time) (hw : t.wellFormed = true) (hr : t.representable = true) :
    parseRFC3339 (appendFormatRFC3339 t) =
      some { sec := t.sec + t.offset - t.offset.tdiv 60 * 60, nsec := t.nsec,
             offset := t.offset.tdiv 60 * 60 } := by
  obtain ⟨yn, hy, hyn, m1, m2, m3, m4, m5, hdu, hlo, hhi⟩ := absDate_spec t hw hr
  obtain ⟨c1, c2, c3, _⟩ := absClock_spec (locabs t)
  obtain ⟨c, rest, hz, hzd, hzp⟩ := formatZone_head t.offset
  simp only [Time.representable, Bool.and_eq_true, decide_eq_true_eq] at hr
  simp only [Time.wellFormed, Bool.and_eq_true, decide_eq_true_eq] at hw
  rw [appendFormatRFC3339_eq t yn hy hyn (by omega) m5,
    parseRFC3339_layout yn _ _ _ _ _ _ hyn ⟨m1, m2⟩ ⟨m3, m4⟩ m5 c1 c2 c3, hdu, hz,
    parseFraction_appendNano _ _ _ hw.2 hzd hzp, ← hz,
    parseZone_formatZone _ _ _ ⟨hr.1.2, hr.2⟩]
  by_cases h0 : t.offset = 0
  · rw [if_pos h0, h0]
    simp
  · rw [if_neg h0]
    have hs : wrapInt64 (t.sec + t.offset - t.offset.tdiv 60 * 60) =
        t.sec + t.offset - t.offset.tdiv 60 * 60 := by
      have hb : -60 < t.offset - t.offset.tdiv 60 * 60 ∧ t.offset - t.offset.tdiv 60 * 60 < 60 := by
        rcases Int.eq_nat_or_neg t.offset with ⟨n, h | h⟩
        · have e1 : ((n : Int)).tdiv 60 = ((n / 60 : Nat) : Int) := rfl
          rw [h, e1]; omega
        · have e1 : ((n : Int)).tdiv 60 = ((n / 60 : Nat) : Int) := rfl
          rw [h, Int.neg_tdiv, e1]; omega
      unfold wrapInt64
      omega
    rw [hs]

theorem formatZone_shape (offset : Int) (h0 : offset ≠ 0) (h : -86400 < offset ∧ offset < 86400) :
    ∃ sg zh zm, (sg = 0x2B ∨ sg = 0x2D) ∧ zh < 24 ∧ zm < 60 ∧
      formatZone offset = [sg, 48 + zh / 10 % 10, 48 + zh % 10, 0x3A, 48 + zm / 10 % 10, 48 + zm % 10] := by
  rcases Int.eq_nat_or_neg offset with ⟨n, rfl | rfl⟩
  · have hn : n < 86400 := by omega
    refine ⟨0x2B, n / 60 / 60, n / 60 % 60, Or.inl rfl, by omega, by omega, ?_⟩
    rw [(formatZone_nat n (by omega) hn).1, digitsN_two, digitsN_two]
    rfl
  · have hn : n < 86400 := by omega
    refine ⟨if n / 60 = 0 then 0x2B else 0x2D, n / 60 / 60, n / 60 % 60, ?_, by omega, by omega, ?_⟩
    · split_ifs
      · exact Or.inl rfl
      · exact Or.inr rfl
    · rw [(formatZone_nat n (by omega) hn).2, digitsN_two, digitsN_two]
      rfl

/-- The strict check of `appendStrictRFC3339` passes for a representable time. -/
theorem appendStrictRFC3339_representable (t : Time) (hw : t.wellFormed = true)
    (hr : t.representable = true) :
    appendStrictRFC3339 t = some (appendFormatRFC3339 t) := by
  obtain ⟨yn, hy, hyn, m1, m2, m3, m4, m5, hdu, hlo, hhi⟩ := absDate_spec t hw hr
  have hfmt := appendFormatRFC3339_eq t yn hy hyn (by omega) m5
  simp only [Time.representable, Bool.and_eq_true, decide_eq_true_eq] at hr
  unfold appendStrictRFC3339
  simp only []
  have h4 : (appendFormatRFC3339 t).getD 4 0 = 0x2D := by
    rw [hfmt, digitsN_four]
    rfl
  rw [h4]
  simp only [bne_self_eq_false, Bool.false_eq_true, if_false]
  by_cases h0 : t.offset = 0
  · have hl : (appendFormatRFC3339 t).getLast? = some 0x5A := by
      rw [hfmt, ← List.append_assoc, h0]
      have : formatZone 0 = [0x5A] := rfl
      rw [this]
      exact List.getLast?_concat _
    rw [hl]
    simp
  · obtain ⟨sg, zh, zm, hsg, hzh, hzm, hz⟩ := formatZone_shape t.offset h0 ⟨hr.1.2, hr.2⟩
    have hP := hfmt
    rw [← List.append_assoc, hz] at hP
    generalize digitsN 4 yn ++ [0x2D] ++ digitsN 2 (absDate (locabs t)).2.1 ++ [0x2D] ++
        digitsN 2 (absDate (locabs t)).2.2 ++ [0x54] ++ digitsN 2 (absClock (locabs t)).1 ++ [0x3A] ++
        digitsN 2 (absClock (locabs t)).2.1 ++ [0x3A] ++ digitsN 2 (absClock (locabs t)).2.2 ++
        appendNano t.nsec = P at hP
    have hl : (appendFormatRFC3339 t).getLast? = some (48 + zm % 10) := by
      rw [hP]
      have : P ++ [sg, 48 + zh / 10 % 10, 48 + zh % 10, 0x3A, 48 + zm / 10 % 10, 48 + zm % 10] =
          (P ++ [sg, 48 + zh / 10 % 10, 48 + zh % 10, 0x3A, 48 + zm / 10 % 10]) ++ [48 + zm % 10] := by
        simp
      rw [this]
      exact List.getLast?_concat _
    have hlen : (appendFormatRFC3339 t).length = P.length + 6 := by
      rw [hP]; simp
    have hc : (appendFormatRFC3339 t).getD ((appendFormatRFC3339 t).length - 6) 0 = sg := by
      rw [hlen, hP, Nat.add_sub_cancel]
      rw [List.getD_append_right _ _ _ _ (le_refl _), Nat.sub_self]
      rfl
    have hd : (appendFormatRFC3339 t).drop ((appendFormatRFC3339 t).length - 5) =
        [48 + zh / 10 % 10, 48 + zh % 10, 0x3A, 48 + zm / 10 % 10, 48 + zm % 10] := by
      rw [hlen, hP]
      have : P.length + 6 - 5 = P.length + 1 := by omega
      rw [this]
      have e : P ++ [sg, 48 + zh / 10 % 10, 48 + zh % 10, 0x3A, 48 + zm / 10 % 10, 48 + zm % 10] =
          (P ++ [sg]) ++ [48 + zh / 10 % 10, 48 + zh % 10, 0x3A, 48 + zm / 10 % 10, 48 + zm % 10] := by
        simp
      rw [e]
      exact List.drop_left' (by simp)
    rw [hl, hc, hd]
    have hne : ((some (48 + zm % 10) : Option Nat) != some 0x5A) = true := by
      simp only [bne_iff_ne, ne_eq, Option.some.injEq]
      omega
    rw [if_pos hne, if_neg]
    simp only [Bool.or_eq_true, decide_eq_true_eq, not_or, num2, List.getD_cons_zero,
      List.getD_cons_succ, ge_iff_le, not_le]
    constructor
    · rcases hsg with h | h <;> rw [h] <;> decide
    · have e1 : (48 + zh / 10 % 10 + 256 - 48) % 256 = zh / 10 := by
        clear hP hl hlen hc hd hfmt hdu h4 hz
        omega
      have e2 : (48 + zh % 10 + 256 - 48) % 256 = zh % 10 := by
        clear hP hl hlen hc hd hfmt hdu h4 hz
        omega
      rw [e1, e2]
      clear hP hl hlen hc hd hfmt hdu h4 hz e1 e2
      omega

theorem marshalJSON_representable (t : Time) (hw : t.wellFormed = true)
    (hr : t.representable = true) :
    t.marshalJSON = some ([0x22] ++ appendFormatRFC3339 t ++ [0x22]) := by
  unfold Time.marshalJSON
  rw [appendStrictRFC3339_representable t hw hr]
  rfl

/-! ## The bodies of the health and version handlers -/

theorem stringLoop_safe (n : Nat) : ∀ s : GoString, s.length ≤ n →
    (∀ b ∈ s, htmlSafe b = true) → stringLoop n s = s := by
  induction n with
  | zero =>
    intro s hs _
    have : s = [] := List.length_eq_zero.mp (by omega)
    subst this; rfl
  | succ n ih =>
    intro s hs h
    cases s with
    | nil => rfl
    | cons b rest =>
      have hb := h b (List.mem_cons_self _ _)
      have hlt : b < 0x80 := by
        simp only [htmlSafe, Bool.and_eq_true, decide_eq_true_eq] at hb
        omega
      rw [stringLoop_ascii n b rest hlt, if_pos hb,
        ih rest (by simpa using hs) (fun x hx => h x (List.mem_cons_of_mem _ hx))]
      rfl

theorem coerceLoop_safe (n : Nat) : ∀ s : GoString, s.length ≤ n →
    (∀ b ∈ s, htmlSafe b = true) → coerceLoop n s = s := by
  induction n with
  | zero =>
    intro s hs _
    have : s = [] := List.length_eq_zero.mp (by omega)
    subst this; rfl
  | succ n ih =>
    intro s hs h
    cases s with
    | nil => rfl
    | cons b rest =>
      have hb := h b (List.mem_cons_self _ _)
      have hlt : b < 0x80 := by
        simp only [htmlSafe, Bool.and_eq_true, decide_eq_true_eq] at hb
        omega
      rw [coerceLoop_ascii n b rest hlt,
        ih rest (by simpa using hs) (fun x hx => h x (List.mem_cons_of_mem _ hx))]

/-- A string of bytes that need no escaping is its own JSON literal, and is read
back as it stands. -/
theorem decodesTo_safe (s : GoString) (h : ∀ b ∈ s, htmlSafe b = true) :
    DecodesTo ([0x22] ++ s ++ [0x22]) (JVal.str s s) := by
  have hd := decodesTo_string s
  unfold encodeString coerceUTF8 at hd
  rw [stringLoop_safe s.length s le_rfl h, coerceLoop_safe s.length s le_rfl h] at hd
  exact hd

theorem digitsN_safe (k n : Nat) : ∀ b ∈ digitsN k n, htmlSafe b = true := by
  induction k generalizing n with
  | zero => intro b hb; simp [digitsN] at hb
  | succ k ih =>
    intro b hb
    simp only [digitsN, List.mem_append, List.mem_singleton] at hb
    rcases hb with hb | hb
    · exact ih _ b hb
    · subst hb
      simp only [htmlSafe, Bool.and_eq_true, decide_eq_true_eq, bne_iff_ne, ne_eq]
      omega

theorem appendNano_safe (n : Nat) (hn : n < 1000000000) : ∀ b ∈ appendNano n, htmlSafe b = true := by
  by_cases h0 : n = 0
  · subst h0; intro b hb; simp [appendNano] at hb
  · obtain ⟨k, m, _, _, _, _, hap⟩ := appendNano_pos n h0 hn
    rw [hap]
    intro b hb
    simp only [List.mem_cons] at hb
    rcases hb with hb | hb
    · subst hb; rfl
    · exact digitsN_safe _ _ b hb

theorem formatZone_safe (offset : Int) (h : -86400 < offset ∧ offset < 86400) :
    ∀ b ∈ formatZone offset, htmlSafe b = true := by
  by_cases h0 : offset = 0
  · subst h0; intro b hb
    have : formatZone 0 = [0x5A] := rfl
    rw [this] at hb
    simp only [List.mem_singleton] at hb
    subst hb; rfl
  · obtain ⟨sg, zh, zm, hsg, _, _, hz⟩ := formatZone_shape offset h0 h
    rw [hz]
    intro b hb
    simp only [List.mem_cons, List.mem_singleton, List.mem_nil_iff, or_false] at hb
    rcases hb with hb | hb | hb | hb | hb | hb
    · rcases hsg with h1 | h1 <;> subst hb <;> rw [h1] <;> rfl
    all_goals
      subst hb
      simp only [htmlSafe, Bool.and_eq_true, decide_eq_true_eq, bne_iff_ne, ne_eq]
      omega

/-- No byte of a formatted time needs escaping in JSON. -/
theorem appendFormatRFC3339_safe (t : Time) (hw : t.wellFormed = true)
    (hr : t.representable = true) : ∀ b ∈ appendFormatRFC3339 t, htmlSafe b = true := by
  obtain ⟨yn, hy, hyn, m1, m2, m3, m4, m5, _⟩ := absDate_spec t hw hr
  rw [appendFormatRFC3339_eq t yn hy hyn (by omega) m5]
  simp only [Time.representable, Bool.and_eq_true, decide_eq_true_eq] at hr
  simp only [Time.wellFormed, Bool.and_eq_true, decide_eq_true_eq] at hw
  intro b hb
  simp only [List.mem_append, List.mem_singleton] at hb
  rcases hb with ((((((((((hb | hb) | hb) | hb) | hb) | hb) | hb) | hb) | hb) | hb) | hb) | (hb | hb)
  all_goals first
    | exact digitsN_safe _ _ b hb
    | exact appendNano_safe _ hw.2 b hb
    | exact formatZone_safe _ ⟨hr.1.2, hr.2⟩ b hb
    | (subst hb; rfl)

theorem unmarshalJSON_quoted (s : GoString) :
    Time.unmarshalJSON ([0x22] ++ s ++ [0x22]) = parseRFC3339 s := by
  unfold Time.unmarshalJSON
  simp only [List.singleton_append, List.cons_append]
  rw [List.getLast?_concat, if_pos rfl, List.dropLast_concat, List.nil_append]

/-- The body and status written by the health handler at a representable clock
reading. -/
theorem healthHandler_result (r : Request) (t : Time) (hw : t.wellFormed = true)
    (hr : t.representable = true) :
    (healthHandler newRecorder r t).result.statusCode = 200 ∧
    (healthHandler newRecorder r t).result.body =
      ascii "\x7b\"status\":\"ok\",\"timestamp\":\"" ++ appendFormatRFC3339 t ++ ascii "\"\x7d\n" := by
  unfold healthHandler HealthResponse.marshal
  simp only [marshalJSON_representable t hw hr, Option.map_some']
  constructor
  · rfl
  · have e1 : ascii "\x7b\"status\":\"ok\",\"timestamp\":\"" =
        [0x7B] ++ ascii "\"status\":" ++ encodeString (ascii "ok") ++ [0x2C] ++
          ascii "\"timestamp\":" ++ [0x22] := by decide
    have e2 : ascii "\"\x7d\n" = [0x22, 0x7D, 0x0A] := by decide
    rw [e1, e2]
    simp only [encoderEncode, ResponseRecorder.write, ResponseRecorder.writeHeader,
      ResponseRecorder.result, ResponseRecorder.setHeader, newRecorder, Bool.false_eq_true, if_false,
      List.nil_append, List.append_assoc, List.cons_append, List.singleton_append]

/-- The body and status written by the version handler at a representable clock
reading. -/
theorem versionHandler_result (r : Request) (t : Time) (hw : t.wellFormed = true)
    (hr : t.representable = true) :
    (versionHandler newRecorder r t).result.statusCode = 200 ∧
    (versionHandler newRecorder r t).result.body =
      ascii "\x7b\"version\":\"1.0.0\",\"build_time\":\"" ++ appendFormatRFC3339 t ++
        ascii "\",\"go_version\":\"1.21\"\x7d\n" := by
  unfold versionHandler VersionResponse.marshal
  simp only [marshalJSON_representable t hw hr, Option.map_some']
  constructor
  · rfl
  · have e1 : ascii "\x7b\"version\":\"1.0.0\",\"build_time\":\"" =
        [0x7B] ++ ascii "\"version\":" ++ encodeString (ascii "1.0.0") ++ [0x2C] ++
          ascii "\"build_time\":" ++ [0x22] := by decide
    have e2 : ascii "\",\"go_version\":\"1.21\"\x7d\n" =
        [0x22] ++ [0x2C] ++ ascii "\"go_version\":" ++ encodeString (ascii "1.21") ++ [0x7D] ++
          [0x0A] := by decide
    rw [e1, e2]
    simp only [encoderEncode, ResponseRecorder.write, ResponseRecorder.writeHeader,
      ResponseRecorder.result, ResponseRecorder.setHeader, newRecorder, Bool.false_eq_true, if_false,
      List.nil_append, List.append_assoc, List.cons_append, List.singleton_append]

/-- What the test decoding of the health body gives at a representable clock reading:
status `ok` and the time that `parseRFC3339` reads back. -/
theorem healthHandler_decoded (r : Request) (t : Time) (hw : t.wellFormed = true)
    (hr : t.representable = true) :
    decodeHealthResponse (healthHandler newRecorder r t).result.body =
      some { status := ascii "ok"
             timestamp := { sec := t.sec + t.offset - t.offset.tdiv 60 * 60, nsec := t.nsec,
                            offset := t.offset.tdiv 60 * 60 } } := by
  have hsafe := appendFormatRFC3339_safe t hw hr
  have hd := decodesTo_object
    [ (ascii "status", encodeString (ascii "ok"), JVal.ofString (ascii "ok")),
      (ascii "timestamp", [0x22] ++ appendFormatRFC3339 t ++ [0x22],
        JVal.str (appendFormatRFC3339 t) (appendFormatRFC3339 t)) ]
    (by
      intro m hm
      simp only [List.mem_cons, List.mem_singleton, List.mem_nil_iff, or_false] at hm
      rcases hm with rfl | rfl
      · exact decodesTo_string _
      · exact decodesTo_safe _ hsafe)
  have hv := decodeValue_of_decodesTo _ _ hd
  have hbody : (healthHandler newRecorder r t).result.body =
      [0x7B] ++ joinComma ([ (ascii "status", encodeString (ascii "ok"), JVal.ofString (ascii "ok")),
        (ascii "timestamp", [0x22] ++ appendFormatRFC3339 t ++ [0x22],
          JVal.str (appendFormatRFC3339 t) (appendFormatRFC3339 t)) ].map
            fun m => encodeString m.1 ++ [0x3A] ++ m.2.1) ++ [0x7D] ++ [0x0A] := by
    rw [(healthHandler_result r t hw hr).2]
    have e1 : ascii "\x7b\"status\":\"ok\",\"timestamp\":\"" =
        [0x7B] ++ (encodeString (ascii "status") ++ [0x3A] ++ encodeString (ascii "ok")) ++ [0x2C] ++
          (encodeString (ascii "timestamp") ++ [0x3A]) ++ [0x22] := by decide
    have e2 : ascii "\"\x7d\n" = [0x22, 0x7D, 0x0A] := by decide
    rw [e1, e2]
    simp only [List.map, joinComma, List.nil_append, List.append_assoc, List.cons_append,
      List.singleton_append]
  unfold decodeHealthResponse
  rw [hbody, hv]
  have k1 : coerceUTF8 (ascii "status") = ascii "status" := by decide
  have k2 : coerceUTF8 (ascii "timestamp") = ascii "timestamp" := by decide
  have k3 : coerceUTF8 (ascii "ok") = ascii "ok" := by decide
  have k4 : ¬ ascii "timestamp" = ascii "status" := by decide
  simp only [List.map, decodeFields, HealthResponse.setField, k1, k2, k4, if_true, if_false,
    JVal.ofString, JVal.asString, JVal.asTime, Option.map_some', k3, unmarshalJSON_quoted,
    parseRFC3339_format t hw hr]

/-- What the test decoding of the version body gives at a representable clock reading. -/
theorem versionHandler_decoded (r : Request) (t : Time) (hw : t.wellFormed = true)
    (hr : t.representable = true) :
    decodeVersionResponse (versionHandler newRecorder r t).result.body =
      some { version := ascii "1.0.0"
             buildTime := { sec := t.sec + t.offset - t.offset.tdiv 60 * 60, nsec := t.nsec,
                            offset := t.offset.tdiv 60 * 60 }
             goVersion := ascii "1.21" } := by
  have hsafe := appendFormatRFC3339_safe t hw hr
  have hd := decodesTo_object
    [ (ascii "version", encodeString (ascii "1.0.0"), JVal.ofString (ascii "1.0.0")),
      (ascii "build_time", [0x22] ++ appendFormatRFC3339 t ++ [0x22],
        JVal.str (appendFormatRFC3339 t) (appendFormatRFC3339 t)),
      (ascii "go_version", encodeString (ascii "1.21"), JVal.ofString (ascii "1.21")) ]
    (by
      intro m hm
      simp only [List.mem_cons, List.mem_singleton, List.mem_nil_iff, or_false] at hm
      rcases hm with rfl | rfl | rfl
      · exact decodesTo_string _
      · exact decodesTo_safe _ hsafe
      · exact decodesTo_string _)
  have hv := decodeValue_of_decodesTo _ _ hd
  have hbody : (versionHandler newRecorder r t).result.body =
      [0x7B] ++ joinComma ([ (ascii "version", encodeString (ascii "1.0.0"), JVal.ofString (ascii "1.0.0")),
        (ascii "build_time", [0x22] ++ appendFormatRFC3339 t ++ [0x22],
          JVal.str (appendFormatRFC3339 t) (appendFormatRFC3339 t)),
        (ascii "go_version", encodeString (ascii "1.21"), JVal.ofString (ascii "1.21")) ].map
            fun m => encodeString m.1 ++ [0x3A] ++ m.2.1) ++ [0x7D] ++ [0x0A] := by
    rw [(versionHandler_result r t hw hr).2]
    have e1 : ascii "\x7b\"version\":\"1.0.0\",\"build_time\":\"" =
        [0x7B] ++ (encodeString (ascii "version") ++ [0x3A] ++ encodeString (ascii "1.0.0")) ++
          [0x2C] ++ (encodeString (ascii "build_time") ++ [0x3A]) ++ [0x22] := by decide
    have e2 : ascii "\",\"go_version\":\"1.21\"\x7d\n" =
        [0x22] ++ [0x2C] ++ (encodeString (ascii "go_version") ++ [0x3A] ++
          encodeString (ascii "1.21")) ++ [0x7D] ++ [0x0A] := by decide
    rw [e1, e2]
    simp only [List.map, joinComma, List.nil_append, List.append_assoc, List.cons_append,
      List.singleton_append]
  unfold decodeVersionResponse
  rw [hbody, hv]
  have k1 : coerceUTF8 (ascii "version") = ascii "version" := by decide
  have k2 : coerceUTF8 (ascii "build_time") = ascii "build_time" := by decide
  have k3 : coerceUTF8 (ascii "go_version") = ascii "go_version" := by decide
  have k4 : coerceUTF8 (ascii "1.0.0") = ascii "1.0.0" := by decide
  have k5 : coerceUTF8 (ascii "1.21") = ascii "1.21" := by decide
  have k6 : ¬ ascii "build_time" = ascii "version" := by decide
  have k7 : ¬ ascii "go_version" = ascii "version" := by decide
  have k8 : ¬ ascii "go_version" = ascii "build_time" := by decide
  simp only [List.map, decodeFields, VersionResponse.setField, k1, k2, k3, k6, k7, k8, if_true,
    if_false, JVal.ofString, JVal.asString, JVal.asTime, Option.map_some', k4, k5,
    unmarshalJSON_quoted, parseRFC3339_format t hw hr]

/-! ## The claims about the health and version handlers -/

theorem tdiv_whole (o : Int) (h : o % 60 = 0) : o.tdiv 60 * 60 = o := by
  rcases Int.eq_nat_or_neg o with ⟨n, rfl | rfl⟩
  · have e1 : ((n : Int)).tdiv 60 = ((n / 60 : Nat) : Int) := rfl
    rw [e1]; omega
  · have e1 : ((n : Int)).tdiv 60 = ((n / 60 : Nat) : Int) := rfl
    rw [Int.neg_tdiv, e1]; omega

theorem roundtrip_time (t : Time) (hm : t.wholeMinutes = true) :
    ({ sec := t.sec + t.offset - t.offset.tdiv 60 * 60, nsec := t.nsec,
       offset := t.offset.tdiv 60 * 60 } : Time) = t := by
  simp only [Time.wholeMinutes, decide_eq_true_eq] at hm
  rw [tdiv_whole _ hm]
  cases t
  simp

theorem encoderEncode_status (w : ResponseRecorder) (m : Option GoString)
    (hw : w.wroteHeader = false) (hc : w.code = 200) :
    (encoderEncode w m).result.statusCode = 200 := by
  cases m with
  | none => simp [encoderEncode, ResponseRecorder.result, hc]
  | some b =>
    simp [encoderEncode, ResponseRecorder.write, ResponseRecorder.writeHeader,
      ResponseRecorder.result, hw]

/-- Every handler answers 200, whatever the request and the clock reading. -/
theorem handlers_status (r : Request) (t : Time) :
    (healthHandler newRecorder r t).result.statusCode = 200 ∧
    (versionHandler newRecorder r t).result.statusCode = 200 ∧
    (rootHandler newRecorder r).result.statusCode = 200 := by
  refine ⟨?_, ?_, ?_⟩
  · unfold healthHandler
    exact encoderEncode_status _ _ rfl rfl
  · unfold versionHandler
    exact encoderEncode_status _ _ rfl rfl
  · unfold rootHandler
    exact encoderEncode_status _ _ rfl rfl

/-- C1 (amended). For every request and every clock reading the health handler answers 200 and
its response does not depend on the request; for every clock reading `t` that RFC 3339
can represent (year 0 to 9999, zone offset a whole number of minutes under 24
hours) the body decodes to a `HealthResponse` with status `ok` and timestamp `t`. -/
theorem healthHandler_contract (r r' : Request) (t : Time) :
    (healthHandler newRecorder r t).result.statusCode = 200 ∧
    healthHandler newRecorder r t = healthHandler newRecorder r' t ∧
    (t.wellFormed = true → t.representable = true → t.wholeMinutes = true →
      decodeHealthResponse (healthHandler newRecorder r t).result.body =
        some { status := ascii "ok", timestamp := t }) := by
  refine ⟨(handlers_status r t).1, rfl, ?_⟩
  intro hw hr hm
  rw [healthHandler_decoded r t hw hr, roundtrip_time t hm]

theorem healthHandler_contract_witness :
    decodeHealthResponse (healthHandler newRecorder
        (⟨ascii "POST", ascii "/healthz", ascii "example.com", [], ascii "x"⟩ : Request)
        ⟨1794528000, 123456789, 19800⟩).result.body =
      some { status := ascii "ok", timestamp := ⟨1794528000, 123456789, 19800⟩ } :=
  (healthHandler_contract _ (⟨[], [], [], [], []⟩ : Request) _).2.2 (by decide) (by decide)
    (by decide)

/-- C1 (counterexample). At the clock reading 10000-01-01T00:00:00Z the timestamp cannot be marshalled, `Encode`
returns an error and the body stays empty, so nothing decodes; at a clock
reading whose zone offset is 90 seconds the decoded timestamp is not the clock
reading (the offset is written in whole minutes). -/
theorem healthHandler_contract_counterexample :
    (healthHandler newRecorder (⟨ascii "GET", ascii "/healthz", ascii "example.com", [], []⟩ : Request)
        ⟨253402300800, 0, 0⟩).result.body = [] ∧
    decodeHealthResponse (healthHandler newRecorder
        (⟨ascii "GET", ascii "/healthz", ascii "example.com", [], []⟩ : Request)
        ⟨253402300800, 0, 0⟩).result.body = none ∧
    decodeHealthResponse (healthHandler newRecorder
        (⟨ascii "GET", ascii "/healthz", ascii "example.com", [], []⟩ : Request)
        ⟨1794528000, 0, 90⟩).result.body =
      some { status := ascii "ok", timestamp := ⟨1794528030, 0, 60⟩ } := by
  decide

/-- C2 (amended). For every request the version handler answers 200; at every clock reading that
RFC 3339 can represent the decoded body has version `1.0.0` and Go (runtime)
version `1.21`. -/
theorem versionHandler_contract (r : Request) (t : Time) :
    (versionHandler newRecorder r t).result.statusCode = 200 ∧
    (t.wellFormed = true → t.representable = true →
      ∃ v, decodeVersionResponse (versionHandler newRecorder r t).result.body = some v ∧
        v.version = ascii "1.0.0" ∧ v.goVersion = ascii "1.21") := by
  refine ⟨(handlers_status r t).2.1, ?_⟩
  intro hw hr
  exact ⟨_, versionHandler_decoded r t hw hr, rfl, rfl⟩

theorem versionHandler_contract_witness :
    ∃ v, decodeVersionResponse (versionHandler newRecorder
        (⟨ascii "GET", ascii "/version", ascii "example.com", [], []⟩ : Request)
        ⟨1794528000, 5, -19830⟩).result.body = some v ∧
      v.version = ascii "1.0.0" ∧ v.goVersion = ascii "1.21" :=
  (versionHandler_contract _ _).2 (by decide) (by decide)

/-- C2 (counterexample). At the clock reading 10000-01-01T00:00:00Z the version handler writes no body, so
there is no version to decode. -/
theorem versionHandler_contract_counterexample :
    (versionHandler newRecorder (⟨ascii "GET", ascii "/version", ascii "example.com", [], []⟩ : Request)
        ⟨253402300800, 0, 0⟩).result.body = [] ∧
    decodeVersionResponse (versionHandler newRecorder
        (⟨ascii "GET", ascii "/version", ascii "example.com", [], []⟩ : Request)
        ⟨253402300800, 0, 0⟩).result.body = none := by
  decide

/-- C7 (amended). Wire format of the two fixed-shape endpoints: at every clock reading that RFC 3339 can
represent, and for every request, the body written by `healthHandler` is
`{"status":"ok","timestamp":"<RFC3339>"}` followed by a newline, and the body written by
`versionHandler` is `{"version":"1.0.0","build_time":"<RFC3339>","go_version":"1.21"}` followed by
a newline, with exactly these keys in this order; the timestamp is the same
string in both, and `parseRFC3339` accepts it. -/
theorem wire_format (r : Request) (t : Time) (hw : t.wellFormed = true)
    (hr : t.representable = true) :
    (healthHandler newRecorder r t).result.body =
      ascii "\x7b\"status\":\"ok\",\"timestamp\":\"" ++ appendFormatRFC3339 t ++ ascii "\"\x7d" ++
        [0x0A] ∧
    (versionHandler newRecorder r t).result.body =
      ascii "\x7b\"version\":\"1.0.0\",\"build_time\":\"" ++ appendFormatRFC3339 t ++
        ascii "\",\"go_version\":\"1.21\"\x7d" ++ [0x0A] ∧
    (parseRFC3339 (appendFormatRFC3339 t)).isSome = true := by
  refine ⟨?_, ?_, ?_⟩
  · rw [(healthHandler_result r t hw hr).2]
    have e : ascii "\"\x7d\n" = ascii "\"\x7d" ++ [0x0A] := by decide
    rw [e, List.append_assoc, List.append_assoc, List.append_assoc]
  · rw [(versionHandler_result r t hw hr).2]
    have e : ascii "\",\"go_version\":\"1.21\"\x7d\n" =
        ascii "\",\"go_version\":\"1.21\"\x7d" ++ [0x0A] := by decide
    rw [e, List.append_assoc, List.append_assoc, List.append_assoc]
  · rw [parseRFC3339_format t hw hr]
    rfl

theorem wire_format_witness :
    (healthHandler newRecorder (⟨ascii "GET", ascii "/healthz", ascii "example.com", [], []⟩ : Request)
        ⟨1794528000, 250000000, 3600⟩).result.body =
      ascii "\x7b\"status\":\"ok\",\"timestamp\":\"" ++ appendFormatRFC3339 ⟨1794528000, 250000000, 3600⟩
        ++ ascii "\"\x7d" ++ [0x0A] ∧
    appendFormatRFC3339 ⟨1794528000, 250000000, 3600⟩ = ascii "2026-11-13T01:00:00.25+01:00" :=
  ⟨(wire_format _ _ (by decide) (by decide)).1, by decide⟩

/-- C7 (counterexample). The body is not the JSON object alone: `Encode` ends it with a newline.  At the
clock reading 2026-11-13T00:00:00Z the health body is the object and a newline,
which differs from the object as the claim gives it. -/
theorem wire_format_counterexample :
    (healthHandler newRecorder (⟨ascii "GET", ascii "/healthz", ascii "example.com", [], []⟩ : Request)
        ⟨1794528000, 0, 0⟩).result.body =
      ascii "\x7b\"status\":\"ok\",\"timestamp\":\"2026-11-13T00:00:00Z\"\x7d\n" ∧
    (healthHandler newRecorder (⟨ascii "GET", ascii "/healthz", ascii "example.com", [], []⟩ : Request)
        ⟨1794528000, 0, 0⟩).result.body ≠
      ascii "\x7b\"status\":\"ok\",\"timestamp\":\"2026-11-13T00:00:00Z\"\x7d" ∧
    (versionHandler newRecorder (⟨ascii "GET", ascii "/version", ascii "example.com", [], []⟩ : Request)
        ⟨1794528000, 0, 0⟩).result.body ≠
      ascii "\x7b\"version\":\"1.0.0\",\"build_time\":\"2026-11-13T00:00:00Z\",\"go_version\":\"1.21\"\x7d" := by
  decide

/-- C8 (amended). No handler rejects a request: for every request, whatever its method, and every clock
reading each handler answers 200.  `rootHandler` always writes a complete serialized
body; `healthHandler` and `versionHandler` write one at every clock reading that RFC 3339 can
represent. -/
theorem handlers_no_rejection (r : Request) (t : Time) :
    (healthHandler newRecorder r t).result.statusCode = 200 ∧
    (versionHandler newRecorder r t).result.statusCode = 200 ∧
    (rootHandler newRecorder r).result.statusCode = 200 ∧
    decodeMap (rootHandler newRecorder r).result.body =
      some (JVal.ofMap
        [ (ascii "message", .str (ascii "Welcome to the Kubernetes Routing Experiment")),
          (ascii "path", .str r.path), (ascii "method", .str r.method),
          (ascii "headers", .header r.header) ]) ∧
    (t.wellFormed = true → t.representable = true →
      (decodeHealthResponse (healthHandler newRecorder r t).result.body).isSome = true ∧
      (decodeVersionResponse (versionHandler newRecorder r t).result.body).isSome = true) := by
  obtain ⟨h1, h2, h3⟩ := handlers_status r t
  refine ⟨h1, h2, h3, ?_, ?_⟩
  · have hd := decodeValue_of_decodesTo _ _ (decodesTo_map
      [ (ascii "message", .str (ascii "Welcome to the Kubernetes Routing Experiment")),
        (ascii "path", .str r.path), (ascii "method", .str r.method),
        (ascii "headers", .header r.header) ])
    rw [← (rootHandler_result r).2] at hd
    simp only [decodeMap, hd, JVal.ofMap]
  · intro hw hr
    rw [healthHandler_decoded r t hw hr, versionHandler_decoded r t hw hr]
    exact ⟨rfl, rfl⟩

theorem handlers_no_rejection_witness :
    (decodeHealthResponse (healthHandler newRecorder
        (⟨ascii "DELETE", ascii "/healthz", ascii "example.com", [], []⟩ : Request)
        ⟨1794528000, 0, 0⟩).result.body).isSome = true ∧
    (decodeVersionResponse (versionHandler newRecorder
        (⟨ascii "DELETE", ascii "/healthz", ascii "example.com", [], []⟩ : Request)
        ⟨1794528000, 0, 0⟩).result.body).isSome = true :=
  (handlers_no_rejection _ _).2.2.2.2 (by decide) (by decide)

/-- C8 (counterexample). Serialization can fail: at the clock reading 10000-01-01T00:00:00Z `Time.MarshalJSON` reports an
error and both the health and the version handler answer 200 with an empty
body. -/
theorem handlers_no_rejection_counterexample :
    Time.marshalJSON ⟨253402300800, 0, 0⟩ = none ∧
    (healthHandler newRecorder (⟨ascii "POST", ascii "/healthz", ascii "example.com", [], []⟩ : Request)
        ⟨253402300800, 0, 0⟩).result = ⟨200, [(ascii "Content-Type", [ascii "application/json"])], []⟩ ∧
    (versionHandler newRecorder (⟨ascii "POST", ascii "/version", ascii "example.com", [], []⟩ : Request)
        ⟨253402300800, 0, 0⟩).result = ⟨200, [(ascii "Content-Type", [ascii "application/json"])], []⟩ := by
  decide

/-- C9 (amended). The version endpoint's `build_time` is the clock reading at the moment of the request: for
every clock reading `t` that RFC 3339 can represent (year 0 to 9999, zone offset a
whole number of minutes under 24 hours) the decoded body has `build_time = t`, so
invocations at two different such readings return different `build_time` values
while `version` and `go_version` are the same. -/
theorem versionHandler_build_time (r r' : Request) (t t' : Time)
    (hw : t.wellFormed = true) (hr : t.representable = true) (hm : t.wholeMinutes = true)
    (hw' : t'.wellFormed = true) (hr' : t'.representable = true) (hm' : t'.wholeMinutes = true) :
    decodeVersionResponse (versionHandler newRecorder r t).result.body =
      some { version := ascii "1.0.0", buildTime := t, goVersion := ascii "1.21" } ∧
    decodeVersionResponse (versionHandler newRecorder r' t').result.body =
      some { version := ascii "1.0.0", buildTime := t', goVersion := ascii "1.21" } ∧
    (t ≠ t' →
      (versionHandler newRecorder r t).result.body ≠ (versionHandler newRecorder r' t').result.body) := by
  have h1 : decodeVersionResponse (versionHandler newRecorder r t).result.body =
      some { version := ascii "1.0.0", buildTime := t, goVersion := ascii "1.21" } := by
    rw [versionHandler_decoded r t hw hr, roundtrip_time t hm]
  have h2 : decodeVersionResponse (versionHandler newRecorder r' t').result.body =
      some { version := ascii "1.0.0", buildTime := t', goVersion := ascii "1.21" } := by
    rw [versionHandler_decoded r' t' hw' hr', roundtrip_time t' hm']
  refine ⟨h1, h2, ?_⟩
  intro hne hb
  rw [hb, h2] at h1
  simp only [Option.some.injEq, VersionResponse.mk.injEq, true_and, and_true] at h1
  exact hne h1.symm

theorem versionHandler_build_time_witness :
    decodeVersionResponse (versionHandler newRecorder
        (⟨ascii "GET", ascii "/version", ascii "example.com", [], []⟩ : Request)
        ⟨1794528000, 0, 0⟩).result.body =
      some { version := ascii "1.0.0", buildTime := ⟨1794528000, 0, 0⟩, goVersion := ascii "1.21" } ∧
    decodeVersionResponse (versionHandler newRecorder
        (⟨ascii "POST", ascii "/version", ascii "example.com", [], []⟩ : Request)
        ⟨1794528001, 500, 0⟩).result.body =
      some { version := ascii "1.0.0", buildTime := ⟨1794528001, 500, 0⟩, goVersion := ascii "1.21" } ∧
    ((⟨1794528000, 0, 0⟩ : Time) ≠ ⟨1794528001, 500, 0⟩ →
      (versionHandler newRecorder
        (⟨ascii "GET", ascii "/version", ascii "example.com", [], []⟩ : Request)
        ⟨1794528000, 0, 0⟩).result.body ≠
      (versionHandler newRecorder
        (⟨ascii "POST", ascii "/version", ascii "example.com", [], []⟩ : Request)
        ⟨1794528001, 500, 0⟩).result.body) :=
  versionHandler_build_time (⟨ascii "GET", ascii "/version", ascii "example.com", [], []⟩ : Request)
    (⟨ascii "POST", ascii "/version", ascii "example.com", [], []⟩ : Request)
    ⟨1794528000, 0, 0⟩ ⟨1794528001, 500, 0⟩
    (by decide) (by decide) (by decide) (by decide) (by decide) (by decide)

/-- C9 (counterexample). Two different clock readings, one second apart in the year 10000, return the same
(empty) body with no `build_time` at all; and two different clock readings 30 seconds
apart, the earlier one in a zone 30 seconds east of UTC, return the same decoded
`build_time`. -/
theorem versionHandler_build_time_counterexample :
    (versionHandler newRecorder (⟨ascii "GET", ascii "/version", ascii "example.com", [], []⟩ : Request)
        ⟨253402300800, 0, 0⟩).result.body =
      (versionHandler newRecorder (⟨ascii "GET", ascii "/version", ascii "example.com", [], []⟩ : Request)
        ⟨253402300801, 0, 0⟩).result.body ∧
    decodeVersionResponse (versionHandler newRecorder
        (⟨ascii "GET", ascii "/version", ascii "example.com", [], []⟩ : Request)
        ⟨253402300800, 0, 0⟩).result.body = none ∧
    decodeVersionResponse (versionHandler newRecorder
        (⟨ascii "GET", ascii "/version", ascii "example.com", [], []⟩ : Request)
        ⟨1794528000, 0, 30⟩).result.body =
      decodeVersionResponse (versionHandler newRecorder
        (⟨ascii "GET", ascii "/version", ascii "example.com", [], []⟩ : Request)
        ⟨1794528030, 0, 0⟩).result.body := by
  decide

end IngressApp
